import Mathlib

/-
  Verification development for the IVF (inverted-file) k-NN search core of a
  TileDB-based vector-search repository.

  The C++ sources are embedded shallowly:
  * machine floats are modelled by exact rationals (ℚ);
  * column-major matrices become lists of columns (`List Vec`);
  * the partitioned-matrix streamer becomes a pure state machine;
  * fallible code returns `Except`.

  Components whose implementation files are not part of the source sample
  (only their tests or call sites are) are modelled from the specification
  text; each such definition carries a doc comment starting with
  `Modelled from the spec:`.
-/

namespace TDBVS

/-- A feature vector: one column of a column-major matrix. -/
abbrev Vec := List ℚ

/-- Modelled from the spec: the scalar squared-L2 kernel
`L2(a, b) = Σ (aᵢ − bᵢ)²` (spec §4.4; the implementation file defining
`L2` / `sum_of_squares` is not in the source sample). -/
def L2 (a b : Vec) : ℚ :=
  (List.zipWith (fun x y => (x - y) * (x - y)) a b).sum

/-! ### Bounded min-heap of (score, id) pairs

`fixed_min_pair_heap` is used by every query path and by training, but
`utils/fixed_min_heap.h` itself is not in the source sample; the container is
modelled from spec §4.3 / §3: capacity `k`; while fewer than `k` pairs are
held an insert always succeeds; once `k` pairs are held, an insert whose
score is ≥ the current maximum held score is a no-op, otherwise the pair
holding the maximum is displaced.  Held order is unspecified (heap order in
the C++); results are always read back through a terminal sort.  The model
displaces the first pair holding the maximal score, a deterministic choice
of the unspecified tie behaviour. -/

section Heap

variable {S : Type} [LinearOrder S]

/-- `y` holds a maximal score of `h` (no element of `h` scores above it). -/
def isWorst (h : List (S × ℕ)) (y : S × ℕ) : Bool :=
  h.all (fun z => decide (z.1 ≤ y.1))

/-- Modelled from the spec: one `insert(score, id)` on a bounded min-heap of
capacity `k` (spec §4.3). -/
def hInsert (k : ℕ) (h : List (S × ℕ)) (x : S × ℕ) : List (S × ℕ) :=
  if h.length < k then x :: h
  else
    match h.find? (isWorst h) with
    | none => h
    | some w => if x.1 < w.1 then x :: h.eraseP (isWorst h) else h

/-- Insert a whole sequence of (score, id) pairs, left to right. -/
def hFold (k : ℕ) (h : List (S × ℕ)) (xs : List (S × ℕ)) : List (S × ℕ) :=
  xs.foldl (hInsert k) h

/-- Total lexicographic comparison on (score, id) pairs: this is the order
`std::sort_heap` with `std::less` applies to `std::tuple<score, id>` before
results are read out. -/
def pairLe (a b : S × ℕ) : Bool :=
  decide (a.1 < b.1 ∨ (a.1 = b.1 ∧ a.2 ≤ b.2))

/-- Terminal sort of a heap's contents, ascending by (score, id). -/
def heapSort (h : List (S × ℕ)) : List (S × ℕ) :=
  h.mergeSort pairLe

/-- The ids of a heap's contents in ascending (score, id) order: the column
written into the `top_k` output matrix. -/
def heapTopIds (h : List (S × ℕ)) : List ℕ :=
  (heapSort h).map Prod.snd

/-- `H` is a `k`-smallest-by-score selection from the inserted multiset `I`:
it is a sub-multiset, it is as large as capacity and supply allow, and every
score left out is at least every score kept. -/
def SelK (k : ℕ) (I H : Multiset (S × ℕ)) : Prop :=
  H ≤ I ∧ Multiset.card H = min k (Multiset.card I) ∧
    ∀ a ∈ I - H, ∀ b ∈ H, b.1 ≤ a.1

end Heap

/-- `y` holds a minimal score of `h`: the displaced element of the
`std::greater` (max-heap) variant of `fixed_min_pair_heap`. -/
def isWorstUp (h : List (ℚ × ℕ)) (y : ℚ × ℕ) : Bool :=
  h.all (fun z => decide (y.1 ≤ z.1))

/-- Modelled from the spec: `fixed_min_pair_heap` instantiated with
`std::greater` (as in `kmeans_index::train_no_init`) keeps the `k` pairs
with the LARGEST scores; an insert on a full heap whose score is at most the
held minimum is a no-op, otherwise the pair holding the minimum is
displaced. -/
def hInsertUp (k : ℕ) (h : List (ℚ × ℕ)) (x : ℚ × ℕ) : List (ℚ × ℕ) :=
  if h.length < k then x :: h
  else
    match h.find? (isWorstUp h) with
    | none => h
    | some w => if w.1 < x.1 then x :: h.eraseP (isWorstUp h) else h

/-! ### The partitioned-matrix streamer (`tdb_partitioned_matrix.h`)

The streamer is embedded as a pure state machine.  Storage reads are
modelled by direct list indexing into the on-disk data; the subarray range
lists that `advance` builds are reproduced (they matter for the claim that
empty partitions contribute no ranges).  `throw std::runtime_error` sites
become `Except.error`. -/

/-- Errors raised by the streamer (the `std::runtime_error` sites of
`tdb_partitioned_matrix.h`, identified by their message strings). -/
inductive SErr where
  /-- constructor: message string starting with Indices -/
  | invalidIndices
  /-- advance: message string starting with Invalid -/
  | invalidPartitioning
  /-- advance: message string starting with Column -/
  | columnCountMismatch
  deriving DecidableEq

/-- The immutable part of the streamer after construction. -/
structure SConfig where
  /-- `num_array_cols_`: the total column count `N` of the on-disk array. -/
  numArrayCols : ℕ
  /-- `indices_` after the constructor's correction. -/
  indices : List ℕ
  /-- `parts_`: the active partition list. -/
  parts : List ℕ
  /-- `max_cols_`. -/
  maxCols : ℕ
  deriving DecidableEq

/-- The streamer's cursor state (the mutable fields read back through
accessors: `col_view_`, `col_part_view_`, `col_offset_`,
`col_part_offset_`, `num_cols_`, `num_col_parts_`). -/
structure SState where
  colLo : ℕ
  colHi : ℕ
  partLo : ℕ
  partHi : ℕ
  colOffset : ℕ
  partOffset : ℕ
  numCols : ℕ
  numColParts : ℕ
  deriving DecidableEq

/-- The zero-initialized state the constructor starts from. -/
def initState : SState := ⟨0, 0, 0, 0, 0, 0, 0, 0⟩

/-- `indices_[parts_[i]]`: first shuffled column of the i-th active
partition. -/
def activeStart (cfg : SConfig) (i : ℕ) : ℕ :=
  cfg.indices.getD (cfg.parts.getD i 0) 0

/-- `indices_[parts_[i]+1]`: one past the last shuffled column of the i-th
active partition. -/
def activeStop (cfg : SConfig) (i : ℕ) : ℕ :=
  cfg.indices.getD (cfg.parts.getD i 0 + 1) 0

/-- The column count of the i-th active partition. -/
def activeSize (cfg : SConfig) (i : ℕ) : ℕ :=
  activeStop cfg i - activeStart cfg i

/-- The column counts of all active partitions, in order. -/
def activeSizes (cfg : SConfig) : List ℕ :=
  (List.range cfg.parts.length).map (activeSize cfg)

/-- The partition-absorbing loop of `advance`: starting from active
partition `i` with the window currently ending at column `colHi` (and
having started at `colLo`), absorb partitions while the next one still fits
under `colLo + max_cols_`; return the final `colHi` and one-past-the-last
absorbed partition. -/
def absorbGo (cfg : SConfig) (colLo : ℕ) :
    ℕ → ℕ → ℕ → ℕ × ℕ
  | 0, i, colHi => (colHi, i)
  | fuel + 1, i, colHi =>
    if i < cfg.parts.length then
      let sz := activeSize cfg i
      if colHi + sz > colLo + cfg.maxCols then (colHi, i)
      else absorbGo cfg colLo fuel (i + 1) (colHi + sz)
    else (colHi, i)

def absorb (cfg : SConfig) (colLo : ℕ) (i : ℕ) (colHi : ℕ) : ℕ × ℕ :=
  absorbGo cfg colLo (cfg.parts.length - i) i colHi

/-- The subarray ranges `advance` issues for the window of active
partitions `[lo, hi)`: one half-open-turned-inclusive range per partition,
with empty partitions skipped (`if (len == 0) continue;`). -/
def windowRanges (cfg : SConfig) (lo hi : ℕ) : List (ℕ × ℕ) :=
  ((cfg.parts.drop lo).take (hi - lo)).filterMap (fun p =>
    let start := cfg.indices.getD p 0
    let stop := cfg.indices.getD (p + 1) 0
    if stop - start = 0 then none else some (start, stop - 1))

/-- The column count (`col_count`) accumulated while building the window's
ranges; empty partitions are skipped in the source but contribute zero to
the sum either way. -/
def windowColCount (cfg : SConfig) (lo hi : ℕ) : ℕ :=
  (((cfg.parts.drop lo).take (hi - lo)).map (fun p =>
    cfg.indices.getD (p + 1) 0 - cfg.indices.getD p 0)).sum

/-- `tdbPartitionedMatrix::advance`.  Absorbs as many unserved active
partitions as fit, updates the cursors, raises `Invalid partitioning` when
exactly one of `num_cols_` / `num_col_parts_` is zero, returns `false`
(partitions exhausted or none fit) when `num_cols_ == 0`, otherwise checks
the window's column count against the built ranges (the identical check is
performed again on the ids side) and returns `true`. -/
def advance (cfg : SConfig) (s : SState) : Except SErr (SState × Bool) :=
  let colLo := s.colHi
  let partLo := s.partHi
  let r := absorb cfg colLo partLo colLo
  let colHi := r.1
  let partHi := r.2
  let numCols := colHi - colLo
  let numColParts := partHi - partLo
  let s' : SState :=
    ⟨colLo, colHi, partLo, partHi, colLo, partLo, numCols, numColParts⟩
  if (numCols = 0 ∧ numColParts ≠ 0) ∨ (numCols ≠ 0 ∧ numColParts = 0) then
    .error .invalidPartitioning
  else if numCols = 0 then
    .ok (s', false)
  else if windowColCount cfg partLo partHi ≠ numCols then
    .error .columnCountMismatch
  else
    .ok (s', true)

/-- The index correction performed by the `tdbPartitionedMatrix`
constructor: when the last two entries of `indices_` coincide, the final
entry is replaced by the array's total column count, after checking it does
not exceed it. -/
def ctorFixIndices (numArrayCols : ℕ) (indices : List ℕ) :
    Except SErr (List ℕ) :=
  if indices.getD (indices.length - 1) 0 = indices.getD (indices.length - 2) 0
  then
    if indices.getD (indices.length - 1) 0 > numArrayCols then
      .error .invalidIndices
    else
      .ok (indices.set (indices.length - 1) numArrayCols)
  else .ok indices

/-- `total_max_cols`: the summed column count of all active partitions. -/
def totalMaxCols (indices : List ℕ) (parts : List ℕ) : ℕ :=
  (parts.map (fun p => indices.getD (p + 1) 0 - indices.getD p 0)).sum

/-- `max_cols_` as computed by the constructor from `upper_bound` and
`total_max_cols`. -/
def windowCap (upperBound total : ℕ) : ℕ :=
  if upperBound = 0 ∨ upperBound > total then total else upperBound

/-- The `tdbPartitionedMatrix` constructor: fix the indices, derive
`max_cols_`, and perform the first `advance`. -/
def mkStreamer (numArrayCols : ℕ) (indices parts : List ℕ)
    (upperBound : ℕ) : Except SErr (SConfig × SState × Bool) :=
  match ctorFixIndices numArrayCols indices with
  | .error e => .error e
  | .ok fixed =>
    let cfg : SConfig := ⟨numArrayCols, fixed, parts,
      windowCap upperBound (totalMaxCols fixed parts)⟩
    match advance cfg initState with
    | .error e => .error e
    | .ok r => .ok (cfg, r.1, r.2)

/-- The number of partitions a greedy absorption starting with `acc`
resident columns takes from `sizes` without the running total exceeding
`maxCols` (the specification's description of the absorption loop, used to
characterize `absorb`). -/
def greedyTake (maxCols : ℕ) : ℕ → List ℕ → ℕ
  | _, [] => 0
  | acc, sz :: rest =>
    if acc + sz > maxCols then 0 else 1 + greedyTake maxCols (acc + sz) rest

/-- The data resident in the window of active partitions `[lo, hi)`: the
concatenation of those partitions' shuffled-database columns, in partition
order.  This is what the subarray read deposits in the streamer's buffer. -/
def windowCols (cfg : SConfig) (db : List Vec) (lo hi : ℕ) : List Vec :=
  ((cfg.parts.drop lo).take (hi - lo)).flatMap (fun p =>
    (List.range' (cfg.indices.getD p 0)
      (cfg.indices.getD (p + 1) 0 - cfg.indices.getD p 0)).map
        (fun c => db.getD c []))

/-- The ids resident in the window of active partitions `[lo, hi)`,
parallel to `windowCols`. -/
def windowIds (cfg : SConfig) (ids : List ℕ) (lo hi : ℕ) : List ℕ :=
  ((cfg.parts.drop lo).take (hi - lo)).flatMap (fun p =>
    (List.range' (cfg.indices.getD p 0)
      (cfg.indices.getD (p + 1) 0 - cfg.indices.getD p 0)).map
        (fun c => ids.getD c 0))

/-! ### The IVF query engine (`detail/ivf/qv.h`)

Both query paths are embedded with `nthreads = 1`: the parallel loops of
the source partition the work across threads and merge per-thread heaps at
the end, which for a single thread degenerates to the plain sequential
iteration embedded here (thread scheduling itself is not embeddable). -/

/-- Modelled from the spec: `assign_nearest` / `detail::flat::qv_query_nth`
(spec §4.4; `detail/flat/qv.h` is not in the source sample).  For one query
column: the `nprobe` centroid indices with smallest squared-L2 distance,
obtained through a bounded heap of capacity `nprobe` fed in centroid order
and read out ascending.  Ordering among equal distances is unspecified in
the spec; the model inherits the deterministic tie handling of the heap
model and the (score, id) read-out sort. -/
def assignNearest (centroids : List Vec) (qv : Vec) (nprobe : ℕ) : List ℕ :=
  heapTopIds (hFold nprobe []
    ((List.range centroids.length).map
      (fun i => (L2 (centroids.getD i []) qv, i))))

/-- The index fix-up of `qv_query_heap_infinite_ram`: when
`size(indices) == centroids.num_cols()` the vector is extended by one slot
holding the shuffled database's column count. -/
def infFixIndices (dbCols nlist : ℕ) (indices : List ℕ) : List ℕ :=
  if indices.length = nlist then indices ++ [dbCols] else indices

/-- `qv_query_heap_infinite_ram` with `nthreads = 1`: per query, iterate the
columns of each probed partition, feed a bounded heap of capacity `k_nn`,
and read out the ids ascending by (score, id). -/
def infiniteQuery (db : List Vec) (ids : List ℕ) (centroids : List Vec)
    (q : List Vec) (indices : List ℕ) (nprobe kNN : ℕ) : List (List ℕ) :=
  let fixed := infFixIndices db.length centroids.length indices
  (List.range q.length).map (fun j =>
    let qv := q.getD j []
    let cand := (assignNearest centroids qv nprobe).flatMap (fun p =>
      (List.range' (fixed.getD p 0)
        (fixed.getD (p + 1) 0 - fixed.getD p 0)).map
          (fun i => (L2 qv (db.getD i []), ids.getD i 0)))
    heapTopIds (hFold kNN [] cand))

/-- The index fix-up of `qv_query_heap_finite_ram`: when
`size(indices) != centroids.num_cols() + 1` the vector is resized to
`nlist + 1` (zero-filling, as `std::vector::resize` does) and the final
slot is overwritten with the previous slot's value. -/
def qvFixIndices (nlist : ℕ) (indices : List ℕ) : List ℕ :=
  if indices.length ≠ nlist + 1 then
    let r := indices.take (nlist + 1) ++
      List.replicate (nlist + 1 - indices.length) 0
    r.set nlist (r.getD (nlist - 1) 0)
  else indices

/-- The `active_partitions` list: the sorted deduplicated set of centroids
probed by at least one query (`std::set` iteration order). -/
def activeParts (probes : List (List ℕ)) : List ℕ :=
  ((probes.flatMap id).dedup).mergeSort (fun a b => decide (a ≤ b))

/-- The queries probing partition `p`, ascending (`std::multimap`
`equal_range`: per key, insertion order, and queries are inserted in
ascending order). -/
def queriesOf (probes : List (List ℕ)) (p : ℕ) : List ℕ :=
  (List.range probes.length).filter (fun j => p ∈ probes.getD j [])

/-- `new_indices[i]` of `qv_query_heap_finite_ram`: the prefix sums of the
active partitions' sizes, computed from the (qv-level fixed) indices. -/
def newIdx (sizes : List ℕ) (i : ℕ) : ℕ :=
  (sizes.take i).sum

/-- Process one resident window (the body of the `for(;;)` loop of
`qv_query_heap_finite_ram`, single thread): for each resident partition in
order, for each query probing it, score every resident column of that
partition and feed that query's heap. -/
def processWindow (cfg : SConfig) (db : List Vec) (ids : List ℕ)
    (q : List Vec) (active : List ℕ) (probes : List (List ℕ))
    (sizes : List ℕ) (kNN : ℕ) (s : SState)
    (heaps : List (List (ℚ × ℕ))) : List (List (ℚ × ℕ)) :=
  let buf := windowCols cfg db s.partLo s.partHi
  let bufIds := windowIds cfg ids s.partLo s.partHi
  (List.range s.numColParts).foldl (fun hs p =>
    let partno := p + s.partOffset
    (queriesOf probes (active.getD partno 0)).foldl (fun hs j =>
      let qv := q.getD j []
      let cand := (List.range' (newIdx sizes partno)
        (newIdx sizes (partno + 1) - newIdx sizes partno)).map (fun kk =>
          let kp := kk - s.colOffset
          (L2 qv (buf.getD kp []), bufIds.getD kp 0))
      hs.set j (hFold kNN (hs.getD j []) cand)) hs) heaps

/-- The window loop of `qv_query_heap_finite_ram`: process the current
window, then `advance`; stop when `advance` returns `false`.  The fuel is
an upper bound on the number of windows (each productive `advance` serves
at least one partition); it is never exhausted when called with
`parts.length + 1`. -/
def finiteLoop (cfg : SConfig) (db : List Vec) (ids : List ℕ)
    (q : List Vec) (active : List ℕ) (probes : List (List ℕ))
    (sizes : List ℕ) (kNN : ℕ) :
    ℕ → SState → List (List (ℚ × ℕ)) → Except SErr (List (List (ℚ × ℕ)))
  | 0, _, heaps => .ok heaps
  | fuel + 1, s, heaps =>
    let heaps' := processWindow cfg db ids q active probes sizes kNN s heaps
    match advance cfg s with
    | .error e => .error e
    | .ok (s', true) =>
        finiteLoop cfg db ids q active probes sizes kNN fuel s' heaps'
    | .ok (_, false) => .ok heaps'

/-- `qv_query_heap_finite_ram` with `nthreads = 1`: probe assignment, the
active-partition set, the index fix-up, prefix sums, streamer construction
(which performs the first `advance`), the window loop, and per-query top-k
extraction. -/
def finiteQuery (db : List Vec) (ids : List ℕ) (centroids : List Vec)
    (q : List Vec) (indices : List ℕ) (nprobe kNN upperBound : ℕ) :
    Except SErr (List (List ℕ)) :=
  let probes := (List.range q.length).map
    (fun j => assignNearest centroids (q.getD j []) nprobe)
  let active := activeParts probes
  let fixed := qvFixIndices centroids.length indices
  let sizes := active.map (fun p =>
    fixed.getD (p + 1) 0 - fixed.getD p 0)
  match mkStreamer db.length fixed active upperBound with
  | .error e => .error e
  | .ok r =>
    match finiteLoop r.1 db ids q active probes sizes kNN
        (r.1.parts.length + 1) r.2.1 (List.replicate q.length []) with
    | .error e => .error e
    | .ok heaps =>
      .ok ((List.range q.length).map (fun j => heapTopIds (heaps.getD j [])))

/-! ### k-means training (`kmeans_index` in `ivf_index.h`) -/

/-- Pointwise vector addition over the fixed dimension (the accumulation
loop `centroid[j] += vector[j]`). -/
def vecAdd (a b : Vec) : Vec := List.zipWith (· + ·) a b

/-- Pointwise vector subtraction (the reassignment loop
`new_centroids[parts[...]][i] -= high_vector[i]`). -/
def vecSub (a b : Vec) : Vec := List.zipWith (· - ·) a b

/-- Modelled from the spec: the inner argmin of
`detail::flat::qv_partition_with_scores` (spec §4.4; `detail/flat/qv.h` is
not in the source sample): the single nearest centroid's (score, id) for
one vector, first index winning ties. -/
def nearestCentroid (cent : List Vec) (v : Vec) : ℚ × ℕ :=
  match (List.range cent.length).foldl (fun best i =>
    let d := L2 (cent.getD i []) v
    match best with
    | none => some (d, i)
    | some b => if d < b.1 then some (d, i) else some b)
    (none : Option (ℚ × ℕ)) with
  | none => (0, 0)
  | some b => b

/-- Modelled from the spec: `qv_partition_with_scores` (spec §4.4): per
training vector, the nearest centroid's score and index. -/
def partitionWithScores (cent : List Vec) (ts : List Vec) :
    List ℚ × List ℕ :=
  ((ts.map (nearestCentroid cent)).map Prod.fst,
   (ts.map (nearestCentroid cent)).map Prod.snd)

/-- Training parameters of `kmeans_index` (`reassign_ratio_` is called
`reassignFrac` here). -/
structure TrainCfg where
  dim : ℕ
  nlist : ℕ
  maxIter : ℕ
  tol : ℚ
  reassignFrac : ℚ
  deriving DecidableEq

/-- `std::ceil(reassign_ratio_ * nlist_) + 5`: the capacity of the two
bookkeeping heaps of `train_no_init`. -/
def trainHeapSize (cfg : TrainCfg) : ℕ :=
  ⌈cfg.reassignFrac * (cfg.nlist : ℚ)⌉₊ + 5

/-- The accumulation loop of `train_no_init`: per training vector, add it
into its partition's centroid sum, bump that partition's degree, and feed
the (score, vector-id) pair to the max-heap of outliers. -/
def accumulate (cfg : TrainCfg) (ts : List Vec) (scores : List ℚ)
    (parts : List ℕ) : List Vec × List ℕ × List (ℚ × ℕ) :=
  (List.range ts.length).foldl (fun st i =>
    let sums := st.1
    let degrees := st.2.1
    let high := st.2.2
    let part := parts.getD i 0
    ((sums.set part (vecAdd (sums.getD part []) (ts.getD i []))),
     (degrees.set part (degrees.getD part 0 + 1)),
     (hInsertUp (trainHeapSize cfg) high (scores.getD i 0, i))))
    (List.replicate cfg.nlist (List.replicate cfg.dim (0 : ℚ)),
     List.replicate cfg.nlist 0, [])

/-- The degree loop of `train_no_init`: feed every (degree, centroid) pair
to the min-heap of low-degree centroids, in centroid order. -/
def lowDegreesOf (cfg : TrainCfg) (degrees : List ℕ) : List (ℕ × ℕ) :=
  hFold (trainHeapSize cfg) []
    ((List.range cfg.nlist).map (fun i => (degrees.getD i 0, i)))

/-- `max_degree`: the running maximum of the degree loop. -/
def maxDegreeOf (cfg : TrainCfg) (degrees : List ℕ) : ℕ :=
  (List.range cfg.nlist).foldl (fun m i => max m (degrees.getD i 0)) 0

/-- The reassignment loop of `train_no_init` (the sorted heaps are passed
in): while the i-th sorted low-degree pair has degree at most
`lower_degree_bound`, overwrite that centroid's sum with the i-th sorted
outlier vector, subtract that vector from the (post-overwrite) sum of the
outlier's assigned partition, increment the overwritten centroid's degree
and decrement the outlier's partition's degree.  Reading past the end of
the sorted outlier list is undefined behaviour in the source; the model
stops there. -/
def reassignGo (ts : List Vec) (parts : List ℕ) (low : List (ℕ × ℕ))
    (high : List (ℚ × ℕ)) (bound : ℕ) :
    ℕ → ℕ → List Vec → List ℕ → List Vec × List ℕ
  | 0, _, sums, degrees => (sums, degrees)
  | fuel + 1, i, sums, degrees =>
    if i < low.length then
      if (low.getD i (0, 0)).1 ≤ bound then
        match high[i]? with
        | none => (sums, degrees)
        | some hs =>
          let hv := hs.2
          let zeroPart := (low.getD i (0, 0)).2
          let hvec := ts.getD hv []
          let sums₁ := sums.set zeroPart hvec
          let target := parts.getD hv 0
          let sums₂ := sums₁.set target (vecSub (sums₁.getD target []) hvec)
          let degrees₁ := degrees.set zeroPart (degrees.getD zeroPart 0 + 1)
          let degrees₂ := degrees₁.set target (degrees₁.getD target 0 - 1)
          reassignGo ts parts low high bound fuel (i + 1) sums₂ degrees₂
      else (sums, degrees)
    else (sums, degrees)

def reassignLoop (ts : List Vec) (parts : List ℕ) (low : List (ℕ × ℕ))
    (high : List (ℚ × ℕ)) (bound : ℕ) (i : ℕ) (sums : List Vec)
    (degrees : List ℕ) : List Vec × List ℕ :=
  reassignGo ts parts low high bound (low.length - i) i sums degrees

/-- `std::sort_heap` on the low-degree heap with the default comparator:
ascending lexicographic on (degree, centroid); the pairs have distinct
centroid components, so the order is fully determined. -/
def sortLow (low : List (ℕ × ℕ)) : List (ℕ × ℕ) :=
  low.mergeSort pairLe

/-- `std::sort_heap` on the outlier heap with the score-descending
comparator; order among equal scores is unspecified in the source, the
model sorts stably. -/
def sortHigh (high : List (ℚ × ℕ)) : List (ℚ × ℕ) :=
  high.mergeSort (fun a b => decide (b.1 ≤ a.1))

/-- One reassignment: overwrite the low-degree centroid's sum with the
outlier's vector, subtract that vector from the (post-overwrite) sum of the
outlier's partition, increment the overwritten centroid's degree and
decrement the outlier's partition's degree. -/
def reassignStep (ts : List Vec) (parts : List ℕ)
    (st : List Vec × List ℕ) (pr : (ℕ × ℕ) × (ℚ × ℕ)) :
    List Vec × List ℕ :=
  let hv := pr.2.2
  let zeroPart := pr.1.2
  let hvec := ts.getD hv []
  let sums₁ := st.1.set zeroPart hvec
  let target := parts.getD hv 0
  let sums₂ := sums₁.set target (vecSub (sums₁.getD target []) hvec)
  let degrees₁ := st.2.set zeroPart (st.2.getD zeroPart 0 + 1)
  let degrees₂ := degrees₁.set target (degrees₁.getD target 0 - 1)
  (sums₂, degrees₂)

/-- The reassignment step as the specification describes it (spec §4.7):
walk the sorted (degree, centroid) pairs together with the sorted outliers
for as long as the degree stays at most `lower_degree_bound`, applying one
reassignment per pair.  To be compared with the loop embedded from the
source (`reassignLoop`). -/
def reassignSpec (ts : List Vec) (parts : List ℕ) (low : List (ℕ × ℕ))
    (high : List (ℚ × ℕ)) (bound : ℕ) (sums : List Vec)
    (degrees : List ℕ) : List Vec × List ℕ :=
  ((low.zip high).takeWhile (fun pr => decide (pr.1.1 ≤ bound))).foldl
    (reassignStep ts parts) (sums, degrees)

/-- The finalize-and-convergence loop of `train_no_init`: per centroid,
when its degree is nonzero divide the sum by the degree and accumulate the
squared entries into `total_weight`; in either case fold the squared
distance between the old and (possibly divided) new centroid into
`max_diff`.  Returns the new centroids, `max_diff`, and `total_weight`. -/
def finalize (cfg : TrainCfg) (cent sums : List Vec) (degrees : List ℕ) :
    List Vec × ℚ × ℚ :=
  (List.range cfg.nlist).foldl (fun st j =>
    let newc := st.1
    let maxDiff := st.2.1
    let totalWeight := st.2.2
    let dj := degrees.getD j 0
    let cj := if dj ≠ 0 then
        (newc.getD j []).map (fun x => x / (dj : ℚ))
      else newc.getD j []
    let tw := if dj ≠ 0 then
        totalWeight + (cj.map (fun x => x * x)).sum
      else totalWeight
    (newc.set j cj, max maxDiff (L2 (cent.getD j []) cj), tw))
    (sums, 0, 0)

/-- One full Lloyd iteration of `train_no_init`; `isLast` is
`iter == max_iter - 1`, the condition under which reassignment is
skipped. -/
def lloydStep (cfg : TrainCfg) (ts : List Vec) (cent : List Vec)
    (isLast : Bool) : List Vec × ℚ × ℚ :=
  let sp := partitionWithScores cent ts
  let acc := accumulate cfg ts sp.1 sp.2
  let sums := acc.1
  let degrees := acc.2.1
  let high := acc.2.2
  let low := lowDegreesOf cfg degrees
  let bound := ⌈((maxDegreeOf cfg degrees : ℚ)) * cfg.reassignFrac⌉₊
  let rs := if isLast then (sums, degrees)
    else reassignLoop ts sp.2 (sortLow low) (sortHigh high) bound 0
      sums degrees
  finalize cfg cent rs.1 rs.2

/-- The centroids entering Lloyd iteration `n` (ignoring the convergence
break; `train_no_init` swaps `centroids_ ← new_centroids` each round). -/
def centAt (cfg : TrainCfg) (ts : List Vec) (cent0 : List Vec) : ℕ → List Vec
  | 0 => cent0
  | n + 1 =>
    (lloydStep cfg ts (centAt cfg ts cent0 n)
      (decide (n = cfg.maxIter - 1))).1

/-- The convergence test at iteration `n`:
`max_diff < tol * total_weight`. -/
def convergedAt (cfg : TrainCfg) (ts : List Vec) (cent0 : List Vec)
    (n : ℕ) : Bool :=
  let r := lloydStep cfg ts (centAt cfg ts cent0 n)
    (decide (n = cfg.maxIter - 1))
  decide (r.2.1 < cfg.tol * r.2.2)

/-- The iteration loop of `train_no_init`, returning the final centroids
and the number of iterations executed. -/
def trainGo (cfg : TrainCfg) (ts : List Vec) :
    ℕ → ℕ → List Vec → List Vec × ℕ
  | 0, iter, cent => (cent, iter)
  | fuel + 1, iter, cent =>
    if iter < cfg.maxIter then
      let r := lloydStep cfg ts cent (decide (iter = cfg.maxIter - 1))
      if r.2.1 < cfg.tol * r.2.2 then (r.1, iter + 1)
      else trainGo cfg ts fuel (iter + 1) r.1
    else (cent, iter)

def trainFrom (cfg : TrainCfg) (ts : List Vec) (iter : ℕ)
    (cent : List Vec) : List Vec × ℕ :=
  trainGo cfg ts (cfg.maxIter - iter) iter cent

/-- `kmeans_index::train_no_init`: run up to `max_iter` Lloyd iterations,
stopping early on convergence; no error is ever reported (the return type
is a plain value). -/
def trainNoInit (cfg : TrainCfg) (ts : List Vec) (cent0 : List Vec) :
    List Vec × ℕ :=
  trainFrom cfg ts 0 cent0

/-! ### `kmeans_index::kmeans_random_init`

The `std::mt19937` draws are abstracted as a stream `next : ℕ → ℕ` of
values of `dis(gen)` (so `uniform_int_distribution` guarantees
`next t < training_set.num_cols()`); the unbounded `do { } while (visited)`
loop is modelled with fuel, `none` meaning the loop is still running after
`fuel` draws. -/

/-- The inner `do { index = dis(gen); } while (visited[index]);` loop:
draw until an unvisited index appears, returning it and the next cursor. -/
def drawUnvisited (next : ℕ → ℕ) (visited : List Bool) :
    ℕ → ℕ → Option (ℕ × ℕ)
  | _, 0 => none
  | t, fuel + 1 =>
    let idx := next t
    if visited.getD idx false then drawUnvisited next visited (t + 1) fuel
    else some (idx, t + 1)

/-- The outer `for (i = 0; i < nlist_; ++i)` selection loop. -/
def randomInitGo (next : ℕ → ℕ) (fuel : ℕ) :
    ℕ → ℕ → List Bool → List ℕ → Option (List ℕ)
  | 0, _, _, acc => some acc.reverse
  | r + 1, t, visited, acc =>
    match drawUnvisited next visited t fuel with
    | none => none
    | some (idx, t') =>
        randomInitGo next fuel r t' (visited.set idx true) (idx :: acc)

/-- `kmeans_random_init`'s index-selection phase: choose `nlist` distinct
indices out of `numCols` training columns by rejection sampling. -/
def randomInit (next : ℕ → ℕ) (nlist numCols fuel : ℕ) : Option (List ℕ) :=
  randomInitGo next fuel nlist 0 (List.replicate numCols false) []

/-! ### Convergence quantities of `train_no_init` as the specification
states them -/

/-- The squared Euclidean norm of a vector, `Σ x²` (the quantity the
total-weight accumulation of the convergence check adds up per
centroid). -/
def sqNorm (v : Vec) : ℚ := (v.map (fun x => x * x)).sum

/-- The specification's `max_diff`: the maximum over all `nlist` centroids
of the squared distance between the old and the new centroid.  To be
compared with the running maximum computed by `finalize`. -/
def maxDiffSpec (cfg : TrainCfg) (oldC newC : List Vec) : ℚ :=
  (List.range cfg.nlist).foldl
    (fun m j => max m (L2 (oldC.getD j []) (newC.getD j []))) 0

/-- The specification's `total_weight`: the sum over all `nlist` centroids
of the squared norm of the new centroid.  To be compared with the sum the
source accumulates over the centroids of nonzero degree only. -/
def totalWeightSpec (cfg : TrainCfg) (newC : List Vec) : ℚ :=
  ((List.range cfg.nlist).map (fun j => sqNorm (newC.getD j []))).sum

/-- The training vectors currently belonging to partition `p`: those
assigned to `p` by `parts` and not yet moved away by a reassignment (the
moved outlier ids are collected in `used`). -/
def memIds (parts : List ℕ) (n : ℕ) (used : List ℕ) (p : ℕ) : List ℕ :=
  (List.range n).filter (fun i => decide (parts.getD i 0 = p ∧ i ∉ used))

/-- Component `k` of the sum of the vectors currently belonging to
partition `p`. -/
def memSum (ts : List Vec) (parts : List ℕ) (used : List ℕ) (p k : ℕ) :
    ℚ :=
  ((memIds parts ts.length used p).map
    (fun i => (ts.getD i []).getD k 0)).sum

/-- The per-centroid body of the convergence loop of `train_no_init`:
divide the sum by the degree when the degree is nonzero (`cjOf` is the
final centroid value). -/
def cjOf (degrees : List ℕ) (newc : List Vec) (j : ℕ) : Vec :=
  if degrees.getD j 0 ≠ 0 then
    (newc.getD j []).map (fun x => x / ((degrees.getD j 0 : ℕ) : ℚ))
  else newc.getD j []

/-- One step of the convergence loop of `train_no_init`, as folded by
`finalize`. -/
def finStep (cent : List Vec) (degrees : List ℕ)
    (st : List Vec × ℚ × ℚ) (j : ℕ) : List Vec × ℚ × ℚ :=
  let newc := st.1
  let dj := degrees.getD j 0
  let cj := if dj ≠ 0 then (newc.getD j []).map (fun x => x / (dj : ℚ))
    else newc.getD j []
  let tw := if dj ≠ 0 then st.2.2 + (cj.map (fun x => x * x)).sum
    else st.2.2
  (newc.set j cj, max st.2.1 (L2 (cent.getD j []) cj), tw)

/-- The bookkeeping invariant of the accumulate/reassign phases of
`train_no_init`: partition sums and degrees are exact member statistics.
A partition not yet overwritten by a reassignment (`ow` collects the
overwritten ones) holds componentwise the sum of its current members and
their count as its degree; an overwritten partition's degree is its member
count plus one (the adopted outlier). -/
def ReassignInv (cfg : TrainCfg) (ts : List Vec) (parts : List ℕ)
    (used ow : List ℕ) (sums : List Vec) (degrees : List ℕ) : Prop :=
  sums.length = cfg.nlist ∧ degrees.length = cfg.nlist ∧
  (∀ p, p < cfg.nlist → p ∉ ow →
    (sums.getD p []).length = cfg.dim ∧
    (∀ k, k < cfg.dim →
      (sums.getD p []).getD k 0 = memSum ts parts used p k) ∧
    degrees.getD p 0 = (memIds parts ts.length used p).length) ∧
  (∀ p, p ∈ ow →
    degrees.getD p 0 = (memIds parts ts.length used p).length + 1)

section HeapTheorems

variable {S : Type} [LinearOrder S]

theorem exists_max_pair (h : List (S × ℕ)) (hne : h ≠ []) :
    ∃ w ∈ h, ∀ z ∈ h, z.1 ≤ w.1 := by
  induction h with
  | nil => simp at hne
  | cons x t ih =>
    cases t with
    | nil =>
      refine ⟨x, by simp, ?_⟩
      intro z hz
      simp only [List.mem_singleton] at hz
      exact le_of_eq (congrArg Prod.fst hz)
    | cons y u =>
      obtain ⟨w, hw_mem, hw_max⟩ := ih (by simp)
      rcases le_total x.1 w.1 with hc | hc
      · refine ⟨w, List.mem_cons_of_mem _ hw_mem, ?_⟩
        intro z hz
        rcases List.mem_cons.mp hz with hz | hz
        · exact hz ▸ hc
        · exact hw_max z hz
      · refine ⟨x, List.mem_cons_self _ _, ?_⟩
        intro z hz
        rcases List.mem_cons.mp hz with hz | hz
        · exact le_of_eq (congrArg Prod.fst hz)
        · exact (hw_max z hz).trans hc

theorem find?_isWorst_of_ne_nil (h : List (S × ℕ)) (hne : h ≠ []) :
    ∃ w, h.find? (isWorst h) = some w ∧ w ∈ h ∧ ∀ z ∈ h, z.1 ≤ w.1 := by
  obtain ⟨w₀, hw₀_mem, hw₀_max⟩ := exists_max_pair h hne
  have hsat : isWorst h w₀ = true := by
    simp only [isWorst, List.all_eq_true, decide_eq_true_eq]
    exact hw₀_max
  have hfs : (h.find? (isWorst h)).isSome = true := by
    rw [List.find?_isSome]
    exact ⟨w₀, hw₀_mem, hsat⟩
  obtain ⟨w, hw⟩ := Option.isSome_iff_exists.mp hfs
  refine ⟨w, hw, List.mem_of_find?_eq_some hw, ?_⟩
  have hsatw := List.find?_some hw
  simp only [isWorst, List.all_eq_true, decide_eq_true_eq] at hsatw
  exact hsatw

/-- One heap insert preserves the `k`-smallest selection invariant. -/
theorem SelK_hInsert {k : ℕ} {I : Multiset (S × ℕ)} {h : List (S × ℕ)}
    (hs : SelK k I ↑h) (x : S × ℕ) :
    SelK k (x ::ₘ I) ↑(hInsert k h x) := by
  obtain ⟨hle, hcard, hcross⟩ := hs
  rw [Multiset.coe_card] at hcard
  unfold hInsert
  by_cases hfull : h.length < k
  · -- not yet at capacity: the insert always lands
    rw [if_pos hfull]
    have hIlt : Multiset.card I < k := by
      rcases le_or_lt k (Multiset.card I) with hk | hk
      · rw [min_eq_left hk] at hcard
        omega
      · exact hk
    have hIeq : (↑h : Multiset (S × ℕ)) = I := by
      apply Multiset.eq_of_le_of_card_le hle
      rw [Multiset.coe_card]
      rw [min_eq_right (le_of_lt hIlt)] at hcard
      omega
    unfold SelK
    refine ⟨?_, ?_, ?_⟩
    · rw [show ((x :: h : List (S × ℕ)) : Multiset (S × ℕ)) = x ::ₘ ↑h from rfl,
        hIeq]
    · rw [show ((x :: h : List (S × ℕ)) : Multiset (S × ℕ)) = x ::ₘ ↑h from rfl]
      simp only [Multiset.card_cons, Multiset.coe_card, Multiset.card_cons]
      rw [min_eq_right (by omega)]
      rw [min_eq_right (le_of_lt hIlt)] at hcard
      omega
    · intro a ha
      exfalso
      rw [show ((x :: h : List (S × ℕ)) : Multiset (S × ℕ)) = x ::ₘ ↑h from rfl,
        hIeq] at ha
      simp at ha
  · -- at capacity
    rw [if_neg hfull]
    have hlen_ge : k ≤ h.length := Nat.le_of_not_lt hfull
    have hIcard : k ≤ Multiset.card I := by
      have := Multiset.card_le_card hle
      rw [Multiset.coe_card] at this
      omega
    have hkeq : h.length = k := by
      rw [min_eq_left hIcard] at hcard
      omega
    by_cases hnil : h = []
    · subst hnil
      simp only [List.find?_nil]
      unfold SelK
      refine ⟨?_, ?_, ?_⟩
      · exact Multiset.zero_le _
      · simp at hkeq ⊢
        omega
      · intro a _ b hb
        simp at hb
    · obtain ⟨w, hw_find, hw_mem, hw_max⟩ := find?_isWorst_of_ne_nil h hnil
      rw [hw_find]
      have hw_sat : isWorst h w = true := List.find?_some hw_find
      -- decomposition of the eraseP
      obtain ⟨a₀, l₁, l₂, _, ha₀_sat, hdec, herase⟩ :=
        List.exists_of_eraseP hw_mem hw_sat
      have ha₀_mem : a₀ ∈ h := by rw [hdec]; simp
      simp only [isWorst, List.all_eq_true, decide_eq_true_eq] at ha₀_sat
      have ha₀_max : ∀ z ∈ h, z.1 ≤ a₀.1 := ha₀_sat
      have ha₀w : a₀.1 = w.1 := le_antisymm (hw_max _ ha₀_mem) (ha₀_max _ hw_mem)
      by_cases hx : x.1 < w.1
      · -- displacement of the (first) maximal pair
        show SelK k (x ::ₘ I)
          ↑(if x.1 < w.1 then x :: h.eraseP (isWorst h) else h)
        rw [if_pos hx]
        have hEh : a₀ ::ₘ (↑(h.eraseP (isWorst h)) : Multiset (S × ℕ)) = ↑h := by
          rw [herase, hdec]
          exact Multiset.coe_eq_coe.mpr (List.perm_middle).symm
        have hEle : (↑(h.eraseP (isWorst h)) : Multiset (S × ℕ)) ≤ ↑h := by
          rw [← hEh]
          exact Multiset.le_cons_self _ _
        have hEcard : Multiset.card (↑(h.eraseP (isWorst h)) : Multiset (S × ℕ))
            + 1 = k := by
          have := congrArg Multiset.card hEh
          simp only [Multiset.card_cons, Multiset.coe_card] at this ⊢
          omega
        unfold SelK
        refine ⟨?_, ?_, ?_⟩
        · rw [show ((x :: h.eraseP (isWorst h) : List (S × ℕ)) :
              Multiset (S × ℕ)) = x ::ₘ ↑(h.eraseP (isWorst h)) from rfl]
          exact Multiset.cons_le_cons x (le_trans hEle hle)
        · rw [show ((x :: h.eraseP (isWorst h) : List (S × ℕ)) :
              Multiset (S × ℕ)) = x ::ₘ ↑(h.eraseP (isWorst h)) from rfl]
          simp only [Multiset.card_cons, Multiset.coe_card]
          simp only [Multiset.coe_card] at hEcard
          rw [min_eq_left (by omega)]
          omega
        · intro a ha b hb
          rw [show ((x :: h.eraseP (isWorst h) : List (S × ℕ)) :
              Multiset (S × ℕ)) = x ::ₘ ↑(h.eraseP (isWorst h)) from rfl] at ha hb
          -- (x ::ₘ I) − (x ::ₘ E) = (I − h) + {a₀}  where E = h minus a₀
          have hmem : a ∈ (I - ↑h) + ({a₀} : Multiset (S × ℕ)) := by
            have hcount : ∀ c : S × ℕ,
                Multiset.count c (x ::ₘ I - x ::ₘ ↑(h.eraseP (isWorst h)))
                  = Multiset.count c ((I - ↑h) + ({a₀} : Multiset (S × ℕ))) := by
              intro c
              have h1 := Multiset.count_le_of_le c hle
              have h2 : Multiset.count c (↑h : Multiset (S × ℕ))
                  = Multiset.count c (↑(h.eraseP (isWorst h)) : Multiset (S × ℕ))
                    + (if c = a₀ then 1 else 0) := by
                rw [← hEh, Multiset.count_cons]
              simp only [Multiset.count_sub, Multiset.count_cons,
                Multiset.count_add, Multiset.count_singleton]
              omega
            have := (Multiset.ext.mpr hcount)
            rw [← this]
            exact ha
          rcases Multiset.mem_add.mp hmem with ha' | ha'
          · rcases Multiset.mem_cons.mp hb with hb' | hb'
            · subst hb'
              calc b.1 ≤ w.1 := le_of_lt hx
                _ = a₀.1 := ha₀w.symm
                _ ≤ a.1 := hcross a ha' a₀ (Multiset.mem_coe.mpr ha₀_mem)
            · have hbh : b ∈ (↑h : Multiset (S × ℕ)) :=
                Multiset.mem_of_le hEle hb'
              exact hcross a ha' b hbh
          · rw [Multiset.mem_singleton] at ha'
            subst ha'
            rcases Multiset.mem_cons.mp hb with hb' | hb'
            · subst hb'
              rw [ha₀w]
              exact le_of_lt hx
            · have hbh : b ∈ h := by
                have := Multiset.mem_of_le hEle hb'
                rwa [Multiset.mem_coe] at this
              exact ha₀_max _ hbh
      · -- no-op: the new score is at least the held maximum
        show SelK k (x ::ₘ I)
          ↑(if x.1 < w.1 then x :: h.eraseP (isWorst h) else h)
        rw [if_neg hx]
        have hwx : w.1 ≤ x.1 := le_of_not_lt hx
        unfold SelK
        refine ⟨le_trans hle (Multiset.le_cons_self _ _), ?_, ?_⟩
        · rw [Multiset.coe_card, hkeq, Multiset.card_cons,
            min_eq_left (by omega)]
        · intro a ha b hb
          have hmem : a ∈ (I - ↑h) + ({x} : Multiset (S × ℕ)) := by
            have hcount : ∀ c : S × ℕ,
                Multiset.count c (x ::ₘ I - ↑h)
                  = Multiset.count c ((I - ↑h) + ({x} : Multiset (S × ℕ))) := by
              intro c
              have h1 := Multiset.count_le_of_le c hle
              simp only [Multiset.count_sub, Multiset.count_cons,
                Multiset.count_add, Multiset.count_singleton]
              omega
            rw [← Multiset.ext.mpr hcount]
            exact ha
          rcases Multiset.mem_add.mp hmem with ha' | ha'
          · exact hcross a ha' b hb
          · rw [Multiset.mem_singleton] at ha'
            subst ha'
            calc b.1 ≤ w.1 := hw_max b (by rwa [Multiset.mem_coe] at hb)
              _ ≤ a.1 := hwx

/-- Folding a list of inserts into a heap preserves the selection invariant. -/
theorem SelK_hFold {k : ℕ} (xs : List (S × ℕ)) :
    ∀ (h : List (S × ℕ)) (I : Multiset (S × ℕ)),
      SelK k I ↑h →
        SelK k (I + (↑xs : Multiset (S × ℕ)))
          (↑(hFold k h xs) : Multiset (S × ℕ)) := by
  induction xs with
  | nil => intro h I hs; simpa [hFold] using hs
  | cons x xs ih =>
    intro h I hs
    have hstep := SelK_hInsert hs x
    have hrec := ih (hInsert k h x) (x ::ₘ I) hstep
    have hms : I + (↑(x :: xs) : Multiset (S × ℕ)) = (x ::ₘ I) + ↑xs := by
      rw [show ((x :: xs : List (S × ℕ)) : Multiset (S × ℕ)) = x ::ₘ ↑xs
        from rfl, Multiset.add_cons, Multiset.cons_add]
    rw [show hFold k h (x :: xs) = hFold k (hInsert k h x) xs from rfl, hms]
    exact hrec

/-- The empty heap is a valid selection from nothing. -/
theorem SelK_empty (k : ℕ) :
    SelK k (0 : Multiset (S × ℕ)) (↑([] : List (S × ℕ)) : Multiset (S × ℕ)) := by
  unfold SelK
  refine ⟨le_refl _, by simp, ?_⟩
  intro a ha
  simp at ha

/-- The contents of a heap after folding any insert sequence into an empty
heap is a `k`-smallest selection of the inserted pairs. -/
theorem SelK_hFold_nil {k : ℕ} (xs : List (S × ℕ)) :
    SelK k (↑xs : Multiset (S × ℕ)) (↑(hFold k [] xs) : Multiset (S × ℕ)) := by
  have := SelK_hFold (k := k) xs [] 0 (SelK_empty k)
  simpa using this

/-- When all inserted scores are pairwise distinct, the `k`-smallest
selection is unique as a multiset. -/
theorem SelK_unique {k : ℕ} {I H₁ H₂ : Multiset (S × ℕ)}
    (hnd : (Multiset.map Prod.fst I).Nodup)
    (h1 : SelK k I H₁) (h2 : SelK k I H₂) : H₁ = H₂ := by
  have hInd : I.Nodup := Multiset.Nodup.of_map Prod.fst hnd
  obtain ⟨hle1, hcard1, hcross1⟩ := h1
  obtain ⟨hle2, hcard2, hcross2⟩ := h2
  have hnd1 : H₁.Nodup := Multiset.nodup_of_le hle1 hInd
  have hnd2 : H₂.Nodup := Multiset.nodup_of_le hle2 hInd
  -- key step: H₁ ⊆ H₂
  have hsub : ∀ {A B : Multiset (S × ℕ)}, A ≤ I → B ≤ I → A.Nodup → B.Nodup →
      Multiset.card A = Multiset.card B →
      (∀ a ∈ I - B, ∀ b ∈ B, b.1 ≤ a.1) →
      (∀ a ∈ I - A, ∀ b ∈ A, b.1 ≤ a.1) →
      A ⊆ B := by
    intro A B hleA hleB hndA hndB hcardAB hcrossB hcrossA x hxA
    by_contra hxB
    have hxI : x ∈ I := Multiset.mem_of_le hleA hxA
    have hxsub : x ∈ I - B := by
      rw [Multiset.mem_sub]
      have : Multiset.count x B = 0 := Multiset.count_eq_zero.mpr hxB
      rw [this]
      exact Multiset.count_pos.mpr hxI
    have hBsub : B ≤ A.erase x := by
      rw [Multiset.le_iff_subset hndB]
      intro y hyB
      have hyI : y ∈ I := Multiset.mem_of_le hleB hyB
      have hyx_lt : y.1 < x.1 := by
        have hyle : y.1 ≤ x.1 := hcrossB x hxsub y hyB
        rcases lt_or_eq_of_le hyle with hlt | heq
        · exact hlt
        · exfalso
          have : y = x := Multiset.inj_on_of_nodup_map hnd y hyI x hxI heq
          exact hxB (this ▸ hyB)
      have hyA : y ∈ A := by
        by_contra hyA
        have hysub : y ∈ I - A := by
          rw [Multiset.mem_sub]
          have : Multiset.count y A = 0 := Multiset.count_eq_zero.mpr hyA
          rw [this]
          exact Multiset.count_pos.mpr hyI
        exact absurd (hcrossA y hysub x hxA) (not_le.mpr hyx_lt)
      have hyne : y ≠ x := fun hxy => hxB (hxy ▸ hyB)
      exact (Multiset.mem_erase_of_ne hyne).mpr hyA
    have hcard_lt : Multiset.card B < Multiset.card A := by
      have h1 := Multiset.card_le_card hBsub
      rw [Multiset.card_erase_of_mem hxA, Nat.pred_eq_sub_one] at h1
      have h3 : 0 < Multiset.card A := by
        rw [Multiset.card_pos]
        exact fun hA => by simp [hA] at hxA
      omega
    omega
  have h12 : H₁ ⊆ H₂ :=
    hsub hle1 hle2 hnd1 hnd2 (by omega) hcross2 hcross1
  have hle12 : H₁ ≤ H₂ := (Multiset.le_iff_subset hnd1).mpr h12
  exact Multiset.eq_of_le_of_card_le hle12 (by omega)

theorem pairLe_trans (a b c : S × ℕ) (hab : pairLe a b = true)
    (hbc : pairLe b c = true) : pairLe a c = true := by
  simp only [pairLe, decide_eq_true_eq] at *
  rcases hab with h1 | ⟨h1, h1'⟩ <;> rcases hbc with h2 | ⟨h2, h2'⟩
  · exact Or.inl (lt_trans h1 h2)
  · exact Or.inl (h2 ▸ h1)
  · exact Or.inl (h1 ▸ h2)
  · exact Or.inr ⟨h1.trans h2, h1'.trans h2'⟩

theorem pairLe_total (a b : S × ℕ) : (pairLe a b || pairLe b a) = true := by
  simp only [pairLe, Bool.or_eq_true, decide_eq_true_eq]
  rcases lt_trichotomy a.1 b.1 with h | h | h
  · exact Or.inl (Or.inl h)
  · rcases le_total a.2 b.2 with h2 | h2
    · exact Or.inl (Or.inr ⟨h, h2⟩)
    · exact Or.inr (Or.inr ⟨h.symm, h2⟩)
  · exact Or.inr (Or.inl h)

theorem pairLe_antisymm (a b : S × ℕ) (hab : pairLe a b = true)
    (hba : pairLe b a = true) : a = b := by
  simp only [pairLe, decide_eq_true_eq] at *
  rcases hab with h1 | ⟨h1, h1'⟩ <;> rcases hba with h2 | ⟨h2, h2'⟩
  · exact absurd h2 (not_lt.mpr (le_of_lt h1))
  · exact absurd h1 (not_lt.mpr (le_of_eq h2))
  · exact absurd h2 (not_lt.mpr (le_of_eq h1))
  · exact Prod.ext h1 (le_antisymm h1' h2')

/-- Heaps with equal contents sort identically. -/
theorem heapSort_congr {h₁ h₂ : List (S × ℕ)}
    (hc : (↑h₁ : Multiset (S × ℕ)) = ↑h₂) : heapSort h₁ = heapSort h₂ := by
  haveI : IsAntisymm (S × ℕ) (fun a b => pairLe a b = true) :=
    ⟨pairLe_antisymm⟩
  have hperm : (h₁.mergeSort pairLe).Perm (h₂.mergeSort pairLe) :=
    ((List.mergeSort_perm h₁ pairLe).trans
      (Multiset.coe_eq_coe.mp hc)).trans (List.mergeSort_perm h₂ pairLe).symm
  exact List.eq_of_perm_of_sorted hperm
    (List.sorted_mergeSort pairLe_trans pairLe_total h₁)
    (List.sorted_mergeSort pairLe_trans pairLe_total h₂)

end HeapTheorems

/-! ### Streamer lemmas -/

theorem set_getD_self {α : Type} (l : List α) (i : ℕ) (v d : α)
    (hv : l.getD i d = v) (hi : i < l.length) : l.set i v = l := by
  apply List.ext_getElem?
  intro n
  rw [List.getElem?_set]
  by_cases heq : i = n
  · subst heq
    rw [if_pos rfl, if_pos hi]
    rw [List.getD_eq_getElem?_getD, List.getElem?_eq_getElem hi] at hv
    simp only [Option.getD_some] at hv
    rw [List.getElem?_eq_getElem hi, hv]
  · rw [if_neg heq]

theorem activeSizes_getElem (cfg : SConfig) (i : ℕ)
    (hi : i < (activeSizes cfg).length) :
    (activeSizes cfg)[i] = activeSize cfg i := by
  simp [activeSizes]

theorem activeSizes_length (cfg : SConfig) :
    (activeSizes cfg).length = cfg.parts.length := by
  simp [activeSizes]

theorem activeSizes_drop_cons (cfg : SConfig) (i : ℕ)
    (hi : i < cfg.parts.length) :
    (activeSizes cfg).drop i
      = activeSize cfg i :: (activeSizes cfg).drop (i + 1) := by
  have hlen : i < (activeSizes cfg).length := by
    rw [activeSizes_length]; exact hi
  rw [List.drop_eq_getElem_cons hlen, activeSizes_getElem cfg i hlen]

/-- `absorb` computed through the greedy-absorption count. -/
theorem absorbGo_eq (cfg : SConfig) (colLo : ℕ) :
    ∀ fuel i colHi, cfg.parts.length - i ≤ fuel → colLo ≤ colHi →
      absorbGo cfg colLo fuel i colHi =
        (colHi + (((activeSizes cfg).drop i).take
            (greedyTake cfg.maxCols (colHi - colLo)
              ((activeSizes cfg).drop i))).sum,
         i + greedyTake cfg.maxCols (colHi - colLo)
            ((activeSizes cfg).drop i)) := by
  intro fuel
  induction fuel with
  | zero =>
    intro i colHi hf hle
    have hge : cfg.parts.length ≤ i := by omega
    have hdrop : (activeSizes cfg).drop i = [] := by
      apply List.drop_eq_nil_of_le
      rw [activeSizes_length]; exact hge
    rw [absorbGo, hdrop]
    simp [greedyTake]
  | succ fuel ih =>
    intro i colHi hf hle
    by_cases hi : i < cfg.parts.length
    · rw [absorbGo, if_pos hi, activeSizes_drop_cons cfg i hi]
      rw [greedyTake]
      by_cases hc : colHi + activeSize cfg i > colLo + cfg.maxCols
      · rw [if_pos hc, if_pos (by omega)]
        simp
      · rw [if_neg hc, if_neg (by omega)]
        rw [ih (i + 1) (colHi + activeSize cfg i) (by omega) (by omega)]
        have hacc : colHi + activeSize cfg i - colLo
            = colHi - colLo + activeSize cfg i := by omega
        rw [hacc]
        simp only [Nat.one_add, List.take_succ_cons, List.sum_cons]
        rw [Prod.mk.injEq]
        constructor <;> omega
    · have hdrop : (activeSizes cfg).drop i = [] := by
        apply List.drop_eq_nil_of_le
        rw [activeSizes_length]; omega
      rw [absorbGo, if_neg hi, hdrop]
      simp [greedyTake]

theorem absorb_eq (cfg : SConfig) (colLo : ℕ) (i colHi : ℕ)
    (hle : colLo ≤ colHi) :
    absorb cfg colLo i colHi =
      (colHi + (((activeSizes cfg).drop i).take
          (greedyTake cfg.maxCols (colHi - colLo)
            ((activeSizes cfg).drop i))).sum,
       i + greedyTake cfg.maxCols (colHi - colLo)
          ((activeSizes cfg).drop i)) :=
  absorbGo_eq cfg colLo (cfg.parts.length - i) i colHi (le_refl _) hle

theorem greedyTake_le_length (maxCols : ℕ) :
    ∀ (sizes : List ℕ) (acc : ℕ), greedyTake maxCols acc sizes ≤ sizes.length := by
  intro sizes
  induction sizes with
  | nil => intro acc; simp [greedyTake]
  | cons sz rest ih =>
    intro acc
    rw [greedyTake]
    split
    · simp
    · have := ih (acc + sz)
      simp only [List.length_cons]
      omega

theorem greedyTake_cons_pos (maxCols acc sz : ℕ) (rest : List ℕ)
    (hc : acc + sz > maxCols) :
    greedyTake maxCols acc (sz :: rest) = 0 := by
  rw [greedyTake]
  exact if_pos hc

theorem greedyTake_cons_neg (maxCols acc sz : ℕ) (rest : List ℕ)
    (hc : ¬acc + sz > maxCols) :
    greedyTake maxCols acc (sz :: rest)
      = greedyTake maxCols (acc + sz) rest + 1 := by
  rw [greedyTake]
  rw [if_neg hc]
  omega

theorem greedyTake_sum_le (maxCols : ℕ) :
    ∀ (sizes : List ℕ) (acc : ℕ), acc ≤ maxCols →
      acc + (sizes.take (greedyTake maxCols acc sizes)).sum ≤ maxCols := by
  intro sizes
  induction sizes with
  | nil => intro acc h; simpa [greedyTake] using h
  | cons sz rest ih =>
    intro acc h
    by_cases hc : acc + sz > maxCols
    · rw [greedyTake_cons_pos maxCols acc sz rest hc]
      simpa using h
    · rw [greedyTake_cons_neg maxCols acc sz rest hc]
      rw [List.take_succ_cons, List.sum_cons]
      have := ih (acc + sz) (by omega)
      omega

theorem greedyTake_stop (maxCols : ℕ) :
    ∀ (sizes : List ℕ) (acc : ℕ), greedyTake maxCols acc sizes < sizes.length →
      maxCols < acc + (sizes.take (greedyTake maxCols acc sizes)).sum
        + sizes.getD (greedyTake maxCols acc sizes) 0 := by
  intro sizes
  induction sizes with
  | nil => intro acc h; simp [greedyTake] at h
  | cons sz rest ih =>
    intro acc h
    by_cases hc : acc + sz > maxCols
    · rw [greedyTake_cons_pos maxCols acc sz rest hc]
      simpa using hc
    · rw [greedyTake_cons_neg maxCols acc sz rest hc] at h ⊢
      simp only [List.length_cons] at h
      have ih2 := ih (acc + sz) (by omega)
      rw [List.take_succ_cons, List.sum_cons]
      have hgd : (sz :: rest).getD (greedyTake maxCols (acc + sz) rest + 1) 0
          = rest.getD (greedyTake maxCols (acc + sz) rest) 0 := rfl
      rw [hgd]
      omega

theorem greedyTake_all (maxCols : ℕ) :
    ∀ (sizes : List ℕ) (acc : ℕ), acc + sizes.sum ≤ maxCols →
      greedyTake maxCols acc sizes = sizes.length := by
  intro sizes
  induction sizes with
  | nil => intro acc _; simp [greedyTake]
  | cons sz rest ih =>
    intro acc h
    rw [List.sum_cons] at h
    rw [greedyTake_cons_neg maxCols acc sz rest (by omega),
      ih (acc + sz) (by omega)]
    simp only [List.length_cons]

theorem greedyTake_zero_sum (maxCols : ℕ) :
    ∀ (sizes : List ℕ), (∀ x ∈ sizes, x ≤ maxCols) →
      (sizes.take (greedyTake maxCols 0 sizes)).sum = 0 →
      greedyTake maxCols 0 sizes = sizes.length ∧ ∀ x ∈ sizes, x = 0 := by
  intro sizes
  induction sizes with
  | nil => intro _ _; simp [greedyTake]
  | cons sz rest ih =>
    intro hfit hsum
    have hsz : sz ≤ maxCols := hfit sz (by simp)
    rw [greedyTake_cons_neg maxCols 0 sz rest (by omega)] at hsum ⊢
    rw [List.take_succ_cons, List.sum_cons] at hsum
    have hsz0 : sz = 0 := by omega
    subst hsz0
    simp only [Nat.add_zero, Nat.zero_add] at hsum ⊢
    obtain ⟨h1, h2⟩ := ih (fun x hx => hfit x (by simp [hx])) hsum
    refine ⟨by simp [h1], ?_⟩
    intro x hx
    rcases List.mem_cons.mp hx with hx | hx
    · exact hx
    · exact h2 x hx

theorem mem_activeSizes_drop (cfg : SConfig) (lo : ℕ) (x : ℕ)
    (hx : x ∈ (activeSizes cfg).drop lo) :
    ∃ i, lo ≤ i ∧ i < cfg.parts.length ∧ activeSize cfg i = x := by
  obtain ⟨j, hj, hjx⟩ := List.getElem_of_mem hx
  rw [List.getElem_drop] at hjx
  have hlen : lo + j < (activeSizes cfg).length := by
    rw [List.length_drop] at hj
    omega
  refine ⟨lo + j, by omega, ?_, ?_⟩
  · rw [activeSizes_length] at hlen
    exact hlen
  · rw [activeSizes_getElem cfg (lo + j) hlen] at hjx
    exact hjx

theorem activeSize_mem_drop (cfg : SConfig) (lo i : ℕ) (hlo : lo ≤ i)
    (hi : i < cfg.parts.length) :
    activeSize cfg i ∈ (activeSizes cfg).drop lo := by
  have hlen : i < (activeSizes cfg).length := by
    rw [activeSizes_length]; exact hi
  have hdlen : i - lo < ((activeSizes cfg).drop lo).length := by
    rw [List.length_drop, activeSizes_length]
    omega
  have : ((activeSizes cfg).drop lo)[i - lo] = activeSize cfg i := by
    rw [List.getElem_drop]
    have harith : lo + (i - lo) = i := by omega
    simp only [harith]
    exact activeSizes_getElem cfg i hlen
  rw [← this]
  exact List.getElem_mem hdlen

theorem windowColCount_slice (cfg : SConfig) :
    ∀ n lo, lo + n ≤ cfg.parts.length →
      windowColCount cfg lo (lo + n)
        = (((activeSizes cfg).drop lo).take n).sum := by
  intro n
  induction n with
  | zero =>
    intro lo _
    simp [windowColCount]
  | succ n ih =>
    intro lo hlo
    have hlt : lo < cfg.parts.length := by omega
    have hdropp : cfg.parts.drop lo
        = cfg.parts[lo] :: cfg.parts.drop (lo + 1) :=
      List.drop_eq_getElem_cons hlt
    have hget : cfg.parts.getD lo 0 = cfg.parts[lo] := by
      rw [List.getD_eq_getElem?_getD, List.getElem?_eq_getElem hlt]
      rfl
    rw [windowColCount, hdropp]
    have harith : lo + (n + 1) - lo = n + 1 := by omega
    rw [harith, List.take_succ_cons, List.map_cons, List.sum_cons]
    rw [activeSizes_drop_cons cfg lo hlt, List.take_succ_cons, List.sum_cons]
    have hsz : activeSize cfg lo
        = cfg.indices.getD (cfg.parts[lo] + 1) 0
          - cfg.indices.getD cfg.parts[lo] 0 := by
      rw [activeSize, activeStop, activeStart, hget]
    rw [hsz]
    have := ih (lo + 1) (by omega)
    rw [windowColCount] at this
    have harith2 : lo + 1 + n - (lo + 1) = n := by omega
    rw [harith2] at this
    omega

/-- Full characterization of one `advance` call from a state whose unserved
suffix either is empty or contains a nonempty partition, when every active
partition fits within `max_cols_`. -/
theorem advance_ok (cfg : SConfig) (s : SState)
    (hserved : s.partHi ≤ cfg.parts.length)
    (hfit : ∀ i, i < cfg.parts.length → activeSize cfg i ≤ cfg.maxCols)
    (hrem : s.partHi = cfg.parts.length ∨
      ∃ i, s.partHi ≤ i ∧ i < cfg.parts.length ∧ 0 < activeSize cfg i) :
    advance cfg s = .ok
      (⟨s.colHi,
        s.colHi + (((activeSizes cfg).drop s.partHi).take
          (greedyTake cfg.maxCols 0 ((activeSizes cfg).drop s.partHi))).sum,
        s.partHi,
        s.partHi + greedyTake cfg.maxCols 0 ((activeSizes cfg).drop s.partHi),
        s.colHi, s.partHi,
        (((activeSizes cfg).drop s.partHi).take
          (greedyTake cfg.maxCols 0 ((activeSizes cfg).drop s.partHi))).sum,
        greedyTake cfg.maxCols 0 ((activeSizes cfg).drop s.partHi)⟩,
       decide (0 < (((activeSizes cfg).drop s.partHi).take
          (greedyTake cfg.maxCols 0 ((activeSizes cfg).drop s.partHi))).sum)) := by
  have habs := absorb_eq cfg s.colHi s.partHi s.colHi (le_refl _)
  rw [Nat.sub_self] at habs
  rcases hrem with hall | ⟨i, hloi, hilen, hipos⟩
  · -- all partitions served: the terminating advance
    have hdrop : (activeSizes cfg).drop s.partHi = [] := by
      apply List.drop_eq_nil_of_le
      rw [activeSizes_length]
      omega
    rw [hdrop] at habs ⊢
    simp only [greedyTake, List.take_nil, List.sum_nil, Nat.add_zero] at habs ⊢
    unfold advance
    simp only []
    rw [habs]
    simp
  · -- a nonempty partition remains: the window is productive
    set rest := (activeSizes cfg).drop s.partHi with hrest
    set t := greedyTake cfg.maxCols 0 rest with ht
    have hfitrest : ∀ x ∈ rest, x ≤ cfg.maxCols := by
      intro x hx
      obtain ⟨j, _, hjlen, hjx⟩ := mem_activeSizes_drop cfg s.partHi x hx
      rw [← hjx]
      exact hfit j hjlen
    have hsumpos : 0 < (rest.take t).sum := by
      by_contra hs
      have hs0 : (rest.take t).sum = 0 := by omega
      obtain ⟨_, hzero⟩ := greedyTake_zero_sum cfg.maxCols rest hfitrest hs0
      have hmem : activeSize cfg i ∈ rest :=
        activeSize_mem_drop cfg s.partHi i hloi hilen
      have := hzero _ hmem
      omega
    have htpos : 0 < t := by
      by_contra htz
      have : t = 0 := by omega
      rw [this] at hsumpos
      simp at hsumpos
    have htlen : t ≤ rest.length := greedyTake_le_length cfg.maxCols rest 0
    have hrestlen : rest.length = cfg.parts.length - s.partHi := by
      rw [hrest, List.length_drop, activeSizes_length]
    have hcount : windowColCount cfg s.partHi (s.partHi + t)
        = (rest.take t).sum := by
      rw [windowColCount_slice cfg t s.partHi (by omega)]
    unfold advance
    simp only []
    rw [habs]
    simp only [Nat.add_sub_cancel_left]
    rw [if_neg (by omega), if_neg (by omega), if_neg (by omega)]
    rw [decide_eq_true hsumpos]

theorem filterMap_ite {α β : Type} (f : α → β) (c : α → Prop)
    [DecidablePred c] :
    ∀ l : List α,
      l.filterMap (fun p => if c p then none else some (f p))
        = (l.filter (fun p => !decide (c p))).map f := by
  intro l
  induction l with
  | nil => rfl
  | cons x xs ih =>
    by_cases hc : c x
    · simp [List.filterMap_cons, List.filter_cons, hc, ih]
    · simp [List.filterMap_cons, List.filter_cons, hc, ih]

theorem sum_filter_ne_zero (f : ℕ → ℕ) :
    ∀ l : List ℕ,
      ((l.filter (fun p => !decide (f p = 0))).map f).sum = (l.map f).sum := by
  intro l
  induction l with
  | nil => rfl
  | cons x xs ih =>
    by_cases hx : f x = 0
    · simp [List.filter_cons, hx, ih]
    · simp [List.filter_cons, hx, ih]

theorem mkStreamer_maxCols (N ub : ℕ) (ind parts : List ℕ)
    (r : SConfig × SState × Bool)
    (hr : mkStreamer N ind parts ub = .ok r) :
    ∃ fixed, ctorFixIndices N ind = .ok fixed ∧
      r.1.maxCols = (if ub = 0 ∨ ub > totalMaxCols fixed parts
        then totalMaxCols fixed parts else ub) := by
  cases hfix : ctorFixIndices N ind with
  | error e =>
    rw [mkStreamer, hfix] at hr
    exact absurd hr (by simp)
  | ok fixed =>
    refine ⟨fixed, rfl, ?_⟩
    rw [mkStreamer, hfix] at hr
    simp only [] at hr
    cases hadv : advance ⟨N, fixed, parts,
        windowCap ub (totalMaxCols fixed parts)⟩ initState with
    | error e =>
      rw [hadv] at hr
      exact absurd hr (by simp)
    | ok a =>
      rw [hadv] at hr
      simp only [Except.ok.injEq] at hr
      rw [← hr]
      rw [windowCap]

/-- C3: with a single active partition of 5 columns and `upper_bound = 2`,
the streamer constructs successfully with `max_cols_ = 2`, the first
`advance` absorbs nothing and returns `false` with no error, and a further
`advance` does the same: the oversized partition is neither admitted whole
nor rejected (the streamer has no `PartitionTooLarge` error at all), so the
caller is silently served none of the active partitions. -/
theorem tvs_C3 :
    mkStreamer 5 [0, 5] [0] 2
      = Except.ok (⟨5, [0, 5], [0], 2⟩, initState, false) ∧
    advance ⟨5, [0, 5], [0], 2⟩ initState = Except.ok (initState, false) ∧
    initState.numColParts = 0 ∧
    activeSize ⟨5, [0, 5], [0], 2⟩ 0 = 5 := by
  refine ⟨rfl, rfl, rfl, rfl⟩

/-- C4 (amended): provided every active partition is nonempty and fits
within `max_cols_`, `advance` absorbs partitions greedily from the first
unserved one, stopping exactly when adding the next partition would exceed
`max_cols_` (which the constructor sets to `total_max_cols` when
`upper_bound` is zero or exceeds it, and to `upper_bound` otherwise), and
returns `true` iff at least one partition was loaded, returning `false`
only when all active partitions have been served. -/
theorem tvs_C4 (cfg : SConfig) (s : SState)
    (hserved : s.partHi ≤ cfg.parts.length)
    (hfit : ∀ i, i < cfg.parts.length → activeSize cfg i ≤ cfg.maxCols)
    (hpos : ∀ i, i < cfg.parts.length → 0 < activeSize cfg i) :
    ∃ s' b, advance cfg s = .ok (s', b) ∧
      s'.partLo = s.partHi ∧
      s'.partHi = s.partHi
        + greedyTake cfg.maxCols 0 ((activeSizes cfg).drop s.partHi) ∧
      s'.numColParts
        = greedyTake cfg.maxCols 0 ((activeSizes cfg).drop s.partHi) ∧
      s'.numCols
        = (((activeSizes cfg).drop s.partHi).take s'.numColParts).sum ∧
      s'.numCols ≤ cfg.maxCols ∧
      (s'.partHi < cfg.parts.length →
        cfg.maxCols < s'.numCols + activeSize cfg s'.partHi) ∧
      (b = true ↔ s.partHi < cfg.parts.length) ∧
      (b = false ↔ s.partHi = cfg.parts.length) ∧
      (∀ (numArrayCols upperBound : ℕ) (indices parts : List ℕ)
          (r : SConfig × SState × Bool),
        mkStreamer numArrayCols indices parts upperBound = .ok r →
        ∃ fixed, ctorFixIndices numArrayCols indices = .ok fixed ∧
          r.1.maxCols = (if upperBound = 0
              ∨ upperBound > totalMaxCols fixed parts
            then totalMaxCols fixed parts else upperBound)) := by
  have hrem : s.partHi = cfg.parts.length ∨
      ∃ i, s.partHi ≤ i ∧ i < cfg.parts.length ∧ 0 < activeSize cfg i := by
    rcases Nat.lt_or_ge s.partHi cfg.parts.length with hlt | hge
    · exact Or.inr ⟨s.partHi, le_refl _, hlt, hpos _ hlt⟩
    · exact Or.inl (by omega)
  have hadv := advance_ok cfg s hserved hfit hrem
  have hrestlen : ((activeSizes cfg).drop s.partHi).length
      = cfg.parts.length - s.partHi := by
    rw [List.length_drop, activeSizes_length]
  have hfitrest : ∀ x ∈ (activeSizes cfg).drop s.partHi, x ≤ cfg.maxCols := by
    intro x hx
    obtain ⟨j, _, hjlen, hjx⟩ := mem_activeSizes_drop cfg s.partHi x hx
    rw [← hjx]
    exact hfit j hjlen
  have hsum_iff : 0 < (((activeSizes cfg).drop s.partHi).take
        (greedyTake cfg.maxCols 0 ((activeSizes cfg).drop s.partHi))).sum
      ↔ s.partHi < cfg.parts.length := by
    constructor
    · intro hsum
      by_contra hge
      have hnil : (activeSizes cfg).drop s.partHi = [] := by
        apply List.drop_eq_nil_of_le
        rw [activeSizes_length]
        omega
      rw [hnil] at hsum
      simp at hsum
    · intro hlt
      by_contra hs
      have hs0 : (((activeSizes cfg).drop s.partHi).take
          (greedyTake cfg.maxCols 0 ((activeSizes cfg).drop s.partHi))).sum
            = 0 := by omega
      obtain ⟨_, hzero⟩ := greedyTake_zero_sum cfg.maxCols _ hfitrest hs0
      have hmem : activeSize cfg s.partHi ∈ (activeSizes cfg).drop s.partHi :=
        activeSize_mem_drop cfg s.partHi s.partHi (le_refl _) hlt
      have h1 := hzero _ hmem
      have h2 := hpos _ hlt
      omega
  refine ⟨_, _, hadv, rfl, rfl, rfl, rfl, ?_, ?_, ?_, ?_, ?_⟩
  · have := greedyTake_sum_le cfg.maxCols ((activeSizes cfg).drop s.partHi) 0
      (Nat.zero_le _)
    simpa using this
  · intro hlt
    simp only [] at hlt ⊢
    have htlt : greedyTake cfg.maxCols 0 ((activeSizes cfg).drop s.partHi)
        < ((activeSizes cfg).drop s.partHi).length := by omega
    have hstop := greedyTake_stop cfg.maxCols ((activeSizes cfg).drop s.partHi)
      0 htlt
    have hgd : ((activeSizes cfg).drop s.partHi).getD
        (greedyTake cfg.maxCols 0 ((activeSizes cfg).drop s.partHi)) 0
          = activeSize cfg (s.partHi
            + greedyTake cfg.maxCols 0 ((activeSizes cfg).drop s.partHi)) := by
      rw [List.getD_eq_getElem?_getD, List.getElem?_eq_getElem htlt]
      simp only [Option.getD_some]
      rw [List.getElem_drop]
      have hlen3 : s.partHi
          + greedyTake cfg.maxCols 0 ((activeSizes cfg).drop s.partHi)
            < (activeSizes cfg).length := by
        rw [activeSizes_length]
        omega
      exact activeSizes_getElem cfg _ hlen3
    omega
  · rw [decide_eq_true_eq]
    exact hsum_iff
  · rw [decide_eq_false_iff_not]
    constructor
    · intro h
      by_contra hne
      exact h (hsum_iff.mpr (by omega))
    · intro h hc
      have := hsum_iff.mp hc
      omega
  · intro N ub ind parts r hr
    exact mkStreamer_maxCols N ub ind parts r hr

/-- C4 witness: a concrete three-partition streamer with window capacity 4
(partition sizes 3, 4, 3). -/
theorem tvs_C4_witness :
    ∃ s' b, advance ⟨10, [0, 3, 7, 10], [0, 1, 2], 4⟩ initState
        = .ok (s', b) ∧
      s'.partLo = initState.partHi ∧
      s'.partHi = initState.partHi
        + greedyTake 4 0 ((activeSizes ⟨10, [0, 3, 7, 10], [0, 1, 2], 4⟩).drop
            initState.partHi) ∧
      s'.numColParts
        = greedyTake 4 0 ((activeSizes ⟨10, [0, 3, 7, 10], [0, 1, 2], 4⟩).drop
            initState.partHi) ∧
      s'.numCols
        = (((activeSizes ⟨10, [0, 3, 7, 10], [0, 1, 2], 4⟩).drop
            initState.partHi).take s'.numColParts).sum ∧
      s'.numCols ≤ 4 ∧
      (s'.partHi < 3 →
        4 < s'.numCols
          + activeSize ⟨10, [0, 3, 7, 10], [0, 1, 2], 4⟩ s'.partHi) ∧
      (b = true ↔ initState.partHi < 3) ∧
      (b = false ↔ initState.partHi = 3) ∧
      (∀ (numArrayCols upperBound : ℕ) (indices parts : List ℕ)
          (r : SConfig × SState × Bool),
        mkStreamer numArrayCols indices parts upperBound = .ok r →
        ∃ fixed, ctorFixIndices numArrayCols indices = .ok fixed ∧
          r.1.maxCols = (if upperBound = 0
              ∨ upperBound > totalMaxCols fixed parts
            then totalMaxCols fixed parts else upperBound)) :=
  tvs_C4 ⟨10, [0, 3, 7, 10], [0, 1, 2], 4⟩ initState (by decide)
    (by decide) (by decide)

/-- C4 counterexample: the claim as stated says `advance` returns `false`
only when all active partitions have been served; with one unserved active
partition of 5 columns and `max_cols_ = 2` the first `advance` returns
`false` while `0 < 1` partitions have been served. -/
theorem tvs_C4_cex :
    advance ⟨5, [0, 5], [0], 2⟩ initState = Except.ok (initState, false) ∧
    initState.partHi = 0 ∧ ([0] : List ℕ).length = 1 := by
  refine ⟨rfl, rfl, rfl⟩

/-- C5 (amended): when all active partitions have been served, the
terminating `advance` returns `false` and leaves an empty window
(`num_col_parts() = 0`, `num_cols() = 0`), but it moves the cursors:
`col_offset()` becomes the end of the previously served columns and
`col_part_offset()` the count of previously served partitions (so they
change whenever the last window was nonempty). -/
theorem tvs_C5 (cfg : SConfig) (s : SState)
    (hall : s.partHi = cfg.parts.length) :
    advance cfg s = .ok
      (⟨s.colHi, s.colHi, s.partHi, s.partHi, s.colHi, s.partHi, 0, 0⟩,
       false) := by
  have habs := absorb_eq cfg s.colHi s.partHi s.colHi (le_refl _)
  rw [Nat.sub_self] at habs
  have hdrop : (activeSizes cfg).drop s.partHi = [] := by
    apply List.drop_eq_nil_of_le
    rw [activeSizes_length]
    omega
  rw [hdrop] at habs
  simp only [greedyTake, List.take_nil, List.sum_nil, Nat.add_zero] at habs
  unfold advance
  simp only []
  rw [habs]
  simp

/-- C5 witness: the terminating `advance` of a one-partition streamer. -/
theorem tvs_C5_witness :
    (⟨0, 3, 0, 1, 0, 0, 3, 1⟩ : SState).partHi
      = ([0] : List ℕ).length ∧
    advance ⟨3, [0, 3], [0], 3⟩ ⟨0, 3, 0, 1, 0, 0, 3, 1⟩
      = .ok (⟨3, 3, 1, 1, 3, 1, 0, 0⟩, false) :=
  ⟨rfl, tvs_C5 ⟨3, [0, 3], [0], 3⟩ ⟨0, 3, 0, 1, 0, 0, 3, 1⟩ rfl⟩

/-- C5 counterexample: the claim as stated says the terminating `advance`
leaves `col_offset()` unchanged; after a productive window of 3 columns
(`col_offset() = 0`), the terminating `advance` sets `col_offset() = 3`. -/
theorem tvs_C5_cex :
    mkStreamer 3 [0, 3] [0] 0
      = Except.ok (⟨3, [0, 3], [0], 3⟩, ⟨0, 3, 0, 1, 0, 0, 3, 1⟩, true) ∧
    advance ⟨3, [0, 3], [0], 3⟩ ⟨0, 3, 0, 1, 0, 0, 3, 1⟩
      = Except.ok (⟨3, 3, 1, 1, 3, 1, 0, 0⟩, false) ∧
    (⟨3, 3, 1, 1, 3, 1, 0, 0⟩ : SState).colOffset
      ≠ (⟨0, 3, 0, 1, 0, 0, 3, 1⟩ : SState).colOffset := by
  refine ⟨rfl, rfl, by decide⟩

/-- C6 (amended): provided every active partition fits within `max_cols_`
and the unserved suffix is empty or contains some nonempty partition,
`advance` raises no error (in particular no `InvalidPartitioning`), and
empty partitions contribute no read ranges and no columns: the issued
ranges are exactly one per nonempty partition of the window, and the
window's column count is the sum over its nonempty partitions. -/
theorem tvs_C6 (cfg : SConfig) (s : SState)
    (hserved : s.partHi ≤ cfg.parts.length)
    (hfit : ∀ i, i < cfg.parts.length → activeSize cfg i ≤ cfg.maxCols)
    (hrem : s.partHi = cfg.parts.length ∨
      ∃ i, s.partHi ≤ i ∧ i < cfg.parts.length ∧ 0 < activeSize cfg i) :
    ∃ s' b, advance cfg s = .ok (s', b) ∧
      windowRanges cfg s'.partLo s'.partHi
        = (((cfg.parts.drop s'.partLo).take (s'.partHi - s'.partLo)).filter
            (fun p => !decide (cfg.indices.getD (p + 1) 0
              - cfg.indices.getD p 0 = 0))).map
          (fun p => (cfg.indices.getD p 0, cfg.indices.getD (p + 1) 0 - 1)) ∧
      s'.numCols
        = ((((cfg.parts.drop s'.partLo).take (s'.partHi - s'.partLo)).filter
            (fun p => !decide (cfg.indices.getD (p + 1) 0
              - cfg.indices.getD p 0 = 0))).map
          (fun p => cfg.indices.getD (p + 1) 0
            - cfg.indices.getD p 0)).sum := by
  have hadv := advance_ok cfg s hserved hfit hrem
  refine ⟨_, _, hadv, ?_, ?_⟩
  · simp only [windowRanges]
    rw [filterMap_ite
      (fun p => (cfg.indices.getD p 0, cfg.indices.getD (p + 1) 0 - 1))
      (fun p => cfg.indices.getD (p + 1) 0 - cfg.indices.getD p 0 = 0)]
  · simp only []
    have harith : s.partHi + greedyTake cfg.maxCols 0
        ((activeSizes cfg).drop s.partHi) - s.partHi
        = greedyTake cfg.maxCols 0 ((activeSizes cfg).drop s.partHi) := by
      omega
    rw [harith]
    rw [sum_filter_ne_zero
      (fun p => cfg.indices.getD (p + 1) 0 - cfg.indices.getD p 0)]
    have htlen : greedyTake cfg.maxCols 0 ((activeSizes cfg).drop s.partHi)
        ≤ ((activeSizes cfg).drop s.partHi).length :=
      greedyTake_le_length cfg.maxCols _ 0
    have := windowColCount_slice cfg
      (greedyTake cfg.maxCols 0 ((activeSizes cfg).drop s.partHi)) s.partHi
      (by
        rw [List.length_drop, activeSizes_length] at htlen
        omega)
    rw [windowColCount] at this
    have harith2 : s.partHi + greedyTake cfg.maxCols 0
        ((activeSizes cfg).drop s.partHi) - s.partHi
        = greedyTake cfg.maxCols 0 ((activeSizes cfg).drop s.partHi) := by
      omega
    rw [harith2] at this
    exact this.symm

/-- C6 witness: a window holding a nonempty, an empty, and another nonempty
partition: two ranges are issued and the empty partition contributes no
columns. -/
theorem tvs_C6_witness :
    ∃ s' b, advance ⟨7, [0, 3, 3, 7], [0, 1, 2], 7⟩ initState
        = .ok (s', b) ∧
      windowRanges ⟨7, [0, 3, 3, 7], [0, 1, 2], 7⟩ s'.partLo s'.partHi
        = (((([0, 1, 2] : List ℕ).drop s'.partLo).take
            (s'.partHi - s'.partLo)).filter
            (fun p => !decide (([0, 3, 3, 7] : List ℕ).getD (p + 1) 0
              - ([0, 3, 3, 7] : List ℕ).getD p 0 = 0))).map
          (fun p => (([0, 3, 3, 7] : List ℕ).getD p 0,
            ([0, 3, 3, 7] : List ℕ).getD (p + 1) 0 - 1)) ∧
      s'.numCols
        = ((((([0, 1, 2] : List ℕ).drop s'.partLo).take
            (s'.partHi - s'.partLo)).filter
            (fun p => !decide (([0, 3, 3, 7] : List ℕ).getD (p + 1) 0
              - ([0, 3, 3, 7] : List ℕ).getD p 0 = 0))).map
          (fun p => ([0, 3, 3, 7] : List ℕ).getD (p + 1) 0
            - ([0, 3, 3, 7] : List ℕ).getD p 0)).sum :=
  tvs_C6 ⟨7, [0, 3, 3, 7], [0, 1, 2], 7⟩ initState (by decide) (by decide)
    (Or.inr ⟨0, by decide, by decide, by decide⟩)

theorem getD_set_self {α : Type} (l : List α) (i : ℕ) (v d : α)
    (hi : i < l.length) : (l.set i v).getD i d = v := by
  rw [List.getD_eq_getElem?_getD, List.getElem?_set, if_pos rfl, if_pos hi]
  rfl

theorem getD_set_ne {α : Type} (l : List α) (i j : ℕ) (v d : α)
    (hne : i ≠ j) : (l.set i v).getD j d = l.getD j d := by
  rw [List.getD_eq_getElem?_getD, List.getElem?_set, if_neg hne,
    ← List.getD_eq_getElem?_getD]

/-- C9: for a well-formed indices vector truncated to length `nlist` (final
sentinel missing), both query paths silently extend it: the infinite-RAM
path appends one slot holding the database's column count `N`, and the
finite-RAM path's fix-up plus the streamer constructor's correction produce
a vector of length `nlist + 1` whose final entry is `N`, with no error
raised. -/
theorem tvs_C9 (nlist N : ℕ) (indices : List ℕ)
    (hlen : indices.length = nlist) (hn : 1 ≤ nlist)
    (hle : indices.getD (nlist - 1) 0 ≤ N) :
    (infFixIndices N nlist indices).length = nlist + 1 ∧
    (infFixIndices N nlist indices).getD nlist 0 = N ∧
    ∃ fixed, ctorFixIndices N (qvFixIndices nlist indices) = .ok fixed ∧
      fixed.length = nlist + 1 ∧ fixed.getD nlist 0 = N := by
  have hinf : infFixIndices N nlist indices = indices ++ [N] := by
    rw [infFixIndices, if_pos hlen]
  have happlen : (indices ++ [N]).length = nlist + 1 := by
    simp [hlen]
  have happget : (indices ++ [N]).getD nlist 0 = N := by
    rw [List.getD_eq_getElem?_getD, List.getElem?_append_right (by omega)]
    simp [hlen]
  refine ⟨by rw [hinf]; exact happlen, by rw [hinf]; exact happget, ?_⟩
  -- the finite-RAM path
  have hqv : qvFixIndices nlist indices
      = (indices ++ [0]).set nlist ((indices ++ [0]).getD (nlist - 1) 0) := by
    rw [qvFixIndices, if_pos (by omega)]
    have htake : indices.take (nlist + 1) = indices :=
      List.take_of_length_le (by omega)
    have hrep : List.replicate (nlist + 1 - indices.length) 0 = [0] := by
      rw [hlen]
      simp
    rw [htake, hrep]
  have hpad_get : (indices ++ [0]).getD (nlist - 1) 0
      = indices.getD (nlist - 1) 0 := by
    rw [List.getD_eq_getElem?_getD, List.getElem?_append,
      if_pos (by omega), ← List.getD_eq_getElem?_getD]
  set v := indices.getD (nlist - 1) 0 with hv
  have hqv2 : qvFixIndices nlist indices = (indices ++ [0]).set nlist v := by
    rw [hqv, hpad_get]
  have hqlen : (qvFixIndices nlist indices).length = nlist + 1 := by
    rw [hqv2, List.length_set]
    simp [hlen]
  have hq_last : (qvFixIndices nlist indices).getD nlist 0 = v := by
    rw [hqv2]
    exact getD_set_self _ _ _ _ (by simp [hlen])
  have hq_prev : (qvFixIndices nlist indices).getD (nlist - 1) 0 = v := by
    rw [hqv2, getD_set_ne _ _ _ _ _ (by omega), hpad_get]
  refine ⟨(qvFixIndices nlist indices).set nlist N, ?_, ?_, ?_⟩
  · rw [ctorFixIndices, hqlen]
    have h1 : nlist + 1 - 1 = nlist := by omega
    have h2 : nlist + 1 - 2 = nlist - 1 := by omega
    rw [h1, h2, hq_last, hq_prev, if_pos rfl, if_neg (by omega)]
  · rw [List.length_set, hqlen]
  · exact getD_set_self _ _ _ _ (by rw [hqlen]; omega)

/-- C9 witness: a two-partition index vector `[0, 2]` truncated to length
`nlist = 2` with `N = 5`. -/
theorem tvs_C9_witness :
    (infFixIndices 5 2 [0, 2]).length = 3 ∧
    (infFixIndices 5 2 [0, 2]).getD 2 0 = 5 ∧
    ∃ fixed, ctorFixIndices 5 (qvFixIndices 2 [0, 2]) = .ok fixed ∧
      fixed.length = 3 ∧ fixed.getD 2 0 = 5 :=
  tvs_C9 2 5 [0, 2] (by decide) (by decide) (by decide)

/-! ### Training lemmas -/

theorem reassignGo_eq (ts : List Vec) (parts : List ℕ)
    (low : List (ℕ × ℕ)) (high : List (ℚ × ℕ)) (bound : ℕ) :
    ∀ fuel i sums degrees, low.length - i ≤ fuel →
      reassignGo ts parts low high bound fuel i sums degrees
        = (((low.drop i).zip (high.drop i)).takeWhile
            (fun pr => decide (pr.1.1 ≤ bound))).foldl
          (reassignStep ts parts) (sums, degrees) := by
  intro fuel
  induction fuel with
  | zero =>
    intro i sums degrees hf
    have hd : low.drop i = [] := List.drop_eq_nil_of_le (by omega)
    rw [reassignGo, hd]
    simp
  | succ fuel ih =>
    intro i sums degrees hf
    by_cases hi : i < low.length
    · have hdropl : low.drop i = low[i] :: low.drop (i + 1) :=
        List.drop_eq_getElem_cons hi
      have hgetD : low.getD i (0, 0) = low[i] := by
        rw [List.getD_eq_getElem?_getD, List.getElem?_eq_getElem hi]
        rfl
      rw [reassignGo, if_pos hi, hgetD]
      by_cases hcond : low[i].1 ≤ bound
      · rw [if_pos hcond]
        cases hhigh : high[i]? with
        | none =>
          have hhlen : high.length ≤ i := List.getElem?_eq_none_iff.mp hhigh
          have hdroph : high.drop i = [] := List.drop_eq_nil_of_le hhlen
          rw [hdroph, List.zip_nil_right]
          simp
        | some hs =>
          have hhi : i < high.length := by
            by_contra hc
            rw [List.getElem?_eq_none (by omega)] at hhigh
            exact absurd hhigh (by simp)
          have hhs : hs = high[i] := by
            rw [List.getElem?_eq_getElem hhi] at hhigh
            exact (Option.some.injEq _ _ ▸ hhigh).symm
          have hdroph : high.drop i = high[i] :: high.drop (i + 1) :=
            List.drop_eq_getElem_cons hhi
          show reassignGo ts parts low high bound fuel (i + 1)
              (reassignStep ts parts (sums, degrees) (low[i], hs)).1
              (reassignStep ts parts (sums, degrees) (low[i], hs)).2
            = (((low.drop i).zip (high.drop i)).takeWhile
                (fun pr => decide (pr.1.1 ≤ bound))).foldl
              (reassignStep ts parts) (sums, degrees)
          rw [ih (i + 1) _ _ (by omega)]
          rw [hdropl, hdroph, List.zip_cons_cons, List.takeWhile_cons,
            if_pos (by simpa using hcond), List.foldl_cons, hhs,
            Prod.mk.eta]
      · rw [if_neg hcond]
        rw [hdropl]
        cases hdroph : high.drop i with
        | nil => rw [List.zip_nil_right]; simp
        | cons hh ht =>
          rw [List.zip_cons_cons, List.takeWhile_cons,
            if_neg (by simpa using hcond)]
          simp
    · have hd : low.drop i = [] := List.drop_eq_nil_of_le (by omega)
      rw [reassignGo, if_neg hi, hd]
      simp

theorem reassignLoop_eq (ts : List Vec) (parts : List ℕ)
    (low : List (ℕ × ℕ)) (high : List (ℚ × ℕ)) (bound : ℕ)
    (sums : List Vec) (degrees : List ℕ) :
    reassignLoop ts parts low high bound 0 sums degrees
      = reassignSpec ts parts low high bound sums degrees := by
  rw [reassignLoop, reassignSpec,
    reassignGo_eq ts parts low high bound (low.length - 0) 0 sums degrees
      (le_refl _)]
  rw [List.drop_zero, List.drop_zero]

/-- C7: the reassignment step of `train_no_init` is performed on every
Lloyd iteration except the final scheduled one (`iter = max_iter - 1`, the
code's skip condition), and when performed it walks the sorted
(degree, centroid) pairs zipped with the sorted outliers for exactly the
leading run whose degree is at most
`lower_degree_bound = ceil(max_degree * reassign_ratio)`, overwriting each
such centroid's sum with the corresponding outlier vector, subtracting
that vector from the sum of the outlier's assigned partition, incrementing
the overwritten centroid's degree and decrementing the outlier's
partition's degree. -/
theorem tvs_C7 :
    (∀ (ts : List Vec) (parts : List ℕ) (low : List (ℕ × ℕ))
        (high : List (ℚ × ℕ)) (bound : ℕ) (sums : List Vec)
        (degrees : List ℕ),
      reassignLoop ts parts low high bound 0 sums degrees
        = reassignSpec ts parts low high bound sums degrees) ∧
    (∀ (cfg : TrainCfg) (ts cent : List Vec) (iter : ℕ),
      lloydStep cfg ts cent (decide (iter = cfg.maxIter - 1))
        = (let sp := partitionWithScores cent ts
           let acc := accumulate cfg ts sp.1 sp.2
           let rs := if iter = cfg.maxIter - 1 then (acc.1, acc.2.1)
             else reassignSpec ts sp.2
               (sortLow (lowDegreesOf cfg acc.2.1))
               (sortHigh acc.2.2)
               (⌈((maxDegreeOf cfg acc.2.1 : ℚ)) * cfg.reassignFrac⌉₊)
               acc.1 acc.2.1
           finalize cfg cent rs.1 rs.2)) := by
  refine ⟨fun ts parts low high bound sums degrees =>
    reassignLoop_eq ts parts low high bound sums degrees, ?_⟩
  intro cfg ts cent iter
  by_cases h : iter = cfg.maxIter - 1
  · simp [lloydStep, h]
  · simp [lloydStep, h, reassignLoop_eq]

theorem coe_sub_first_max {S : Type} [LinearOrder S] (l₁ l₂ : List (S × ℕ))
    (a₀ : S × ℕ) :
    (↑(l₁ ++ a₀ :: l₂) : Multiset (S × ℕ)) - {a₀}
      = ↑(l₁ ++ l₂) := by
  have h1 : (↑(l₁ ++ a₀ :: l₂) : Multiset (S × ℕ))
      = ↑l₁ + (a₀ ::ₘ ↑l₂) := by
    rw [← Multiset.coe_add]
    rfl
  have h2 : (↑(l₁ ++ l₂) : Multiset (S × ℕ)) = ↑l₁ + ↑l₂ := by
    rw [← Multiset.coe_add]
  rw [h1, h2]
  rw [Multiset.ext]
  intro c
  simp only [Multiset.count_sub, Multiset.count_add, Multiset.count_cons,
    Multiset.count_singleton]
  omega

/-- C2 (heap modelled from the spec, `utils/fixed_min_heap.h` not in the
sample): for capacity `k ≥ 1`, (a) the heap size never exceeds `k` after
any insert sequence, (b) on a full heap an insert whose score is at least
the held maximum leaves the contents unchanged and otherwise displaces a
pair holding the maximum, and (c) after any insert sequence the held
multiset is a `k`-smallest-by-score selection of the inserted pairs. -/
theorem tvs_C2 {S : Type} [LinearOrder S] (k : ℕ) (hk : 1 ≤ k) :
    (∀ xs : List (S × ℕ), (hFold k [] xs).length ≤ k) ∧
    (∀ (h : List (S × ℕ)) (x : S × ℕ), h.length = k →
      ∃ w ∈ h, (∀ z ∈ h, z.1 ≤ w.1) ∧
        (w.1 ≤ x.1 → hInsert k h x = h) ∧
        (x.1 < w.1 →
          (↑(hInsert k h x) : Multiset (S × ℕ))
            = x ::ₘ ((↑h : Multiset (S × ℕ)) - {w}))) ∧
    (∀ xs : List (S × ℕ),
      SelK k (↑xs : Multiset (S × ℕ))
        (↑(hFold k [] xs) : Multiset (S × ℕ))) := by
  refine ⟨?_, ?_, fun xs => SelK_hFold_nil xs⟩
  · intro xs
    obtain ⟨_, hcard, _⟩ := SelK_hFold_nil (k := k) xs
    rw [Multiset.coe_card] at hcard
    omega
  · intro h x hlen
    have hne : h ≠ [] := by
      intro hnil
      rw [hnil] at hlen
      simp at hlen
      omega
    obtain ⟨w, hw_find, hw_mem, hw_max⟩ := find?_isWorst_of_ne_nil h hne
    have hw_sat : isWorst h w = true := List.find?_some hw_find
    obtain ⟨a₀, l₁, l₂, _, ha₀_sat, hdec, herase⟩ :=
      List.exists_of_eraseP hw_mem hw_sat
    have ha₀_mem : a₀ ∈ h := by rw [hdec]; simp
    simp only [isWorst, List.all_eq_true, decide_eq_true_eq] at ha₀_sat
    have ha₀w : a₀.1 = w.1 :=
      le_antisymm (hw_max _ ha₀_mem) (ha₀_sat _ hw_mem)
    refine ⟨a₀, ha₀_mem, ha₀_sat, ?_, ?_⟩
    · intro hle
      rw [hInsert, if_neg (by omega), hw_find]
      show (if x.1 < w.1 then x :: h.eraseP (isWorst h) else h) = h
      rw [if_neg (by
        rw [← ha₀w]
        exact not_lt.mpr hle)]
    · intro hlt
      rw [hInsert, if_neg (by omega), hw_find]
      show (↑(if x.1 < w.1 then x :: h.eraseP (isWorst h) else h)
          : Multiset (S × ℕ))
        = x ::ₘ ((↑h : Multiset (S × ℕ)) - {a₀})
      rw [if_pos (ha₀w ▸ hlt)]
      rw [herase, hdec]
      rw [show ((x :: (l₁ ++ l₂) : List (S × ℕ)) : Multiset (S × ℕ))
        = x ::ₘ ↑(l₁ ++ l₂) from rfl]
      rw [coe_sub_first_max l₁ l₂ a₀]

/-- C2 witness: capacity 2 over rational scores. -/
theorem tvs_C2_witness :
    (∀ xs : List (ℚ × ℕ), (hFold 2 [] xs).length ≤ 2) ∧
    (∀ (h : List (ℚ × ℕ)) (x : ℚ × ℕ), h.length = 2 →
      ∃ w ∈ h, (∀ z ∈ h, z.1 ≤ w.1) ∧
        (w.1 ≤ x.1 → hInsert 2 h x = h) ∧
        (x.1 < w.1 →
          (↑(hInsert 2 h x) : Multiset (ℚ × ℕ))
            = x ::ₘ ((↑h : Multiset (ℚ × ℕ)) - {w}))) ∧
    (∀ xs : List (ℚ × ℕ),
      SelK 2 (↑xs : Multiset (ℚ × ℕ))
        (↑(hFold 2 [] xs) : Multiset (ℚ × ℕ))) :=
  tvs_C2 (S := ℚ) 2 (by decide)

theorem drawUnvisited_sound (next : ℕ → ℕ) (visited : List Bool) :
    ∀ fuel t idx t', drawUnvisited next visited t fuel = some (idx, t') →
      visited.getD idx false = false ∧ ∃ s, idx = next s := by
  intro fuel
  induction fuel with
  | zero => intro t idx t' h; exact absurd h (by rw [drawUnvisited]; simp)
  | succ fuel ih =>
    intro t idx t' h
    rw [drawUnvisited] at h
    by_cases hv : visited.getD (next t) false
    · rw [if_pos hv] at h
      exact ih (t + 1) idx t' h
    · rw [if_neg hv] at h
      simp only [Option.some.injEq, Prod.mk.injEq] at h
      refine ⟨?_, t, h.1.symm⟩
      rw [← h.1]
      simpa using hv

theorem drawUnvisited_none (next : ℕ → ℕ) (visited : List Bool)
    (hnext : ∀ t, next t < visited.length)
    (hall : ∀ i, i < visited.length → visited.getD i false = true) :
    ∀ fuel t, drawUnvisited next visited t fuel = none := by
  intro fuel
  induction fuel with
  | zero => intro t; rw [drawUnvisited]
  | succ fuel ih =>
    intro t
    rw [drawUnvisited, if_pos (hall (next t) (hnext t))]
    exact ih (t + 1)

theorem randomInitGo_sound (next : ℕ → ℕ) (numCols fuel : ℕ)
    (hnext : ∀ t, next t < numCols) :
    ∀ (r t : ℕ) (visited : List Bool) (acc l : List ℕ),
      visited.length = numCols →
      (∀ x ∈ acc, x < numCols ∧ visited.getD x false = true) →
      acc.Nodup →
      randomInitGo next fuel r t visited acc = some l →
      l.Nodup ∧ l.length = r + acc.length ∧ ∀ x ∈ l, x < numCols := by
  intro r
  induction r with
  | zero =>
    intro t visited acc l hvlen hacc hnd h
    rw [randomInitGo] at h
    simp only [Option.some.injEq] at h
    subst h
    refine ⟨by simpa using hnd, by simp, ?_⟩
    intro x hx
    rw [List.mem_reverse] at hx
    exact (hacc x hx).1
  | succ r ih =>
    intro t visited acc l hvlen hacc hnd h
    rw [randomInitGo] at h
    cases hdraw : drawUnvisited next visited t fuel with
    | none => rw [hdraw] at h; simp at h
    | some p =>
      obtain ⟨idx, t'⟩ := p
      rw [hdraw] at h
      obtain ⟨hfalse, s, hs⟩ :=
        drawUnvisited_sound next visited fuel t idx t' hdraw
      have hidx : idx < numCols := hs ▸ hnext s
      have hnotmem : idx ∉ acc := by
        intro hmem
        have := (hacc _ hmem).2
        rw [hfalse] at this
        exact Bool.false_ne_true this
      have hres := ih t' (visited.set idx true) (idx :: acc) l
        (by rw [List.length_set]; exact hvlen)
        (by
          intro x hx
          rcases List.mem_cons.mp hx with hx | hx
          · rw [hx]
            exact ⟨hidx, getD_set_self visited idx true false
              (by omega)⟩
          · refine ⟨(hacc x hx).1, ?_⟩
            by_cases hxe : idx = x
            · subst hxe
              exact getD_set_self visited idx true false (by omega)
            · rw [getD_set_ne visited idx x true false hxe]
              exact (hacc x hx).2)
        (List.nodup_cons.mpr ⟨hnotmem, hnd⟩) h
      refine ⟨hres.1, ?_, hres.2.2⟩
      rw [hres.2.1]
      simp only [List.length_cons]
      omega

theorem set_replicate_append (rest : List Bool) :
    ∀ t, (List.replicate t true ++ false :: rest).set t true
      = List.replicate t true ++ true :: rest := by
  intro t
  induction t with
  | zero => rfl
  | succ t ih =>
    simp only [List.replicate_succ, List.cons_append, List.set_cons_succ]
    rw [ih]

theorem randomInitGo_id_some (numCols : ℕ) :
    ∀ (r t : ℕ) (acc : List ℕ), t + r ≤ numCols →
      (randomInitGo (fun s => s) 1 r t
        (List.replicate t true ++ List.replicate (numCols - t) false)
        acc).isSome := by
  intro r
  induction r with
  | zero =>
    intro t acc _
    rw [randomInitGo]
    rfl
  | succ r ih =>
    intro t acc ht
    rw [randomInitGo]
    have htlt : t < numCols := by omega
    have hrep : List.replicate (numCols - t) false
        = false :: List.replicate (numCols - t - 1) false := by
      have h1 : numCols - t = numCols - t - 1 + 1 := by omega
      rw [h1, List.replicate_succ]
      have h2 : numCols - t - 1 + 1 - 1 = numCols - t - 1 := by omega
      rw [h2]
    have hget : (List.replicate t true
        ++ List.replicate (numCols - t) false).getD t false = false := by
      rw [List.getD_eq_getElem?_getD, List.getElem?_append,
        if_neg (by simp), hrep]
      simp
    rw [drawUnvisited, hget]
    simp only [Bool.false_eq_true, if_false]
    have hset : (List.replicate t true
          ++ List.replicate (numCols - t) false).set t true
        = List.replicate (t + 1) true
          ++ List.replicate (numCols - (t + 1)) false := by
      rw [hrep, set_replicate_append]
      rw [List.replicate_succ' t]
      have : numCols - (t + 1) = numCols - t - 1 := by omega
      rw [this]
      simp
    rw [hset]
    exact ih (t + 1) _ (by omega)

theorem randomInitGo_none (next : ℕ → ℕ) (numCols fuel : ℕ)
    (hnext : ∀ t, next t < numCols) :
    ∀ (r : ℕ) (t : ℕ) (visited : List Bool) (acc : List ℕ),
      visited.length = numCols →
      visited.count false < r →
      randomInitGo next fuel r t visited acc = none := by
  intro r
  induction r with
  | zero => intro t visited acc _ hcnt; omega
  | succ r ih =>
    intro t visited acc hvlen hcnt
    rw [randomInitGo]
    by_cases hzero : visited.count false = 0
    · have hall : ∀ i, i < visited.length → visited.getD i false = true := by
        intro i hi
        have hmem : visited.getD i false ∈ visited := by
          rw [List.getD_eq_getElem?_getD, List.getElem?_eq_getElem hi]
          exact List.getElem_mem hi
        cases hv : visited.getD i false
        · exfalso
          rw [hv] at hmem
          have := List.count_pos_iff.mpr hmem
          omega
        · rfl
      rw [drawUnvisited_none next visited (by rw [hvlen]; exact hnext)
        hall fuel t]
    · cases hdraw : drawUnvisited next visited t fuel with
      | none => rfl
      | some p =>
        obtain ⟨idx, t'⟩ := p
        obtain ⟨hfalse, s, hs⟩ :=
          drawUnvisited_sound next visited fuel t idx t' hdraw
        have hidx : idx < visited.length := by
          rw [hvlen]
          exact hs ▸ hnext s
        have hgetfalse : visited[idx] = false := by
          rw [List.getD_eq_getElem?_getD, List.getElem?_eq_getElem hidx]
            at hfalse
          simpa using hfalse
        have hcnt2 : (visited.set idx true).count false
            = visited.count false - 1 := by
          rw [List.count_set true false visited idx hidx, hgetfalse]
          simp
        show randomInitGo next fuel r t' (visited.set idx true)
          (idx :: acc) = none
        apply ih t' (visited.set idx true) (idx :: acc)
          (by rw [List.length_set]; exact hvlen)
        rw [hcnt2]
        have : 0 < visited.count false := by omega
        omega

/-- C10: the index-selection phase of `kmeans_random_init`.  Whenever it
returns, the chosen indices are `nlist` pairwise-distinct valid column
indices; with at least `nlist` training columns a draw sequence exists
under which it terminates; with fewer than `nlist` columns the rejection
loop never terminates, whatever the draws — and no error (such as
`EmptyInput`) is ever raised, the selection simply runs forever. -/
theorem tvs_C10 (nlist numCols : ℕ) (next : ℕ → ℕ) (fuel : ℕ)
    (hnext : ∀ t, next t < numCols) :
    (∀ l, randomInit next nlist numCols fuel = some l →
      l.Nodup ∧ l.length = nlist ∧ ∀ x ∈ l, x < numCols) ∧
    (nlist ≤ numCols →
      ∃ l, randomInit (fun s => s) nlist numCols 1 = some l) ∧
    (numCols < nlist → randomInit next nlist numCols fuel = none) := by
  refine ⟨?_, ?_, ?_⟩
  · intro l h
    rw [randomInit] at h
    have := randomInitGo_sound next numCols fuel hnext nlist 0
      (List.replicate numCols false) [] l (by simp)
      (by intro x hx; simp at hx) List.nodup_nil h
    simpa using this
  · intro hle
    rw [randomInit]
    have := randomInitGo_id_some numCols nlist 0 [] (by omega)
    simp only [List.replicate_zero, List.nil_append, Nat.sub_zero] at this
    exact Option.isSome_iff_exists.mp this
  · intro hlt
    rw [randomInit]
    apply randomInitGo_none next numCols fuel hnext nlist 0
      (List.replicate numCols false) [] (by simp)
    simp only [List.count_replicate]
    simp [hlt]

/-- C10 witness: `nlist = 2` out of `numCols = 4` columns with the draw
stream `t % 4`. -/
theorem tvs_C10_witness :
    (∀ l, randomInit (fun t => t % 4) 2 4 5 = some l →
      l.Nodup ∧ l.length = 2 ∧ ∀ x ∈ l, x < 4) ∧
    ((2 : ℕ) ≤ 4 → ∃ l, randomInit (fun s => s) 2 4 1 = some l) ∧
    ((4 : ℕ) < 2 → randomInit (fun t => t % 4) 2 4 5 = none) :=
  tvs_C10 2 4 (fun t => t % 4) 5 (fun t => Nat.mod_lt t (by norm_num))

/-- C6 counterexample: with well-formed indices `[0, 0, 5]` (N = 5) and the
sorted deduplicated active list `[0]` whose single partition is empty, the
constructor's first `advance` raises `InvalidPartitioning`, contradicting
the claim that it never does. -/
theorem tvs_C6_cex :
    mkStreamer 5 [0, 0, 5] [0] 0 = Except.error SErr.invalidPartitioning ∧
    ([0, 0, 5] : List ℕ).getD 1 0 = ([0, 0, 5] : List ℕ).getD 0 0 := by
  refine ⟨rfl, rfl⟩

/-! ### C8: convergence bookkeeping of `train_no_init` -/

theorem foldl_congr_mem {α β : Type} (l : List α) (f g : β → α → β)
    (h : ∀ b, ∀ a ∈ l, f b a = g b a) : ∀ b, l.foldl f b = l.foldl g b := by
  induction l with
  | nil => intro b; rfl
  | cons x t ih =>
    intro b
    rw [List.foldl_cons, List.foldl_cons, h b x (by simp)]
    exact ih (fun b a ha => h b a (List.mem_cons_of_mem _ ha)) _

theorem map_fst_zip_sublist {α β : Type} :
    ∀ (l₁ : List α) (l₂ : List β),
      List.Sublist ((l₁.zip l₂).map Prod.fst) l₁
  | [], _ => by simp
  | _ :: _, [] => by simp
  | a :: t₁, b :: t₂ => by
    rw [List.zip_cons_cons, List.map_cons]
    exact List.Sublist.cons₂ a (map_fst_zip_sublist t₁ t₂)

theorem map_snd_zip_sublist {α β : Type} :
    ∀ (l₁ : List α) (l₂ : List β),
      List.Sublist ((l₁.zip l₂).map Prod.snd) l₂
  | [], _ => by simp
  | _ :: _, [] => by simp
  | a :: t₁, b :: t₂ => by
    rw [List.zip_cons_cons, List.map_cons]
    exact List.Sublist.cons₂ b (map_snd_zip_sublist t₁ t₂)

theorem filter_ne_of_not_mem (l : List ℕ) (w : ℕ) (hw : w ∉ l) :
    l.filter (fun i => decide ¬(i = w)) = l := by
  apply List.filter_eq_self.mpr
  intro a ha
  simp only [decide_eq_true_eq]
  intro he
  exact hw (he ▸ ha)

theorem filter_ne_perm_erase (l : List ℕ) (hnd : l.Nodup) (w : ℕ)
    (hw : w ∈ l) :
    List.Perm (l.filter (fun i => decide ¬(i = w))) (l.erase w) := by
  have hperm := (List.perm_cons_erase hw).filter
    (fun i => decide ¬(i = w))
  have hec : (w :: l.erase w).filter (fun i => decide ¬(i = w))
      = l.erase w := by
    rw [List.filter_cons, if_neg (by simp)]
    apply List.filter_eq_self.mpr
    intro a ha
    simp only [decide_eq_true_eq]
    exact (hnd.mem_erase_iff.mp ha).1
  rw [hec] at hperm
  exact hperm

theorem filter_ne_sum_of_nodup (l : List ℕ) (hnd : l.Nodup) (w : ℕ)
    (hw : w ∈ l) (f : ℕ → ℚ) :
    ((l.filter (fun i => decide ¬(i = w))).map f).sum
      = (l.map f).sum - f w := by
  have h₁ := ((filter_ne_perm_erase l hnd w hw).map f).sum_eq
  have h₂ := ((List.perm_cons_erase hw).map f).sum_eq
  rw [List.map_cons, List.sum_cons] at h₂
  rw [h₁, h₂]
  ring

theorem filter_ne_length_of_nodup (l : List ℕ) (hnd : l.Nodup) (w : ℕ)
    (hw : w ∈ l) :
    (l.filter (fun i => decide ¬(i = w))).length = l.length - 1 := by
  rw [(filter_ne_perm_erase l hnd w hw).length_eq]
  exact List.length_erase_of_mem hw

theorem memIds_nodup (parts : List ℕ) (n : ℕ) (used : List ℕ) (p : ℕ) :
    (memIds parts n used p).Nodup :=
  List.Nodup.filter _ (List.nodup_range n)

theorem mem_memIds (parts : List ℕ) (n : ℕ) (used : List ℕ) (p w : ℕ) :
    w ∈ memIds parts n used p ↔
      w < n ∧ parts.getD w 0 = p ∧ w ∉ used := by
  rw [memIds, List.mem_filter, List.mem_range]
  simp only [decide_eq_true_eq]

theorem memIds_cons (parts : List ℕ) (n : ℕ) (used : List ℕ) (p w : ℕ) :
    memIds parts n (w :: used) p
      = (memIds parts n used p).filter (fun i => decide ¬(i = w)) := by
  rw [memIds, memIds, List.filter_filter]
  apply List.filter_congr
  intro a _
  rw [Bool.eq_iff_iff]
  simp only [Bool.and_eq_true, decide_eq_true_eq, List.mem_cons]
  tauto

theorem memIds_cons_ne (parts : List ℕ) (n : ℕ) (used : List ℕ) (p w : ℕ)
    (hp : parts.getD w 0 ≠ p) :
    memIds parts n (w :: used) p = memIds parts n used p := by
  rw [memIds_cons]
  apply filter_ne_of_not_mem
  intro hmem
  exact hp ((mem_memIds parts n used p w).mp hmem).2.1

theorem memIds_cons_len (parts : List ℕ) (n : ℕ) (used : List ℕ) (p w : ℕ)
    (hp : parts.getD w 0 = p) (hw : w < n) (hwu : w ∉ used) :
    (memIds parts n (w :: used) p).length
      = (memIds parts n used p).length - 1 := by
  rw [memIds_cons]
  exact filter_ne_length_of_nodup _ (memIds_nodup parts n used p) w
    ((mem_memIds parts n used p w).mpr ⟨hw, hp, hwu⟩)

theorem memIds_pos (parts : List ℕ) (n : ℕ) (used : List ℕ) (p w : ℕ)
    (hp : parts.getD w 0 = p) (hw : w < n) (hwu : w ∉ used) :
    1 ≤ (memIds parts n used p).length := by
  have hmem := (mem_memIds parts n used p w).mpr ⟨hw, hp, hwu⟩
  cases hm : memIds parts n used p with
  | nil => rw [hm] at hmem; simp at hmem
  | cons a t => simp

theorem memSum_cons_mem (ts : List Vec) (parts : List ℕ) (used : List ℕ)
    (p k w : ℕ) (hp : parts.getD w 0 = p) (hw : w < ts.length)
    (hwu : w ∉ used) :
    memSum ts parts (w :: used) p k
      = memSum ts parts used p k - (ts.getD w []).getD k 0 := by
  rw [memSum, memSum, memIds_cons]
  exact filter_ne_sum_of_nodup _ (memIds_nodup parts ts.length used p) w
    ((mem_memIds parts ts.length used p w).mpr ⟨hw, hp, hwu⟩) _

theorem memSum_cons_ne (ts : List Vec) (parts : List ℕ) (used : List ℕ)
    (p k w : ℕ) (hp : parts.getD w 0 ≠ p) :
    memSum ts parts (w :: used) p k = memSum ts parts used p k := by
  rw [memSum, memSum, memIds_cons_ne parts ts.length used p w hp]

theorem vec_len_getD (vs : List Vec) (d : ℕ)
    (hvs : ∀ v ∈ vs, v.length = d) (w : ℕ) (hw : w < vs.length) :
    (vs.getD w []).length = d := by
  rw [List.getD_eq_getElem?_getD, List.getElem?_eq_getElem hw]
  exact hvs _ (vs.getElem_mem hw)

theorem vecSub_len (a b : Vec) (d : ℕ) (ha : a.length = d)
    (hb : b.length = d) : (vecSub a b).length = d := by
  rw [vecSub, List.length_zipWith, ha, hb, min_self]

theorem vecAdd_len (a b : Vec) (d : ℕ) (ha : a.length = d)
    (hb : b.length = d) : (vecAdd a b).length = d := by
  rw [vecAdd, List.length_zipWith, ha, hb, min_self]

theorem vecSub_getD (a b : Vec) (d k : ℕ) (ha : a.length = d)
    (hb : b.length = d) (hk : k < d) :
    (vecSub a b).getD k 0 = a.getD k 0 - b.getD k 0 := by
  have hka : k < a.length := ha ▸ hk
  have hkb : k < b.length := hb ▸ hk
  rw [List.getD_eq_getElem?_getD, vecSub, List.getElem?_zipWith,
    List.getElem?_eq_getElem hka, List.getElem?_eq_getElem hkb,
    List.getD_eq_getElem?_getD, List.getElem?_eq_getElem hka,
    List.getD_eq_getElem?_getD, List.getElem?_eq_getElem hkb]
  rfl

theorem vecAdd_getD (a b : Vec) (d k : ℕ) (ha : a.length = d)
    (hb : b.length = d) (hk : k < d) :
    (vecAdd a b).getD k 0 = a.getD k 0 + b.getD k 0 := by
  have hka : k < a.length := ha ▸ hk
  have hkb : k < b.length := hb ▸ hk
  rw [List.getD_eq_getElem?_getD, vecAdd, List.getElem?_zipWith,
    List.getElem?_eq_getElem hka, List.getElem?_eq_getElem hkb,
    List.getD_eq_getElem?_getD, List.getElem?_eq_getElem hka,
    List.getD_eq_getElem?_getD, List.getElem?_eq_getElem hkb]
  rfl

theorem hInsert_ids_le {S : Type} [LinearOrder S] (k : ℕ)
    (h : List (S × ℕ)) (x : S × ℕ) :
    (↑((hInsert k h x).map Prod.snd) : Multiset ℕ)
      ≤ x.2 ::ₘ ↑(h.map Prod.snd) := by
  unfold hInsert
  by_cases hl : h.length < k
  · rw [if_pos hl]
    exact le_of_eq rfl
  · rw [if_neg hl]
    cases hf : h.find? (isWorst h) with
    | none => exact Multiset.le_cons_self _ _
    | some w =>
      show (↑((if x.1 < w.1 then x :: h.eraseP (isWorst h) else h).map
          Prod.snd) : Multiset ℕ) ≤ x.2 ::ₘ ↑(h.map Prod.snd)
      by_cases hx : x.1 < w.1
      · rw [if_pos hx]
        show (↑(x.2 :: (h.eraseP (isWorst h)).map Prod.snd) : Multiset ℕ)
          ≤ x.2 ::ₘ ↑(h.map Prod.snd)
        rw [show (↑(x.2 :: (h.eraseP (isWorst h)).map Prod.snd) :
            Multiset ℕ) = x.2 ::ₘ ↑((h.eraseP (isWorst h)).map Prod.snd)
          from rfl]
        apply Multiset.cons_le_cons
        exact Multiset.coe_le.mpr
          (((List.eraseP_sublist h).map Prod.snd).subperm)
      · rw [if_neg hx]
        exact Multiset.le_cons_self _ _

theorem hInsertUp_ids_le (k : ℕ) (h : List (ℚ × ℕ)) (x : ℚ × ℕ) :
    (↑((hInsertUp k h x).map Prod.snd) : Multiset ℕ)
      ≤ x.2 ::ₘ ↑(h.map Prod.snd) := by
  unfold hInsertUp
  by_cases hl : h.length < k
  · rw [if_pos hl]
    exact le_of_eq rfl
  · rw [if_neg hl]
    cases hf : h.find? (isWorstUp h) with
    | none => exact Multiset.le_cons_self _ _
    | some w =>
      show (↑((if w.1 < x.1 then x :: h.eraseP (isWorstUp h) else h).map
          Prod.snd) : Multiset ℕ) ≤ x.2 ::ₘ ↑(h.map Prod.snd)
      by_cases hx : w.1 < x.1
      · rw [if_pos hx]
        show (↑(x.2 :: (h.eraseP (isWorstUp h)).map Prod.snd) : Multiset ℕ)
          ≤ x.2 ::ₘ ↑(h.map Prod.snd)
        rw [show (↑(x.2 :: (h.eraseP (isWorstUp h)).map Prod.snd) :
            Multiset ℕ) = x.2 ::ₘ ↑((h.eraseP (isWorstUp h)).map Prod.snd)
          from rfl]
        apply Multiset.cons_le_cons
        exact Multiset.coe_le.mpr
          (((List.eraseP_sublist h).map Prod.snd).subperm)
      · rw [if_neg hx]
        exact Multiset.le_cons_self _ _

theorem hFold_ids_le {S : Type} [LinearOrder S] (k : ℕ)
    (xs : List (S × ℕ)) :
    ∀ (h : List (S × ℕ)),
      (↑((hFold k h xs).map Prod.snd) : Multiset ℕ)
        ≤ ↑(h.map Prod.snd) + ↑(xs.map Prod.snd) := by
  induction xs with
  | nil =>
    intro h
    simp [hFold]
  | cons x t ih =>
    intro h
    have hstep : hFold k h (x :: t) = hFold k (hInsert k h x) t := rfl
    rw [hstep]
    calc (↑((hFold k (hInsert k h x) t).map Prod.snd) : Multiset ℕ)
        ≤ ↑((hInsert k h x).map Prod.snd) + ↑(t.map Prod.snd) := ih _
      _ ≤ (x.2 ::ₘ ↑(h.map Prod.snd)) + ↑(t.map Prod.snd) :=
          add_le_add_right (hInsert_ids_le k h x) _
      _ = ↑(h.map Prod.snd) + ↑((x :: t).map Prod.snd) := by
          rw [List.map_cons]
          rw [show (↑(x.2 :: t.map Prod.snd) : Multiset ℕ)
            = x.2 ::ₘ ↑(t.map Prod.snd) from rfl]
          rw [Multiset.cons_add, Multiset.add_cons]

theorem ncFold_lt (cent : List Vec) (v : Vec) (m : ℕ) :
    ∀ (l : List ℕ) (b : Option (ℚ × ℕ)),
      (∀ i ∈ l, i < m) → (∀ pr, b = some pr → pr.2 < m) →
      ∀ pr, l.foldl (fun best i =>
          let d := L2 (cent.getD i []) v
          match best with
          | none => some (d, i)
          | some b => if d < b.1 then some (d, i) else some b) b = some pr →
        pr.2 < m := by
  intro l
  induction l with
  | nil =>
    intro b _ hb pr hfold
    exact hb pr hfold
  | cons i t ih =>
    intro b hl hb pr hfold
    rw [List.foldl_cons] at hfold
    refine ih _ (fun j hj => hl j (List.mem_cons_of_mem _ hj)) ?_ pr hfold
    intro pr' hpr'
    cases b with
    | none =>
      have h1 : (some (L2 (cent.getD i []) v, i) : Option (ℚ × ℕ))
          = some pr' := hpr'
      injection h1 with h2
      rw [← h2]
      exact hl i (List.mem_cons_self i t)
    | some bb =>
      have h1 : (if L2 (cent.getD i []) v < bb.1 then
          some (L2 (cent.getD i []) v, i) else some bb) = some pr' := hpr'
      by_cases hcm : L2 (cent.getD i []) v < bb.1
      · rw [if_pos hcm] at h1
        injection h1 with h2
        rw [← h2]
        exact hl i (List.mem_cons_self i t)
      · rw [if_neg hcm] at h1
        injection h1 with h2
        rw [← h2]
        exact hb bb rfl

theorem nearestCentroid_snd_lt (cent : List Vec) (v : Vec)
    (hc : 0 < cent.length) : (nearestCentroid cent v).2 < cent.length := by
  rw [nearestCentroid]
  cases hr : (List.range cent.length).foldl (fun best i =>
      let d := L2 (cent.getD i []) v
      match best with
      | none => some (d, i)
      | some b => if d < b.1 then some (d, i) else some b)
      (none : Option (ℚ × ℕ)) with
  | none =>
    show (0 : ℕ) < cent.length
    exact hc
  | some pr =>
    show pr.2 < cent.length
    exact ncFold_lt cent v cent.length _ none
      (fun i hi => List.mem_range.mp hi)
      (fun pr h => Option.noConfusion h) pr hr

theorem partsBound (cent : List Vec) (ts : List Vec) (hc : 0 < cent.length) :
    ∀ i, i < ts.length →
      (partitionWithScores cent ts).2.getD i 0 < cent.length := by
  intro i hi
  show ((ts.map (nearestCentroid cent)).map Prod.snd).getD i 0 < cent.length
  have h1 : ((ts.map (nearestCentroid cent)).map Prod.snd).getD i 0
      = (nearestCentroid cent (ts.getD i [])).2 := by
    rw [List.getD_eq_getElem?_getD, List.getElem?_map, List.getElem?_map,
      List.getElem?_eq_getElem hi, List.getD_eq_getElem?_getD,
      List.getElem?_eq_getElem hi]
    rfl
  rw [h1]
  exact nearestCentroid_snd_lt cent _ hc

theorem sqNorm_of_zero (v : Vec) (d : ℕ) (hl : v.length = d)
    (hz : ∀ k, k < d → v.getD k 0 = 0) : sqNorm v = 0 := by
  rw [sqNorm]
  apply List.sum_eq_zero
  intro x hx
  rw [List.mem_map] at hx
  obtain ⟨y, hy, hxy⟩ := hx
  obtain ⟨k, hk, hky⟩ := List.mem_iff_getElem.mp hy
  have : v.getD k 0 = y := by
    rw [List.getD_eq_getElem?_getD, List.getElem?_eq_getElem hk, hky]
    rfl
  rw [← hxy, ← this, hz k (hl ▸ hk)]
  ring

theorem accumulate_concat (cfg : TrainCfg) (ts : List Vec) (v : Vec)
    (scores : List ℚ) (parts : List ℕ) :
    accumulate cfg (ts ++ [v]) scores parts
      = ((accumulate cfg ts scores parts).1.set (parts.getD ts.length 0)
           (vecAdd ((accumulate cfg ts scores parts).1.getD
             (parts.getD ts.length 0) []) v),
         (accumulate cfg ts scores parts).2.1.set (parts.getD ts.length 0)
           ((accumulate cfg ts scores parts).2.1.getD
             (parts.getD ts.length 0) 0 + 1),
         hInsertUp (trainHeapSize cfg) (accumulate cfg ts scores parts).2.2
           (scores.getD ts.length 0, ts.length)) := by
  have hlen : (ts ++ [v]).length = ts.length + 1 := by simp
  have hv : (ts ++ [v]).getD ts.length [] = v := by
    rw [List.getD_eq_getElem?_getD, List.getElem?_append_right (le_refl _)]
    simp
  rw [accumulate, accumulate, hlen, List.range_succ, List.foldl_append]
  have hcong := foldl_congr_mem (List.range ts.length)
    (fun (st : List Vec × List ℕ × List (ℚ × ℕ)) i =>
      let sums := st.1
      let degrees := st.2.1
      let high := st.2.2
      let part := parts.getD i 0
      ((sums.set part (vecAdd (sums.getD part []) ((ts ++ [v]).getD i []))),
       (degrees.set part (degrees.getD part 0 + 1)),
       (hInsertUp (trainHeapSize cfg) high (scores.getD i 0, i))))
    (fun (st : List Vec × List ℕ × List (ℚ × ℕ)) i =>
      let sums := st.1
      let degrees := st.2.1
      let high := st.2.2
      let part := parts.getD i 0
      ((sums.set part (vecAdd (sums.getD part []) (ts.getD i []))),
       (degrees.set part (degrees.getD part 0 + 1)),
       (hInsertUp (trainHeapSize cfg) high (scores.getD i 0, i))))
    (by
      intro b a ha
      have hget : (ts ++ [v]).getD a [] = ts.getD a [] :=
        List.getD_append ts [v] [] a (List.mem_range.mp ha)
      simp only [hget])
  rw [hcong]
  simp only [List.foldl_cons, List.foldl_nil, hv]

theorem memIds_succ (parts : List ℕ) (n : ℕ) (p : ℕ) :
    memIds parts (n + 1) [] p
      = if parts.getD n 0 = p then memIds parts n [] p ++ [n]
        else memIds parts n [] p := by
  rw [memIds, List.range_succ, List.filter_append, memIds]
  by_cases hc : parts.getD n 0 = p
  · rw [if_pos hc]
    congr 1
    rw [List.filter_cons,
      if_pos (by simp only [decide_eq_true_eq]; exact ⟨hc, by simp⟩)]
    rfl
  · rw [if_neg hc]
    rw [show List.filter
        (fun i => decide (parts.getD i 0 = p ∧ i ∉ ([] : List ℕ))) [n]
        = [] from by
      rw [List.filter_cons,
        if_neg (by simp only [decide_eq_true_eq]; exact fun hcon => hc hcon.1)]
      rfl]
    simp

theorem memSum_concat (ts : List Vec) (v : Vec) (parts : List ℕ)
    (p k : ℕ) :
    memSum (ts ++ [v]) parts [] p k
      = if parts.getD ts.length 0 = p then
          memSum ts parts [] p k + v.getD k 0
        else memSum ts parts [] p k := by
  have hv : (ts ++ [v]).getD ts.length [] = v := by
    rw [List.getD_eq_getElem?_getD, List.getElem?_append_right (le_refl _)]
    simp
  have hlen : (ts ++ [v]).length = ts.length + 1 := by simp
  have hcong : (memIds parts ts.length [] p).map
        (fun i => ((ts ++ [v]).getD i []).getD k 0)
      = (memIds parts ts.length [] p).map
        (fun i => (ts.getD i []).getD k 0) := by
    apply List.map_congr_left
    intro a ha
    rw [List.getD_append ts [v] [] a
      ((mem_memIds parts ts.length [] p a).mp ha).1]
  rw [memSum, memSum, hlen, memIds_succ]
  by_cases hc : parts.getD ts.length 0 = p
  · rw [if_pos hc, if_pos hc, List.map_append, List.sum_append, hcong]
    simp [hv]
  · rw [if_neg hc, if_neg hc, hcong]

theorem accumulate_inv (cfg : TrainCfg) (scores : List ℚ) (parts : List ℕ) :
    ∀ (ts : List Vec), (∀ v ∈ ts, v.length = cfg.dim) →
      (∀ i, i < ts.length → parts.getD i 0 < cfg.nlist) →
      (accumulate cfg ts scores parts).1.length = cfg.nlist ∧
      (accumulate cfg ts scores parts).2.1.length = cfg.nlist ∧
      (∀ p, p < cfg.nlist →
        ((accumulate cfg ts scores parts).1.getD p []).length = cfg.dim ∧
        (∀ k, k < cfg.dim →
          ((accumulate cfg ts scores parts).1.getD p []).getD k 0
            = memSum ts parts [] p k) ∧
        (accumulate cfg ts scores parts).2.1.getD p 0
          = (memIds parts ts.length [] p).length) ∧
      (↑((accumulate cfg ts scores parts).2.2.map Prod.snd) : Multiset ℕ)
        ≤ ↑(List.range ts.length) := by
  intro ts
  induction ts using List.reverseRecOn with
  | nil =>
    intro _ _
    have hacc : accumulate cfg [] scores parts
        = (List.replicate cfg.nlist (List.replicate cfg.dim (0 : ℚ)),
           List.replicate cfg.nlist 0, []) := rfl
    rw [hacc]
    refine ⟨by simp, by simp, ?_, by simp⟩
    intro p hp
    have hs : (List.replicate cfg.nlist
        (List.replicate cfg.dim (0 : ℚ))).getD p []
        = List.replicate cfg.dim (0 : ℚ) := by
      rw [List.getD_eq_getElem?_getD,
        List.getElem?_eq_getElem (by simpa using hp),
        List.getElem_replicate]
      rfl
    have hd : (List.replicate cfg.nlist (0 : ℕ)).getD p 0 = 0 := by
      rw [List.getD_eq_getElem?_getD,
        List.getElem?_eq_getElem (by simpa using hp),
        List.getElem_replicate]
      rfl
    refine ⟨by rw [hs]; simp, ?_, ?_⟩
    · intro k hk
      rw [hs, List.getD_eq_getElem?_getD,
        List.getElem?_eq_getElem (by simpa using hk),
        List.getElem_replicate]
      rw [show memSum [] parts [] p k = 0 from rfl]
      rfl
    · rw [hd, show memIds parts ([] : List Vec).length [] p = [] from rfl]
      rfl
  | append_singleton ts v ih =>
    intro hts hpb
    have hts' : ∀ w ∈ ts, w.length = cfg.dim :=
      fun w hw => hts w (by simp [hw])
    have hvd : v.length = cfg.dim := hts v (by simp)
    have hpb' : ∀ i, i < ts.length → parts.getD i 0 < cfg.nlist :=
      fun i hi => hpb i (by simp; omega)
    obtain ⟨ih1, ih2, ih3, ih4⟩ := ih hts' hpb'
    have hpart : parts.getD ts.length 0 < cfg.nlist :=
      hpb ts.length (by simp)
    have hlen : (ts ++ [v]).length = ts.length + 1 := by simp
    rw [accumulate_concat]
    refine ⟨by rw [List.length_set]; exact ih1,
      by rw [List.length_set]; exact ih2, ?_, ?_⟩
    · intro p hp
      rw [hlen, memIds_succ]
      by_cases hpp : parts.getD ts.length 0 = p
      · rw [if_pos hpp, hpp, getD_set_self _ _ _ _ (by rw [ih1]; exact hp),
          getD_set_self _ _ _ _ (by rw [ih2]; exact hp)]
        obtain ⟨ihl, ihc, ihd⟩ := ih3 p hp
        refine ⟨vecAdd_len _ _ _ ihl hvd, ?_, ?_⟩
        · intro k hk
          rw [vecAdd_getD _ _ cfg.dim k ihl hvd hk, ihc k hk,
            memSum_concat, if_pos hpp]
        · rw [ihd, List.length_append]
          rfl
      · rw [if_neg hpp, getD_set_ne _ _ _ _ _ hpp,
          getD_set_ne _ _ _ _ _ hpp]
        obtain ⟨ihl, ihc, ihd⟩ := ih3 p hp
        refine ⟨ihl, ?_, ihd⟩
        intro k hk
        rw [ihc k hk, memSum_concat, if_neg hpp]
    · calc (↑((hInsertUp (trainHeapSize cfg)
            (accumulate cfg ts scores parts).2.2
            (scores.getD ts.length 0, ts.length)).map Prod.snd) :
            Multiset ℕ)
          ≤ ts.length ::ₘ
            ↑((accumulate cfg ts scores parts).2.2.map Prod.snd) :=
            hInsertUp_ids_le _ _ _
        _ ≤ ts.length ::ₘ ↑(List.range ts.length) :=
            Multiset.cons_le_cons _ ih4
        _ = ↑(List.range (ts ++ [v]).length) := by
            rw [hlen, List.range_succ]
            show (↑(ts.length :: List.range ts.length) : Multiset ℕ)
              = ↑(List.range ts.length ++ [ts.length])
            exact Multiset.coe_eq_coe.mpr
              (List.perm_append_singleton _ _).symm

theorem reassign_fold_inv (cfg : TrainCfg) (ts : List Vec) (parts : List ℕ)
    (hts : ∀ v ∈ ts, v.length = cfg.dim)
    (hpb : ∀ i, i < ts.length → parts.getD i 0 < cfg.nlist) :
    ∀ (L : List ((ℕ × ℕ) × (ℚ × ℕ))) (used ow : List ℕ)
      (sums : List Vec) (degrees : List ℕ),
      (∀ pr ∈ L, pr.1.2 < cfg.nlist ∧ pr.2.2 < ts.length) →
      ((L.map (fun pr => pr.1.2)) ++ ow).Nodup →
      ((L.map (fun pr => pr.2.2)) ++ used).Nodup →
      ReassignInv cfg ts parts used ow sums degrees →
      ReassignInv cfg ts parts
        ((L.map (fun pr => pr.2.2)).reverse ++ used)
        ((L.map (fun pr => pr.1.2)).reverse ++ ow)
        (L.foldl (reassignStep ts parts) (sums, degrees)).1
        (L.foldl (reassignStep ts parts) (sums, degrees)).2 := by
  intro L
  induction L with
  | nil =>
    intro used ow sums degrees _ _ _ hinv
    simpa using hinv
  | cons pr T ih =>
    intro used ow sums degrees hbnd hnd1 hnd2 hinv
    obtain ⟨⟨dg, zp⟩, ⟨sc, w⟩⟩ := pr
    have hzp : zp < cfg.nlist :=
      (hbnd ((dg, zp), (sc, w)) (List.mem_cons_self _ _)).1
    have hw : w < ts.length :=
      (hbnd ((dg, zp), (sc, w)) (List.mem_cons_self _ _)).2
    have htg : parts.getD w 0 < cfg.nlist := hpb w hw
    have hvl : (ts.getD w []).length = cfg.dim :=
      vec_len_getD ts cfg.dim hts w hw
    rw [List.map_cons] at hnd1
    rw [List.map_cons] at hnd2
    have hzpn : zp ∉ (T.map (fun pr => pr.1.2)) ++ ow :=
      (List.nodup_cons.mp hnd1).1
    have hnd1t : ((T.map (fun pr => pr.1.2)) ++ ow).Nodup :=
      (List.nodup_cons.mp hnd1).2
    have hwn : w ∉ (T.map (fun pr => pr.2.2)) ++ used :=
      (List.nodup_cons.mp hnd2).1
    have hnd2t : ((T.map (fun pr => pr.2.2)) ++ used).Nodup :=
      (List.nodup_cons.mp hnd2).2
    have hzow : zp ∉ ow := fun hc => hzpn (List.mem_append_right _ hc)
    have hwu : w ∉ used := fun hc => hwn (List.mem_append_right _ hc)
    obtain ⟨hsl, hdl, hI1, hI2⟩ := hinv
    have hinv' : ReassignInv cfg ts parts (w :: used) (zp :: ow)
        ((sums.set zp (ts.getD w [])).set (parts.getD w 0)
          (vecSub ((sums.set zp (ts.getD w [])).getD (parts.getD w 0) [])
            (ts.getD w [])))
        ((degrees.set zp (degrees.getD zp 0 + 1)).set (parts.getD w 0)
          ((degrees.set zp (degrees.getD zp 0 + 1)).getD
            (parts.getD w 0) 0 - 1)) := by
      refine ⟨by rw [List.length_set, List.length_set, hsl],
        by rw [List.length_set, List.length_set, hdl], ?_, ?_⟩
      · intro p hple hpni
        have hpzp : p ≠ zp := fun hc => hpni (hc ▸ List.mem_cons_self _ _)
        have hpow : p ∉ ow :=
          fun hc => hpni (List.mem_cons_of_mem _ hc)
        by_cases hpt : p = parts.getD w 0
        · subst hpt
          obtain ⟨hlt, hct, hdt⟩ := hI1 (parts.getD w 0) hple hpow
          rw [getD_set_self _ _ _ _
              (by rw [List.length_set, hsl]; exact hple),
            getD_set_ne _ _ _ _ _ (Ne.symm hpzp),
            getD_set_self _ _ _ _
              (by rw [List.length_set, hdl]; exact hple),
            getD_set_ne _ _ _ _ _ (Ne.symm hpzp)]
          refine ⟨vecSub_len _ _ _ hlt hvl, ?_, ?_⟩
          · intro k hk
            rw [vecSub_getD _ _ cfg.dim k hlt hvl hk, hct k hk,
              memSum_cons_mem ts parts used (parts.getD w 0) k w rfl hw hwu]
          · rw [hdt,
              memIds_cons_len parts ts.length used (parts.getD w 0) w rfl
                hw hwu]
        · obtain ⟨hlt, hct, hdt⟩ := hI1 p hple hpow
          rw [getD_set_ne _ _ _ _ _ (fun hc => hpt hc.symm),
            getD_set_ne _ _ _ _ _ (Ne.symm hpzp),
            getD_set_ne _ _ _ _ _ (fun hc => hpt hc.symm),
            getD_set_ne _ _ _ _ _ (Ne.symm hpzp)]
          refine ⟨hlt, ?_, ?_⟩
          · intro k hk
            rw [hct k hk,
              memSum_cons_ne ts parts used p k w (fun hc => hpt hc.symm)]
          · rw [hdt,
              memIds_cons_ne parts ts.length used p w
                (fun hc => hpt hc.symm)]
      · intro p hpmem
        rcases List.mem_cons.mp hpmem with hc | hpo
        · subst hc
          by_cases hzt : parts.getD w 0 = p
          · have h1 : 1 ≤ (memIds parts ts.length used p).length :=
              memIds_pos parts ts.length used p w hzt hw hwu
            obtain ⟨_, _, hdz⟩ := hI1 p hzp hzow
            rw [hzt, getD_set_self _ _ _ _
                (by rw [List.length_set, hdl]; exact hzp),
              getD_set_self _ _ _ _ (by rw [hdl]; exact hzp),
              memIds_cons_len parts ts.length used p w hzt hw hwu, hdz]
            omega
          · obtain ⟨_, _, hdz⟩ := hI1 p hzp hzow
            rw [getD_set_ne _ _ _ _ _ hzt,
              getD_set_self _ _ _ _ (by rw [hdl]; exact hzp),
              memIds_cons_ne parts ts.length used p w hzt, hdz]
        · have hpzp : p ≠ zp := fun hc => hzow (hc ▸ hpo)
          by_cases hpt : parts.getD w 0 = p
          · have h1 : 1 ≤ (memIds parts ts.length used p).length :=
              memIds_pos parts ts.length used p w hpt hw hwu
            have hdp := hI2 p hpo
            have hzt' : zp ≠ parts.getD w 0 :=
              fun hc => hpzp (by rw [← hpt, ← hc])
            rw [← hpt, getD_set_self _ _ _ _
                (by rw [List.length_set, hdl]; exact htg),
              getD_set_ne _ _ _ _ _ hzt', hpt,
              memIds_cons_len parts ts.length used p w hpt hw hwu, hdp]
            omega
          · have hdp := hI2 p hpo
            rw [getD_set_ne _ _ _ _ _ hpt,
              getD_set_ne _ _ _ _ _ (Ne.symm hpzp),
              memIds_cons_ne parts ts.length used p w hpt, hdp]
    have hstep : reassignStep ts parts (sums, degrees) ((dg, zp), (sc, w))
        = ((sums.set zp (ts.getD w [])).set (parts.getD w 0)
            (vecSub ((sums.set zp (ts.getD w [])).getD (parts.getD w 0) [])
              (ts.getD w [])),
           (degrees.set zp (degrees.getD zp 0 + 1)).set (parts.getD w 0)
            ((degrees.set zp (degrees.getD zp 0 + 1)).getD
              (parts.getD w 0) 0 - 1)) := rfl
    have hbndT : ∀ q ∈ T, q.1.2 < cfg.nlist ∧ q.2.2 < ts.length :=
      fun q hq => hbnd q (List.mem_cons_of_mem _ hq)
    have hnd1n : ((T.map (fun pr => pr.1.2)) ++ (zp :: ow)).Nodup :=
      (List.perm_middle).nodup_iff.mpr hnd1
    have hnd2n : ((T.map (fun pr => pr.2.2)) ++ (w :: used)).Nodup :=
      (List.perm_middle).nodup_iff.mpr hnd2
    rw [List.map_cons, List.map_cons, List.reverse_cons, List.reverse_cons,
      List.append_assoc, List.append_assoc, List.foldl_cons, hstep]
    exact ih (w :: used) (zp :: ow) _ _ hbndT hnd1n hnd2n hinv'

theorem ReassignInv_zero_deg (cfg : TrainCfg) (ts : List Vec)
    (parts used ow : List ℕ) (sums : List Vec) (degrees : List ℕ)
    (hinv : ReassignInv cfg ts parts used ow sums degrees)
    (p : ℕ) (hp : p < cfg.nlist) (hdeg : degrees.getD p 0 = 0) :
    (sums.getD p []).length = cfg.dim ∧
    (∀ k, k < cfg.dim → (sums.getD p []).getD k 0 = 0) := by
  obtain ⟨_, _, hI1, hI2⟩ := hinv
  have hpow : p ∉ ow := by
    intro hc
    rw [hI2 p hc] at hdeg
    omega
  obtain ⟨hl, hcp, hd⟩ := hI1 p hp hpow
  have hnil : memIds parts ts.length used p = [] := by
    rw [hdeg] at hd
    exact List.length_eq_zero.mp hd.symm
  refine ⟨hl, ?_⟩
  intro k hk
  rw [hcp k hk, memSum, hnil]
  rfl

theorem finalize_eq_foldl (cfg : TrainCfg) (cent sums : List Vec)
    (degrees : List ℕ) :
    finalize cfg cent sums degrees
      = (List.range cfg.nlist).foldl (finStep cent degrees)
        (sums, 0, 0) := rfl

theorem finStep_eq (cent : List Vec) (degrees : List ℕ) (newc : List Vec)
    (md tw : ℚ) (j : ℕ) :
    finStep cent degrees (newc, md, tw) j
      = (newc.set j (cjOf degrees newc j),
         max md (L2 (cent.getD j []) (cjOf degrees newc j)),
         if degrees.getD j 0 ≠ 0 then tw + sqNorm (cjOf degrees newc j)
         else tw) := rfl

theorem cjOf_congr (degrees : List ℕ) (newc newc' : List Vec) (j : ℕ)
    (h : newc'.getD j [] = newc.getD j []) :
    cjOf degrees newc' j = cjOf degrees newc j := by
  rw [cjOf, cjOf, h]

theorem finalize_char (cent : List Vec) (degrees : List ℕ) :
    ∀ (l : List ℕ) (newc : List Vec) (md tw : ℚ),
      l.Nodup → (∀ j ∈ l, j < newc.length) →
      (l.foldl (finStep cent degrees) (newc, md, tw)).1.length
          = newc.length ∧
      (∀ j, j ∉ l →
        (l.foldl (finStep cent degrees) (newc, md, tw)).1.getD j []
          = newc.getD j []) ∧
      (∀ j ∈ l,
        (l.foldl (finStep cent degrees) (newc, md, tw)).1.getD j []
          = cjOf degrees newc j) ∧
      (l.foldl (finStep cent degrees) (newc, md, tw)).2.1
        = l.foldl (fun m j =>
            max m (L2 (cent.getD j []) (cjOf degrees newc j))) md ∧
      (l.foldl (finStep cent degrees) (newc, md, tw)).2.2
        = tw + (l.map (fun j =>
            if degrees.getD j 0 ≠ 0 then sqNorm (cjOf degrees newc j)
            else 0)).sum := by
  intro l
  induction l with
  | nil =>
    intro newc md tw _ _
    exact ⟨rfl, fun j _ => rfl, fun j hj => absurd hj (List.not_mem_nil j),
      rfl, by simp⟩
  | cons j0 t ihl =>
    intro newc md tw hnd hbound
    have hj0 : j0 < newc.length := hbound j0 (List.mem_cons_self _ _)
    have hj0t : j0 ∉ t := (List.nodup_cons.mp hnd).1
    have hndt : t.Nodup := (List.nodup_cons.mp hnd).2
    have hboundt : ∀ j ∈ t, j < (newc.set j0 (cjOf degrees newc j0)).length :=
      fun j hj => by
        rw [List.length_set]
        exact hbound j (List.mem_cons_of_mem _ hj)
    obtain ⟨ihA, ihB, ihC, ihD, ihE⟩ :=
      ihl (newc.set j0 (cjOf degrees newc j0))
        (max md (L2 (cent.getD j0 []) (cjOf degrees newc j0)))
        (if degrees.getD j0 0 ≠ 0 then
          tw + sqNorm (cjOf degrees newc j0) else tw)
        hndt hboundt
    have hfold : (j0 :: t).foldl (finStep cent degrees) (newc, md, tw)
        = t.foldl (finStep cent degrees)
          (newc.set j0 (cjOf degrees newc j0),
           max md (L2 (cent.getD j0 []) (cjOf degrees newc j0)),
           if degrees.getD j0 0 ≠ 0 then
             tw + sqNorm (cjOf degrees newc j0) else tw) := by
      rw [List.foldl_cons, finStep_eq]
    rw [hfold]
    refine ⟨by rw [ihA, List.length_set], ?_, ?_, ?_, ?_⟩
    · intro j hj
      have hjj0 : j ≠ j0 := fun hc => hj (hc ▸ List.mem_cons_self _ _)
      have hjt : j ∉ t := fun hc => hj (List.mem_cons_of_mem _ hc)
      rw [ihB j hjt, getD_set_ne _ _ _ _ _ (Ne.symm hjj0)]
    · intro j hj
      rcases List.mem_cons.mp hj with hc | hjt
      · subst hc
        rw [ihB j hj0t, getD_set_self _ _ _ _ hj0]
      · rw [ihC j hjt]
        exact cjOf_congr degrees newc _ j
          (getD_set_ne _ _ _ _ _
            (fun hc => hj0t (by rw [hc]; exact hjt)))
    · rw [ihD]
      have hcong : ∀ (m : ℚ), ∀ j ∈ t,
          max m (L2 (cent.getD j [])
            (cjOf degrees (newc.set j0 (cjOf degrees newc j0)) j))
          = max m (L2 (cent.getD j []) (cjOf degrees newc j)) := by
        intro m j hjt
        rw [cjOf_congr degrees newc _ j
          (getD_set_ne _ _ _ _ _ (fun hc => hj0t (by rw [hc]; exact hjt)))]
      rw [foldl_congr_mem t _ _ hcong]
      rw [List.foldl_cons]
    · rw [ihE]
      have hcong : ∀ j ∈ t,
          (if degrees.getD j 0 ≠ 0 then
            sqNorm (cjOf degrees (newc.set j0 (cjOf degrees newc j0)) j)
          else 0)
          = (if degrees.getD j 0 ≠ 0 then sqNorm (cjOf degrees newc j)
            else 0) := by
        intro j hjt
        rw [cjOf_congr degrees newc _ j
          (getD_set_ne _ _ _ _ _ (fun hc => hj0t (by rw [hc]; exact hjt)))]
      rw [List.map_congr_left hcong, List.map_cons, List.sum_cons]
      by_cases hdz : degrees.getD j0 0 ≠ 0
      · rw [if_pos hdz, if_pos hdz]
        ring
      · rw [if_neg hdz, if_neg hdz]
        ring

theorem lowDegreesOf_ids_le (cfg : TrainCfg) (degrees : List ℕ) :
    (↑((lowDegreesOf cfg degrees).map Prod.snd) : Multiset ℕ)
      ≤ ↑(List.range cfg.nlist) := by
  rw [lowDegreesOf]
  calc (↑((hFold (trainHeapSize cfg) []
        ((List.range cfg.nlist).map (fun i => (degrees.getD i 0, i)))).map
          Prod.snd) : Multiset ℕ)
      ≤ ↑(([] : List (ℕ × ℕ)).map Prod.snd)
        + ↑((((List.range cfg.nlist).map
            (fun i => (degrees.getD i 0, i)))).map Prod.snd) :=
        hFold_ids_le _ _ _
    _ = ↑(List.range cfg.nlist) := by
        rw [List.map_map]
        rw [show (Prod.snd ∘ fun i => (degrees.getD i 0, i))
          = fun (i : ℕ) => i from rfl]
        simp

theorem lloydStep_unfold (cfg : TrainCfg) (ts cent : List Vec)
    (isLast : Bool) :
    lloydStep cfg ts cent isLast
      = finalize cfg cent
        ((if isLast then
            ((accumulate cfg ts (partitionWithScores cent ts).1
              (partitionWithScores cent ts).2).1,
             (accumulate cfg ts (partitionWithScores cent ts).1
              (partitionWithScores cent ts).2).2.1)
          else
            reassignLoop ts (partitionWithScores cent ts).2
              (sortLow (lowDegreesOf cfg
                (accumulate cfg ts (partitionWithScores cent ts).1
                  (partitionWithScores cent ts).2).2.1))
              (sortHigh (accumulate cfg ts (partitionWithScores cent ts).1
                  (partitionWithScores cent ts).2).2.2)
              (⌈((maxDegreeOf cfg
                  (accumulate cfg ts (partitionWithScores cent ts).1
                    (partitionWithScores cent ts).2).2.1 : ℚ))
                * cfg.reassignFrac⌉₊) 0
              (accumulate cfg ts (partitionWithScores cent ts).1
                (partitionWithScores cent ts).2).1
              (accumulate cfg ts (partitionWithScores cent ts).1
                (partitionWithScores cent ts).2).2.1).1)
        ((if isLast then
            ((accumulate cfg ts (partitionWithScores cent ts).1
              (partitionWithScores cent ts).2).1,
             (accumulate cfg ts (partitionWithScores cent ts).1
              (partitionWithScores cent ts).2).2.1)
          else
            reassignLoop ts (partitionWithScores cent ts).2
              (sortLow (lowDegreesOf cfg
                (accumulate cfg ts (partitionWithScores cent ts).1
                  (partitionWithScores cent ts).2).2.1))
              (sortHigh (accumulate cfg ts (partitionWithScores cent ts).1
                  (partitionWithScores cent ts).2).2.2)
              (⌈((maxDegreeOf cfg
                  (accumulate cfg ts (partitionWithScores cent ts).1
                    (partitionWithScores cent ts).2).2.1 : ℚ))
                * cfg.reassignFrac⌉₊) 0
              (accumulate cfg ts (partitionWithScores cent ts).1
                (partitionWithScores cent ts).2).1
              (accumulate cfg ts (partitionWithScores cent ts).1
                (partitionWithScores cent ts).2).2.1).2) := rfl

theorem lloyd_final_quantities (cfg : TrainCfg) (ts cent : List Vec)
    (parts : List ℕ) (rsums : List Vec) (rdeg : List ℕ)
    (used ow : List ℕ)
    (hinv : ReassignInv cfg ts parts used ow rsums rdeg) :
    (finalize cfg cent rsums rdeg).2.1
      = maxDiffSpec cfg cent (finalize cfg cent rsums rdeg).1 ∧
    (finalize cfg cent rsums rdeg).2.2
      = totalWeightSpec cfg (finalize cfg cent rsums rdeg).1 := by
  have hsl : rsums.length = cfg.nlist := hinv.1
  obtain ⟨hF1, hF2, hF3, hF4, hF5⟩ := finalize_char cent rdeg
    (List.range cfg.nlist) rsums 0 0 (List.nodup_range _)
    (fun j hj => by rw [hsl]; exact List.mem_range.mp hj)
  rw [finalize_eq_foldl]
  constructor
  · rw [hF4, maxDiffSpec]
    exact (foldl_congr_mem (List.range cfg.nlist) _ _
      (fun m j hj => by rw [hF3 j hj]) 0).symm
  · rw [hF5, totalWeightSpec, zero_add]
    congr 1
    apply List.map_congr_left
    intro j hj
    rw [hF3 j hj]
    by_cases hdz : rdeg.getD j 0 ≠ 0
    · rw [if_pos hdz]
    · rw [if_neg hdz]
      have hz0 : rdeg.getD j 0 = 0 := by omega
      obtain ⟨hzl, hzc⟩ := ReassignInv_zero_deg cfg ts parts used ow
        rsums rdeg hinv j (List.mem_range.mp hj) hz0
      rw [cjOf, if_neg hdz]
      exact (sqNorm_of_zero _ cfg.dim hzl hzc).symm

theorem reassign_inv_after (cfg : TrainCfg) (ts : List Vec)
    (parts : List ℕ)
    (hts : ∀ v ∈ ts, v.length = cfg.dim)
    (hpb : ∀ i, i < ts.length → parts.getD i 0 < cfg.nlist)
    (low : List (ℕ × ℕ)) (high : List (ℚ × ℕ)) (bound : ℕ)
    (sums : List Vec) (degrees : List ℕ)
    (hlow : (↑(low.map Prod.snd) : Multiset ℕ) ≤ ↑(List.range cfg.nlist))
    (hhigh : (↑(high.map Prod.snd) : Multiset ℕ) ≤ ↑(List.range ts.length))
    (hinv : ReassignInv cfg ts parts [] [] sums degrees) :
    ∃ used ow, ReassignInv cfg ts parts used ow
      (reassignLoop ts parts (sortLow low) (sortHigh high) bound 0 sums
        degrees).1
      (reassignLoop ts parts (sortLow low) (sortHigh high) bound 0 sums
        degrees).2 := by
  have hlow' : (↑((sortLow low).map Prod.snd) : Multiset ℕ)
      ≤ ↑(List.range cfg.nlist) := by
    rw [show (↑((sortLow low).map Prod.snd) : Multiset ℕ)
        = ↑(low.map Prod.snd) from Multiset.coe_eq_coe.mpr
          ((List.mergeSort_perm low pairLe).map Prod.snd)]
    exact hlow
  have hhigh' : (↑((sortHigh high).map Prod.snd) : Multiset ℕ)
      ≤ ↑(List.range ts.length) := by
    rw [show (↑((sortHigh high).map Prod.snd) : Multiset ℕ)
        = ↑(high.map Prod.snd) from Multiset.coe_eq_coe.mpr
          ((List.mergeSort_perm high _).map Prod.snd)]
    exact hhigh
  have hlnd : ((sortLow low).map Prod.snd).Nodup := by
    have h := Multiset.nodup_of_le hlow'
      (Multiset.coe_nodup.mpr (List.nodup_range _))
    exact Multiset.coe_nodup.mp h
  have hhnd : ((sortHigh high).map Prod.snd).Nodup := by
    have h := Multiset.nodup_of_le hhigh'
      (Multiset.coe_nodup.mpr (List.nodup_range _))
    exact Multiset.coe_nodup.mp h
  rw [reassignLoop_eq, reassignSpec]
  have hLsub : List.Sublist
      ((((sortLow low).zip (sortHigh high)).takeWhile
        (fun pr => decide (pr.1.1 ≤ bound))))
      ((sortLow low).zip (sortHigh high)) := List.takeWhile_sublist _
  have hbnd : ∀ pr ∈ (((sortLow low).zip (sortHigh high)).takeWhile
      (fun pr => decide (pr.1.1 ≤ bound))),
      pr.1.2 < cfg.nlist ∧ pr.2.2 < ts.length := by
    intro pr hpr
    obtain ⟨a, b⟩ := pr
    have hz : (a, b) ∈ (sortLow low).zip (sortHigh high) := hLsub.subset hpr
    have ha : a ∈ sortLow low := (List.of_mem_zip hz).1
    have hb : b ∈ sortHigh high := (List.of_mem_zip hz).2
    constructor
    · have h1 : a.2 ∈ (sortLow low).map Prod.snd :=
        List.mem_map_of_mem _ ha
      have h2 : a.2 ∈ (↑(List.range cfg.nlist) : Multiset ℕ) :=
        Multiset.mem_of_le hlow' (by rwa [Multiset.mem_coe])
      rw [Multiset.mem_coe, List.mem_range] at h2
      exact h2
    · have h1 : b.2 ∈ (sortHigh high).map Prod.snd :=
        List.mem_map_of_mem _ hb
      have h2 : b.2 ∈ (↑(List.range ts.length) : Multiset ℕ) :=
        Multiset.mem_of_le hhigh' (by rwa [Multiset.mem_coe])
      rw [Multiset.mem_coe, List.mem_range] at h2
      exact h2
  have hnd1 : ((((sortLow low).zip (sortHigh high)).takeWhile
      (fun pr => decide (pr.1.1 ≤ bound))).map
        (fun pr => pr.1.2)).Nodup := by
    have h1 := (hLsub.map Prod.fst).trans (map_fst_zip_sublist _ _)
    have h2 := hlnd.sublist (h1.map Prod.snd)
    rw [List.map_map] at h2
    exact h2
  have hnd2 : ((((sortLow low).zip (sortHigh high)).takeWhile
      (fun pr => decide (pr.1.1 ≤ bound))).map
        (fun pr => pr.2.2)).Nodup := by
    have h1 := (hLsub.map Prod.snd).trans (map_snd_zip_sublist _ _)
    have h2 := hhnd.sublist (h1.map Prod.snd)
    rw [List.map_map] at h2
    exact h2
  refine ⟨_, _, reassign_fold_inv cfg ts parts hts hpb
    (((sortLow low).zip (sortHigh high)).takeWhile
      (fun pr => decide (pr.1.1 ≤ bound))) [] [] sums degrees hbnd
    (by rw [List.append_nil]; exact hnd1)
    (by rw [List.append_nil]; exact hnd2) hinv⟩

theorem lloyd_quantities (cfg : TrainCfg) (ts cent : List Vec)
    (hts : ∀ v ∈ ts, v.length = cfg.dim) (hc : cent.length = cfg.nlist)
    (isLast : Bool) :
    (lloydStep cfg ts cent isLast).2.1
      = maxDiffSpec cfg cent (lloydStep cfg ts cent isLast).1 ∧
    (lloydStep cfg ts cent isLast).2.2
      = totalWeightSpec cfg (lloydStep cfg ts cent isLast).1 := by
  by_cases hn : cfg.nlist = 0
  · have hfin : ∀ (s : List Vec) (d : List ℕ),
        finalize cfg cent s d = (s, 0, 0) := by
      intro s d
      rw [finalize_eq_foldl, hn]
      rfl
    rw [lloydStep_unfold, hfin, maxDiffSpec, totalWeightSpec, hn]
    exact ⟨rfl, rfl⟩
  · have hn' : 0 < cfg.nlist := Nat.pos_of_ne_zero hn
    have hc0 : 0 < cent.length := by rw [hc]; exact hn'
    have hpb : ∀ i, i < ts.length →
        (partitionWithScores cent ts).2.getD i 0 < cfg.nlist := by
      intro i hi
      rw [← hc]
      exact partsBound cent ts hc0 i hi
    obtain ⟨ha1, ha2, ha3, ha4⟩ := accumulate_inv cfg
      (partitionWithScores cent ts).1 (partitionWithScores cent ts).2 ts
      hts hpb
    have hinv0 : ReassignInv cfg ts (partitionWithScores cent ts).2 [] []
        (accumulate cfg ts (partitionWithScores cent ts).1
          (partitionWithScores cent ts).2).1
        (accumulate cfg ts (partitionWithScores cent ts).1
          (partitionWithScores cent ts).2).2.1 :=
      ⟨ha1, ha2, fun p hp _ => ha3 p hp,
       fun p hp => absurd hp (List.not_mem_nil p)⟩
    rw [lloydStep_unfold]
    cases isLast with
    | true =>
      rw [if_pos rfl]
      exact lloyd_final_quantities cfg ts cent
        (partitionWithScores cent ts).2 _ _ [] [] hinv0
    | false =>
      rw [if_neg (by simp)]
      obtain ⟨used, ow, hinv⟩ := reassign_inv_after cfg ts
        (partitionWithScores cent ts).2 hts hpb
        (lowDegreesOf cfg (accumulate cfg ts
          (partitionWithScores cent ts).1
          (partitionWithScores cent ts).2).2.1)
        (accumulate cfg ts (partitionWithScores cent ts).1
          (partitionWithScores cent ts).2).2.2
        (⌈((maxDegreeOf cfg (accumulate cfg ts
            (partitionWithScores cent ts).1
            (partitionWithScores cent ts).2).2.1 : ℚ))
          * cfg.reassignFrac⌉₊)
        (accumulate cfg ts (partitionWithScores cent ts).1
          (partitionWithScores cent ts).2).1
        (accumulate cfg ts (partitionWithScores cent ts).1
          (partitionWithScores cent ts).2).2.1
        (lowDegreesOf_ids_le cfg _) ha4 hinv0
      exact lloyd_final_quantities cfg ts cent
        (partitionWithScores cent ts).2 _ _ used ow hinv

theorem accumulate_len (cfg : TrainCfg) (scores : List ℚ)
    (parts : List ℕ) :
    ∀ (ts : List Vec),
      (accumulate cfg ts scores parts).1.length = cfg.nlist ∧
      (accumulate cfg ts scores parts).2.1.length = cfg.nlist := by
  intro ts
  induction ts using List.reverseRecOn with
  | nil =>
    constructor
    · rw [show (accumulate cfg [] scores parts).1
          = List.replicate cfg.nlist (List.replicate cfg.dim (0 : ℚ))
        from rfl]
      simp
    · rw [show (accumulate cfg [] scores parts).2.1
          = List.replicate cfg.nlist (0 : ℕ) from rfl]
      simp
  | append_singleton ts v ih =>
    rw [accumulate_concat]
    exact ⟨by rw [List.length_set]; exact ih.1,
      by rw [List.length_set]; exact ih.2⟩

theorem reassign_foldl_len (ts : List Vec) (parts : List ℕ) :
    ∀ (L : List ((ℕ × ℕ) × (ℚ × ℕ))) (sums : List Vec)
      (degrees : List ℕ),
      (L.foldl (reassignStep ts parts) (sums, degrees)).1.length
          = sums.length ∧
      (L.foldl (reassignStep ts parts) (sums, degrees)).2.length
          = degrees.length := by
  intro L
  induction L with
  | nil => intro sums degrees; exact ⟨rfl, rfl⟩
  | cons pr T ih =>
    intro sums degrees
    obtain ⟨⟨dg, zp⟩, ⟨sc, w⟩⟩ := pr
    rw [List.foldl_cons,
      show reassignStep ts parts (sums, degrees) ((dg, zp), (sc, w))
        = ((sums.set zp (ts.getD w [])).set (parts.getD w 0)
            (vecSub ((sums.set zp (ts.getD w [])).getD
              (parts.getD w 0) []) (ts.getD w [])),
           (degrees.set zp (degrees.getD zp 0 + 1)).set (parts.getD w 0)
            ((degrees.set zp (degrees.getD zp 0 + 1)).getD
              (parts.getD w 0) 0 - 1)) from rfl]
    obtain ⟨ih1, ih2⟩ := ih _ _
    refine ⟨?_, ?_⟩
    · rw [ih1, List.length_set, List.length_set]
    · rw [ih2, List.length_set, List.length_set]

theorem finStep_foldl_len (cent : List Vec) (degrees : List ℕ) :
    ∀ (l : List ℕ) (newc : List Vec) (md tw : ℚ),
      (l.foldl (finStep cent degrees) (newc, md, tw)).1.length
        = newc.length := by
  intro l
  induction l with
  | nil => intro newc md tw; rfl
  | cons j t ih =>
    intro newc md tw
    rw [List.foldl_cons, finStep_eq, ih, List.length_set]

theorem lloydStep_len (cfg : TrainCfg) (ts cent : List Vec)
    (isLast : Bool) :
    (lloydStep cfg ts cent isLast).1.length = cfg.nlist := by
  rw [lloydStep_unfold, finalize_eq_foldl, finStep_foldl_len]
  cases isLast with
  | true =>
    rw [if_pos rfl]
    exact (accumulate_len cfg _ _ ts).1
  | false =>
    rw [if_neg (by simp), reassignLoop_eq, reassignSpec]
    rw [(reassign_foldl_len ts _ _ _ _).1]
    exact (accumulate_len cfg _ _ ts).1

theorem centAt_len (cfg : TrainCfg) (ts cent0 : List Vec)
    (hc0 : cent0.length = cfg.nlist) :
    ∀ n, (centAt cfg ts cent0 n).length = cfg.nlist := by
  intro n
  cases n with
  | zero => exact hc0
  | succ m => exact lloydStep_len cfg ts _ _

theorem trainGo_char (cfg : TrainCfg) (ts cent0 : List Vec) :
    ∀ (fuel iter : ℕ), iter + fuel = cfg.maxIter →
      (trainGo cfg ts fuel iter (centAt cfg ts cent0 iter)).2
          ≤ cfg.maxIter ∧
      iter ≤ (trainGo cfg ts fuel iter (centAt cfg ts cent0 iter)).2 ∧
      (iter < cfg.maxIter →
        iter < (trainGo cfg ts fuel iter (centAt cfg ts cent0 iter)).2) ∧
      (trainGo cfg ts fuel iter (centAt cfg ts cent0 iter)).1
        = centAt cfg ts cent0
            (trainGo cfg ts fuel iter (centAt cfg ts cent0 iter)).2 ∧
      (∀ i, iter ≤ i →
        i + 1 < (trainGo cfg ts fuel iter (centAt cfg ts cent0 iter)).2 →
        convergedAt cfg ts cent0 i = false) ∧
      ((trainGo cfg ts fuel iter (centAt cfg ts cent0 iter)).2
          = cfg.maxIter ∨
        convergedAt cfg ts cent0
          ((trainGo cfg ts fuel iter (centAt cfg ts cent0 iter)).2 - 1)
            = true) := by
  intro fuel
  induction fuel with
  | zero =>
    intro iter hsum
    have h0 : trainGo cfg ts 0 iter (centAt cfg ts cent0 iter)
        = (centAt cfg ts cent0 iter, iter) := rfl
    rw [h0]
    exact ⟨by omega, le_refl _, by intro h; omega, rfl,
      fun i h1 h2 => by omega, Or.inl (by omega)⟩
  | succ fuel ih =>
    intro iter hsum
    have hlt : iter < cfg.maxIter := by omega
    have hunfold : trainGo cfg ts (fuel + 1) iter
        (centAt cfg ts cent0 iter)
        = if (lloydStep cfg ts (centAt cfg ts cent0 iter)
              (decide (iter = cfg.maxIter - 1))).2.1
            < cfg.tol * (lloydStep cfg ts (centAt cfg ts cent0 iter)
              (decide (iter = cfg.maxIter - 1))).2.2 then
            ((lloydStep cfg ts (centAt cfg ts cent0 iter)
              (decide (iter = cfg.maxIter - 1))).1, iter + 1)
          else trainGo cfg ts fuel (iter + 1)
            (lloydStep cfg ts (centAt cfg ts cent0 iter)
              (decide (iter = cfg.maxIter - 1))).1 := by
      show (if iter < cfg.maxIter then _ else _) = _
      rw [if_pos hlt]
    rw [hunfold]
    have hcent : (lloydStep cfg ts (centAt cfg ts cent0 iter)
        (decide (iter = cfg.maxIter - 1))).1
        = centAt cfg ts cent0 (iter + 1) := rfl
    by_cases hconv : (lloydStep cfg ts (centAt cfg ts cent0 iter)
        (decide (iter = cfg.maxIter - 1))).2.1
        < cfg.tol * (lloydStep cfg ts (centAt cfg ts cent0 iter)
          (decide (iter = cfg.maxIter - 1))).2.2
    · rw [if_pos hconv]
      refine ⟨by omega, by omega, fun _ => by omega, hcent,
        fun i h1 h2 => by omega, Or.inr ?_⟩
      show convergedAt cfg ts cent0 (iter + 1 - 1) = true
      rw [Nat.add_sub_cancel]
      exact decide_eq_true hconv
    · rw [if_neg hconv, hcent]
      obtain ⟨k1, k2, k3, k4, k5, k6⟩ := ih (iter + 1) (by omega)
      refine ⟨k1, by omega, fun _ => by omega, k4, ?_, k6⟩
      intro i hi hi1
      rcases Nat.eq_or_lt_of_le hi with heq | hgt
      · rw [← heq]
        exact decide_eq_false hconv
      · exact k5 i (by omega) hi1

/-- C8: `train_no_init` executes at most `max_iter` Lloyd iterations and
reports no failure when convergence is not reached (it returns a plain
value); an executed iteration is the last one exactly when it is iteration
`max_iter - 1` or its convergence test `max_diff < tol * total_weight`
fires; and the `max_diff` / `total_weight` the test uses equal the
specification's quantities: the maximum over all centroids of the squared
distance between the old and new centroid, and the sum over ALL centroids
of the squared norm of the new centroid (the source skips zero-degree
centroids in the total-weight sum, but a zero-degree centroid's vector is
identically zero, so the sums agree). -/
theorem tvs_C8 (cfg : TrainCfg) (ts cent0 : List Vec)
    (hts : ∀ v ∈ ts, v.length = cfg.dim)
    (hc0 : cent0.length = cfg.nlist) :
    (trainNoInit cfg ts cent0).2 ≤ cfg.maxIter ∧
    (0 < cfg.maxIter → 0 < (trainNoInit cfg ts cent0).2) ∧
    trainNoInit cfg ts cent0
      = (centAt cfg ts cent0 (trainNoInit cfg ts cent0).2,
         (trainNoInit cfg ts cent0).2) ∧
    (∀ i, i < (trainNoInit cfg ts cent0).2 →
      (i = (trainNoInit cfg ts cent0).2 - 1 ↔
        (i = cfg.maxIter - 1 ∨ convergedAt cfg ts cent0 i = true))) ∧
    (∀ n isLast,
      (lloydStep cfg ts (centAt cfg ts cent0 n) isLast).2.1
        = maxDiffSpec cfg (centAt cfg ts cent0 n)
            (lloydStep cfg ts (centAt cfg ts cent0 n) isLast).1 ∧
      (lloydStep cfg ts (centAt cfg ts cent0 n) isLast).2.2
        = totalWeightSpec cfg
            (lloydStep cfg ts (centAt cfg ts cent0 n) isLast).1) := by
  have htni : trainNoInit cfg ts cent0
      = trainGo cfg ts cfg.maxIter 0 (centAt cfg ts cent0 0) := by
    rw [trainNoInit, trainFrom, Nat.sub_zero]
    rfl
  rw [htni]
  obtain ⟨k1, k2, k3, k4, k5, k6⟩ :=
    trainGo_char cfg ts cent0 cfg.maxIter 0 (by omega)
  refine ⟨k1, fun h => k3 h, Prod.ext k4 rfl, ?_, ?_⟩
  · intro i hi
    constructor
    · intro hieq
      rcases k6 with h | h
      · left
        omega
      · right
        rw [hieq]
        exact h
    · intro hor
      by_contra hne
      have hi1 : i + 1
          < (trainGo cfg ts cfg.maxIter 0 (centAt cfg ts cent0 0)).2 := by
        omega
      have hcf := k5 i (by omega) hi1
      rcases hor with h | h
      · omega
      · rw [hcf] at h
        exact absurd h (by simp)
  · intro n isLast
    exact lloyd_quantities cfg ts (centAt cfg ts cent0 n) hts
      (centAt_len cfg ts cent0 hc0 n) isLast

/-- C8 witness: a 1-dimensional training run with two vectors, one
centroid and `max_iter = 2`. -/
theorem tvs_C8_witness :
    (∀ v ∈ ([[(0 : ℚ)], [2]] : List Vec), v.length = 1) ∧
    ([[(1 : ℚ)]] : List Vec).length = 1 ∧
    (trainNoInit ⟨1, 1, 2, 1/100, 1/2⟩ [[(0 : ℚ)], [2]] [[(1 : ℚ)]]).2
      ≤ 2 :=
  ⟨by decide, by decide,
   (tvs_C8 ⟨1, 1, 2, 1/100, 1/2⟩ [[(0 : ℚ)], [2]] [[(1 : ℚ)]]
     (by decide) (by decide)).1⟩

/-! ### C1: infinite/finite query equivalence -/

theorem range_map_getD {α β : Type} (d : α) (f : α → β) :
    ∀ (l : List α),
      (List.range l.length).map (fun i => f (l.getD i d)) = l.map f := by
  intro l
  induction l with
  | nil => rfl
  | cons a t ih =>
    rw [List.length_cons, List.range_succ_eq_map, List.map_cons,
      List.map_cons, List.map_map]
    rw [show f ((a :: t).getD 0 d) = f a from rfl, ← ih]
    congr 1

theorem activeSizes_eq (cfg : SConfig) :
    activeSizes cfg = cfg.parts.map (fun p =>
      cfg.indices.getD (p + 1) 0 - cfg.indices.getD p 0) := by
  rw [activeSizes]
  exact range_map_getD 0
    (fun p => cfg.indices.getD (p + 1) 0 - cfg.indices.getD p 0) cfg.parts

theorem activeSizes_sum (cfg : SConfig) :
    (activeSizes cfg).sum = totalMaxCols cfg.indices cfg.parts := by
  rw [activeSizes_eq, totalMaxCols]

theorem infFix_id (N nlist : ℕ) (indices : List ℕ)
    (hlen : indices.length = nlist + 1) :
    infFixIndices N nlist indices = indices := by
  rw [infFixIndices, if_neg (by omega)]

theorem qvFix_id (nlist : ℕ) (indices : List ℕ)
    (hlen : indices.length = nlist + 1) :
    qvFixIndices nlist indices = indices := by
  rw [qvFixIndices, if_neg (by omega)]

theorem ctorFix_eq (N : ℕ) (ind : List ℕ) (hpos : 0 < ind.length)
    (hlast : ind.getD (ind.length - 1) 0 = N) :
    ctorFixIndices N ind = .ok ind := by
  rw [ctorFixIndices]
  by_cases hc : ind.getD (ind.length - 1) 0 = ind.getD (ind.length - 2) 0
  · rw [if_pos hc, if_neg (by omega),
      set_getD_self ind (ind.length - 1) N 0 hlast (by omega)]
  · rw [if_neg hc]

theorem windowCap_permissive (ub total : ℕ)
    (hub : ub = 0 ∨ total ≤ ub) : windowCap ub total = total := by
  rw [windowCap]
  rcases hub with h | h
  · rw [if_pos (Or.inl h)]
  · by_cases hgt : ub > total
    · rw [if_pos (Or.inr hgt)]
    · by_cases h0 : ub = 0
      · rw [if_pos (Or.inl h0)]
      · rw [if_neg (fun hcon => by rcases hcon with h1 | h2 <;> omega)]
        omega

theorem getD_replicate_self {α : Type} (n j : ℕ) (x : α) :
    (List.replicate n x).getD j x = x := by
  rcases Nat.lt_or_ge j n with h | h
  · rw [List.getD_eq_getElem?_getD,
      List.getElem?_eq_getElem (by simpa using h), List.getElem_replicate]
    rfl
  · rw [List.getD_eq_getElem?_getD, List.getElem?_eq_none (by simpa using h)]
    rfl

theorem range'_map_getD {α : Type} (f : ℕ → α) (d : α) (s n t : ℕ)
    (ht : t < n) :
    ((List.range' s n).map f).getD t d = f (s + t) := by
  rw [List.getD_eq_getElem?_getD, List.getElem?_map,
    List.getElem?_eq_getElem (by simpa using ht)]
  rw [List.getElem_range']
  show f (s + 1 * t) = f (s + t)
  rw [Nat.one_mul]

theorem flatMap_getD {α : Type} (g : ℕ → List α) (d : α) :
    ∀ (P : List ℕ) (i t : ℕ), i < P.length → t < (g (P.getD i 0)).length →
      (P.flatMap g).getD
        (((P.take i).map (fun p => (g p).length)).sum + t) d
        = (g (P.getD i 0)).getD t d := by
  intro P
  induction P with
  | nil =>
    intro i t hi _
    simp at hi
  | cons p T ih =>
    intro i t hi ht
    cases i with
    | zero =>
      rw [List.take_zero, List.map_nil, List.sum_nil, Nat.zero_add,
        List.flatMap_cons]
      have ht' : t < (g p).length := ht
      show (g p ++ T.flatMap g).getD t d = (g ((p :: T).getD 0 0)).getD t d
      rw [List.getD_append _ _ d t ht']
      rfl
    | succ i' =>
      rw [List.flatMap_cons]
      have hpre : ((p :: T).take (i' + 1)).map (fun p => (g p).length)
          = (g p).length :: ((T.take i').map (fun p => (g p).length)) := by
        rw [List.take_succ_cons, List.map_cons]
      rw [hpre, List.sum_cons, Nat.add_assoc]
      rw [List.getD_eq_getElem?_getD, List.getElem?_append_right (by omega),
        ← List.getD_eq_getElem?_getD]
      have hsub : (g p).length + (((T.take i').map
          (fun p => (g p).length)).sum + t) - (g p).length
          = ((T.take i').map (fun p => (g p).length)).sum + t := by omega
      rw [hsub]
      exact ih i' t (by simpa using hi) ht

theorem inner_fold_len (kNN : ℕ) (cand : ℕ → List (ℚ × ℕ)) :
    ∀ (js : List ℕ) (hs : List (List (ℚ × ℕ))),
      (js.foldl (fun hs j =>
        hs.set j (hFold kNN (hs.getD j []) (cand j))) hs).length
        = hs.length := by
  intro js
  induction js with
  | nil => intro hs; rfl
  | cons j' t ih =>
    intro hs
    rw [List.foldl_cons, ih, List.length_set]

theorem inner_fold_getD (kNN : ℕ) (cand : ℕ → List (ℚ × ℕ)) :
    ∀ (js : List ℕ) (hs : List (List (ℚ × ℕ))) (j : ℕ),
      js.Nodup → (∀ j', j' ∈ js → j' < hs.length) →
      (js.foldl (fun hs j =>
        hs.set j (hFold kNN (hs.getD j []) (cand j))) hs).getD j []
        = if j ∈ js then hFold kNN (hs.getD j []) (cand j)
          else hs.getD j [] := by
  intro js
  induction js with
  | nil =>
    intro hs j _ _
    rw [if_neg (List.not_mem_nil j)]
    rfl
  | cons j' t ih =>
    intro hs j hnd hbound
    have hj't : j' ∉ t := (List.nodup_cons.mp hnd).1
    have hndt : t.Nodup := (List.nodup_cons.mp hnd).2
    have hj'lt : j' < hs.length := hbound j' (List.mem_cons_self _ _)
    rw [List.foldl_cons,
      ih _ j hndt (fun j'' hj'' => by
        rw [List.length_set]
        exact hbound j'' (List.mem_cons_of_mem _ hj''))]
    by_cases hjmem : j = j'
    · subst hjmem
      rw [if_neg hj't, if_pos (List.mem_cons_self _ _),
        getD_set_self _ _ _ _ hj'lt]
    · by_cases hjt : j ∈ t
      · rw [if_pos hjt, if_pos (List.mem_cons_of_mem _ hjt),
          getD_set_ne _ _ _ _ _ (Ne.symm hjmem)]
      · rw [if_neg hjt,
          if_neg (by
            intro hc
            rcases List.mem_cons.mp hc with hc | hc
            · exact hjmem hc
            · exact hjt hc),
          getD_set_ne _ _ _ _ _ (Ne.symm hjmem)]

theorem outer_fold_getD (kNN : ℕ) (qs : ℕ → List ℕ)
    (f : ℕ → ℕ → List (ℚ × ℕ)) (hqs : ∀ p, (qs p).Nodup) :
    ∀ (P : List ℕ) (hs : List (List (ℚ × ℕ))) (j : ℕ),
      (∀ p j', j' ∈ qs p → j' < hs.length) →
      (P.foldl (fun hs p => (qs p).foldl (fun hs j =>
        hs.set j (hFold kNN (hs.getD j []) (f p j))) hs) hs).getD j []
        = hFold kNN (hs.getD j [])
          ((P.filter (fun p => decide (j ∈ qs p))).flatMap
            (fun p => f p j)) := by
  intro P
  induction P with
  | nil =>
    intro hs j _
    rfl
  | cons p P' ih =>
    intro hs j hbound
    rw [List.foldl_cons,
      ih _ j (fun p' j' hj' => by
        rw [inner_fold_len]
        exact hbound p' j' hj'),
      inner_fold_getD kNN (f p) (qs p) hs j (hqs p)
        (fun j' hj' => hbound p j' hj')]
    rw [List.filter_cons]
    by_cases hjp : j ∈ qs p
    · rw [if_pos hjp,
        if_pos (show decide (j ∈ qs p) = true from by simpa using hjp),
        List.flatMap_cons]
      rw [show ∀ (h : List (ℚ × ℕ)) (l₁ l₂ : List (ℚ × ℕ)),
          hFold kNN h (l₁ ++ l₂) = hFold kNN (hFold kNN h l₁) l₂ from
        fun h l₁ l₂ => by rw [hFold, hFold, hFold, List.foldl_append]]
    · rw [if_neg hjp,
        if_neg (show ¬decide (j ∈ qs p) = true from by simpa using hjp)]

theorem advance_terminal (cfg : SConfig) (s : SState)
    (hs : s.partHi = cfg.parts.length)
    (hfit : ∀ i, i < cfg.parts.length → activeSize cfg i ≤ cfg.maxCols) :
    advance cfg s = .ok
      (⟨s.colHi, s.colHi, s.partHi, s.partHi, s.colHi, s.partHi, 0, 0⟩,
       false) := by
  have hdrop : (activeSizes cfg).drop s.partHi = [] := by
    apply List.drop_eq_nil_of_le
    rw [activeSizes_length, hs]
  have h := advance_ok cfg s (le_of_eq hs) hfit (Or.inl hs)
  rw [hdrop] at h
  simp only [greedyTake, List.take_nil, List.sum_nil, Nat.add_zero] at h
  rw [h]
  rfl

theorem mkStreamer_permissive (N : ℕ) (ind parts : List ℕ) (ub : ℕ)
    (hpos : 0 < ind.length) (hlast : ind.getD (ind.length - 1) 0 = N)
    (hub : ub = 0 ∨ totalMaxCols ind parts ≤ ub)
    (hne : parts = [] ∨ totalMaxCols ind parts ≠ 0) :
    mkStreamer N ind parts ub
      = .ok (⟨N, ind, parts, totalMaxCols ind parts⟩,
          ⟨0, totalMaxCols ind parts, 0, parts.length, 0, 0,
           totalMaxCols ind parts, parts.length⟩,
          decide (0 < totalMaxCols ind parts)) := by
  rw [mkStreamer, ctorFix_eq N ind hpos hlast]
  show ((match advance ⟨N, ind, parts,
      windowCap ub (totalMaxCols ind parts)⟩ initState with
    | Except.error e => Except.error e
    | Except.ok r => Except.ok (⟨N, ind, parts,
        windowCap ub (totalMaxCols ind parts)⟩, r.1, r.2)) :
      Except SErr (SConfig × SState × Bool)) = _
  rw [windowCap_permissive ub (totalMaxCols ind parts) hub]
  have hcfg : (⟨N, ind, parts, totalMaxCols ind parts⟩ : SConfig).parts
      = parts := rfl
  have hfit : ∀ i, i < parts.length →
      activeSize ⟨N, ind, parts, totalMaxCols ind parts⟩ i
        ≤ totalMaxCols ind parts := by
    intro i hi
    have hmem : activeSize ⟨N, ind, parts, totalMaxCols ind parts⟩ i
        ∈ activeSizes ⟨N, ind, parts, totalMaxCols ind parts⟩ := by
      rw [← activeSizes_getElem _ i (by rw [activeSizes_length]; exact hi)]
      exact List.getElem_mem _
    have := List.single_le_sum
      (l := activeSizes ⟨N, ind, parts, totalMaxCols ind parts⟩)
      (fun y _ => Nat.zero_le y) _ hmem
    rw [activeSizes_sum] at this
    exact this
  have hrem : (initState.partHi = parts.length) ∨
      ∃ i, initState.partHi ≤ i ∧ i < parts.length ∧
        0 < activeSize ⟨N, ind, parts, totalMaxCols ind parts⟩ i := by
    rcases hne with hnil | hnz
    · left
      rw [hnil]
      rfl
    · right
      have hsum : (activeSizes
          ⟨N, ind, parts, totalMaxCols ind parts⟩).sum ≠ 0 := by
        rw [activeSizes_sum]
        exact hnz
      have : ∃ x ∈ activeSizes ⟨N, ind, parts, totalMaxCols ind parts⟩,
          x ≠ 0 := by
        by_contra hall
        push_neg at hall
        exact hsum (List.sum_eq_zero hall)
      obtain ⟨x, hxmem, hxne⟩ := this
      obtain ⟨i, hi, hxi⟩ := List.mem_iff_getElem.mp hxmem
      refine ⟨i, Nat.zero_le i, ?_, ?_⟩
      · rw [activeSizes_length] at hi
        exact hi
      · rw [activeSizes_getElem _ i hi] at hxi
        omega
  have hadv := advance_ok ⟨N, ind, parts, totalMaxCols ind parts⟩ initState
    (by show (0 : ℕ) ≤ parts.length; exact Nat.zero_le _) hfit hrem
  rw [show ((⟨N, ind, parts, totalMaxCols ind parts⟩ : SConfig)).maxCols
      = totalMaxCols ind parts from rfl] at hadv
  rw [show initState.partHi = 0 from rfl,
    show initState.colHi = 0 from rfl] at hadv
  have hgt : greedyTake (totalMaxCols ind parts) 0
      ((activeSizes ⟨N, ind, parts, totalMaxCols ind parts⟩).drop 0)
      = parts.length := by
    rw [List.drop_zero, greedyTake_all]
    · exact activeSizes_length _
    · rw [Nat.zero_add, activeSizes_sum]
  rw [hgt] at hadv
  have htake : ((activeSizes
      ⟨N, ind, parts, totalMaxCols ind parts⟩).drop 0).take parts.length
      = activeSizes ⟨N, ind, parts, totalMaxCols ind parts⟩ := by
    rw [List.drop_zero]
    apply List.take_of_length_le
    rw [activeSizes_length]
  rw [htake, activeSizes_sum, Nat.zero_add, Nat.zero_add] at hadv
  rw [hadv]

theorem finiteLoop_one (cfg : SConfig) (db : List Vec) (ids : List ℕ)
    (q : List Vec) (active : List ℕ) (probes : List (List ℕ))
    (sizes : List ℕ) (kNN fuel : ℕ) (s s' : SState)
    (heaps : List (List (ℚ × ℕ)))
    (hadv : advance cfg s = .ok (s', false)) :
    finiteLoop cfg db ids q active probes sizes kNN (fuel + 1) s heaps
      = .ok (processWindow cfg db ids q active probes sizes kNN s
          heaps) := by
  rw [finiteLoop, hadv]

theorem fit_total (N : ℕ) (ind parts : List ℕ) :
    ∀ i, i < parts.length →
      activeSize ⟨N, ind, parts, totalMaxCols ind parts⟩ i
        ≤ totalMaxCols ind parts := by
  intro i hi
  have hmem : activeSize ⟨N, ind, parts, totalMaxCols ind parts⟩ i
      ∈ activeSizes ⟨N, ind, parts, totalMaxCols ind parts⟩ := by
    rw [← activeSizes_getElem _ i (by rw [activeSizes_length]; exact hi)]
    exact List.getElem_mem _
  have h := List.single_le_sum
    (l := activeSizes ⟨N, ind, parts, totalMaxCols ind parts⟩)
    (fun y _ => Nat.zero_le y) _ hmem
  rw [activeSizes_sum] at h
  exact h

theorem getD_range_map {α : Type} (f : ℕ → α) (d : α) (n j : ℕ)
    (hj : j < n) : ((List.range n).map f).getD j d = f j := by
  rw [List.getD_eq_getElem?_getD, List.getElem?_map,
    List.getElem?_eq_getElem (by simpa using hj)]
  rw [List.getElem_range]
  rfl

theorem mem_queriesOf (probes : List (List ℕ)) (p j : ℕ) :
    j ∈ queriesOf probes p ↔ j < probes.length ∧ p ∈ probes.getD j [] := by
  rw [queriesOf, List.mem_filter, List.mem_range]
  simp only [decide_eq_true_eq]

theorem queriesOf_nodup (probes : List (List ℕ)) (p : ℕ) :
    (queriesOf probes p).Nodup :=
  List.Nodup.filter _ (List.nodup_range _)

theorem hFold_nil_pairs_ids_le {S : Type} [LinearOrder S] (k n : ℕ)
    (sc : ℕ → S) :
    (↑((hFold k []
      ((List.range n).map (fun i => (sc i, i)))).map Prod.snd) :
        Multiset ℕ) ≤ ↑(List.range n) := by
  calc (↑((hFold k []
        ((List.range n).map (fun i => (sc i, i)))).map Prod.snd) :
          Multiset ℕ)
      ≤ ↑(([] : List (S × ℕ)).map Prod.snd)
        + ↑((((List.range n).map (fun i => (sc i, i)))).map Prod.snd) :=
        hFold_ids_le _ _ _
    _ = ↑(List.range n) := by
        rw [List.map_map]
        rw [show (Prod.snd ∘ fun i => (sc i, i)) = fun (i : ℕ) => i
          from rfl]
        simp

theorem assignNearest_nodup (centroids : List Vec) (qv : Vec)
    (nprobe : ℕ) : (assignNearest centroids qv nprobe).Nodup := by
  rw [assignNearest, heapTopIds]
  have hle := hFold_nil_pairs_ids_le nprobe centroids.length
    (fun i => L2 (centroids.getD i []) qv)
  have hperm : (↑((heapSort (hFold nprobe []
      ((List.range centroids.length).map
        (fun i => (L2 (centroids.getD i []) qv, i))))).map Prod.snd) :
        Multiset ℕ)
      = ↑((hFold nprobe [] ((List.range centroids.length).map
        (fun i => (L2 (centroids.getD i []) qv, i)))).map Prod.snd) :=
    Multiset.coe_eq_coe.mpr ((List.mergeSort_perm _ _).map Prod.snd)
  have h := Multiset.nodup_of_le (hperm ▸ hle)
    (Multiset.coe_nodup.mpr (List.nodup_range _))
  exact Multiset.coe_nodup.mp h

theorem assignNearest_lt (centroids : List Vec) (qv : Vec)
    (nprobe : ℕ) (x : ℕ) (hx : x ∈ assignNearest centroids qv nprobe) :
    x < centroids.length := by
  rw [assignNearest, heapTopIds] at hx
  have hle := hFold_nil_pairs_ids_le nprobe centroids.length
    (fun i => L2 (centroids.getD i []) qv)
  have hperm : (↑((heapSort (hFold nprobe []
      ((List.range centroids.length).map
        (fun i => (L2 (centroids.getD i []) qv, i))))).map Prod.snd) :
        Multiset ℕ)
      = ↑((hFold nprobe [] ((List.range centroids.length).map
        (fun i => (L2 (centroids.getD i []) qv, i)))).map Prod.snd) :=
    Multiset.coe_eq_coe.mpr ((List.mergeSort_perm _ _).map Prod.snd)
  have hx' : x ∈ (↑(List.range centroids.length) : Multiset ℕ) :=
    Multiset.mem_of_le (hperm ▸ hle) (by rwa [Multiset.mem_coe])
  rw [Multiset.mem_coe, List.mem_range] at hx'
  exact hx'

theorem activeParts_nodup (probes : List (List ℕ)) :
    (activeParts probes).Nodup := by
  rw [activeParts]
  exact ((List.mergeSort_perm _ _).nodup_iff).mpr (List.nodup_dedup _)

theorem mem_activeParts (probes : List (List ℕ)) (x : ℕ) :
    x ∈ activeParts probes ↔ ∃ l ∈ probes, x ∈ l := by
  rw [activeParts, (List.mergeSort_perm _ _).mem_iff, List.mem_dedup,
    List.mem_flatMap]
  simp only [id]

theorem listA_perm (active : List ℕ) (probes : List (List ℕ)) (j : ℕ)
    (hand : active.Nodup) (hpnd : (probes.getD j []).Nodup)
    (hsub : ∀ x, x ∈ probes.getD j [] → x ∈ active)
    (hj : j < probes.length) :
    List.Perm
      (((List.range active.length).filter (fun p =>
        decide (j ∈ queriesOf probes (active.getD p 0)))).map
          (fun p => active.getD p 0))
      (probes.getD j []) := by
  have hfil : ∀ p, p ∈ (List.range active.length).filter (fun p =>
      decide (j ∈ queriesOf probes (active.getD p 0))) →
      p < active.length ∧ active.getD p 0 ∈ probes.getD j [] := by
    intro p hp
    rw [List.mem_filter, List.mem_range] at hp
    obtain ⟨hplt, hpq⟩ := hp
    rw [decide_eq_true_eq, mem_queriesOf] at hpq
    exact ⟨hplt, hpq.2⟩
  have hnodA : (((List.range active.length).filter (fun p =>
      decide (j ∈ queriesOf probes (active.getD p 0)))).map
        (fun p => active.getD p 0)).Nodup := by
    apply List.Nodup.map_on
    · intro x hx y hy hxy
      obtain ⟨hxl, _⟩ := hfil x hx
      obtain ⟨hyl, _⟩ := hfil y hy
      rw [List.getD_eq_getElem?_getD, List.getElem?_eq_getElem hxl,
        List.getD_eq_getElem?_getD, List.getElem?_eq_getElem hyl] at hxy
      exact (List.Nodup.getElem_inj_iff hand).mp hxy
    · exact List.Nodup.filter _ (List.nodup_range _)
  rw [List.perm_ext_iff_of_nodup hnodA hpnd]
  intro x
  constructor
  · intro hx
    rw [List.mem_map] at hx
    obtain ⟨p, hp, hpx⟩ := hx
    obtain ⟨_, hmem⟩ := hfil p hp
    rw [hpx] at hmem
    exact hmem
  · intro hx
    have hxa : x ∈ active := hsub x hx
    obtain ⟨p, hplt, hpx⟩ := List.mem_iff_getElem.mp hxa
    rw [List.mem_map]
    refine ⟨p, ?_, ?_⟩
    · rw [List.mem_filter, List.mem_range]
      refine ⟨hplt, ?_⟩
      rw [decide_eq_true_eq, mem_queriesOf]
      refine ⟨hj, ?_⟩
      rw [show active.getD p 0 = x from by
        rw [List.getD_eq_getElem?_getD, List.getElem?_eq_getElem hplt]
        exact hpx]
      exact hx
    · rw [List.getD_eq_getElem?_getD, List.getElem?_eq_getElem hplt]
      exact hpx

theorem heapTopIds_perm_eq (k : ℕ) (c₁ c₂ : List (ℚ × ℕ))
    (hperm : List.Perm c₁ c₂) (hnd : (c₂.map Prod.fst).Nodup) :
    heapTopIds (hFold k [] c₁) = heapTopIds (hFold k [] c₂) := by
  have h1 := SelK_hFold_nil (k := k) c₁
  have h2 := SelK_hFold_nil (k := k) c₂
  have hc : (↑c₁ : Multiset (ℚ × ℕ)) = ↑c₂ := Multiset.coe_eq_coe.mpr hperm
  rw [hc] at h1
  have hndm : (Multiset.map Prod.fst (↑c₂ : Multiset (ℚ × ℕ))).Nodup := by
    rw [Multiset.map_coe, Multiset.coe_nodup]
    exact hnd
  have heq := SelK_unique hndm h1 h2
  rw [heapTopIds, heapTopIds, heapSort_congr heq]

theorem windowCols_all (N : ℕ) (ind active : List ℕ) (db : List Vec) :
    windowCols ⟨N, ind, active, totalMaxCols ind active⟩ db 0 active.length
      = active.flatMap (fun p =>
        (List.range' (ind.getD p 0) (ind.getD (p + 1) 0 - ind.getD p 0)).map
          (fun c => db.getD c [])) := by
  rw [windowCols]
  show ((active.drop 0).take (active.length - 0)).flatMap _ = _
  rw [List.drop_zero, Nat.sub_zero, List.take_length]

theorem windowIds_all (N : ℕ) (ind active : List ℕ) (ids : List ℕ) :
    windowIds ⟨N, ind, active, totalMaxCols ind active⟩ ids 0 active.length
      = active.flatMap (fun p =>
        (List.range' (ind.getD p 0) (ind.getD (p + 1) 0 - ind.getD p 0)).map
          (fun c => ids.getD c 0)) := by
  rw [windowIds]
  show ((active.drop 0).take (active.length - 0)).flatMap _ = _
  rw [List.drop_zero, Nat.sub_zero, List.take_length]

theorem newIdx_diff (ind active : List ℕ) (p : ℕ) (hp : p < active.length) :
    newIdx (active.map (fun p => ind.getD (p + 1) 0 - ind.getD p 0)) (p + 1)
      - newIdx (active.map (fun p => ind.getD (p + 1) 0 - ind.getD p 0)) p
      = ind.getD (active.getD p 0 + 1) 0 - ind.getD (active.getD p 0) 0 := by
  have hps : p < (active.map (fun p =>
      ind.getD (p + 1) 0 - ind.getD p 0)).length := by
    rw [List.length_map]
    exact hp
  rw [newIdx, newIdx, List.sum_take_succ _ _ hps]
  rw [List.getElem_map]
  rw [show active.getD p 0 = active[p] from by
    rw [List.getD_eq_getElem?_getD, List.getElem?_eq_getElem hp]; rfl]
  omega

theorem flatMap_prefix_getD {α : Type} (ind active : List ℕ)
    (g : ℕ → List α) (d : α)
    (hg : ∀ x, (g x).length = ind.getD (x + 1) 0 - ind.getD x 0)
    (p t : ℕ) (hp : p < active.length)
    (ht : t < ind.getD (active.getD p 0 + 1) 0
      - ind.getD (active.getD p 0) 0) :
    (active.flatMap g).getD
      (newIdx (active.map (fun p => ind.getD (p + 1) 0 - ind.getD p 0)) p
        + t) d
      = (g (active.getD p 0)).getD t d := by
  have hpre : ((active.take p).map (fun x => (g x).length)).sum
      = newIdx (active.map (fun p =>
          ind.getD (p + 1) 0 - ind.getD p 0)) p := by
    rw [newIdx, ← List.map_take]
    congr 1
    apply List.map_congr_left
    intro x _
    exact hg x
  rw [← hpre]
  exact flatMap_getD g d active p t hp (by rw [hg]; exact ht)

theorem window_cand_eq (N : ℕ) (ind active : List ℕ) (db : List Vec)
    (ids : List ℕ) (qv : Vec) (p : ℕ) (hp : p < active.length) :
    (List.range' (newIdx (active.map (fun p =>
        ind.getD (p + 1) 0 - ind.getD p 0)) p)
      (newIdx (active.map (fun p => ind.getD (p + 1) 0 - ind.getD p 0))
          (p + 1)
        - newIdx (active.map (fun p =>
            ind.getD (p + 1) 0 - ind.getD p 0)) p)).map (fun kk =>
      (L2 qv ((windowCols ⟨N, ind, active, totalMaxCols ind active⟩ db 0
        active.length).getD kk []),
       (windowIds ⟨N, ind, active, totalMaxCols ind active⟩ ids 0
        active.length).getD kk 0))
    = (List.range' (ind.getD (active.getD p 0) 0)
        (ind.getD (active.getD p 0 + 1) 0
          - ind.getD (active.getD p 0) 0)).map
      (fun i => (L2 qv (db.getD i []), ids.getD i 0)) := by
  rw [newIdx_diff ind active p hp, windowCols_all, windowIds_all]
  rw [List.range'_eq_map_range, List.range'_eq_map_range,
    List.map_map, List.map_map]
  apply List.map_congr_left
  intro t htm
  rw [List.mem_range] at htm
  have hbuf := flatMap_prefix_getD ind active (fun pp =>
    (List.range' (ind.getD pp 0) (ind.getD (pp + 1) 0 - ind.getD pp 0)).map
      (fun c => db.getD c [])) []
    (fun x => by rw [List.length_map, List.length_range']) p t hp htm
  have hbufIds := flatMap_prefix_getD ind active (fun pp =>
    (List.range' (ind.getD pp 0) (ind.getD (pp + 1) 0 - ind.getD pp 0)).map
      (fun c => ids.getD c 0)) 0
    (fun x => by rw [List.length_map, List.length_range']) p t hp htm
  rw [range'_map_getD _ _ _ _ t htm] at hbuf
  rw [range'_map_getD _ _ _ _ t htm] at hbufIds
  show (L2 qv ((active.flatMap _).getD
      (newIdx (active.map (fun p =>
        ind.getD (p + 1) 0 - ind.getD p 0)) p + t) []),
     (active.flatMap _).getD
      (newIdx (active.map (fun p =>
        ind.getD (p + 1) 0 - ind.getD p 0)) p + t) 0)
    = (L2 qv (db.getD (ind.getD (active.getD p 0) 0 + t) []),
       ids.getD (ind.getD (active.getD p 0) 0 + t) 0)
  rw [hbuf, hbufIds]

theorem processWindow_getD (cfg : SConfig) (db : List Vec) (ids : List ℕ)
    (q : List Vec) (active : List ℕ) (probes : List (List ℕ))
    (sizes : List ℕ) (kNN : ℕ) (s : SState)
    (heaps : List (List (ℚ × ℕ))) (j : ℕ)
    (hb : probes.length ≤ heaps.length) :
    (processWindow cfg db ids q active probes sizes kNN s heaps).getD j []
      = hFold kNN (heaps.getD j [])
        (((List.range s.numColParts).filter (fun p =>
          decide (j ∈ queriesOf probes
            (active.getD (p + s.partOffset) 0)))).flatMap
          (fun p =>
            (List.range' (newIdx sizes (p + s.partOffset))
              (newIdx sizes (p + s.partOffset + 1)
                - newIdx sizes (p + s.partOffset))).map (fun kk =>
              (L2 (q.getD j [])
                ((windowCols cfg db s.partLo s.partHi).getD
                  (kk - s.colOffset) []),
               (windowIds cfg ids s.partLo s.partHi).getD
                (kk - s.colOffset) 0)))) := by
  show ((List.range s.numColParts).foldl (fun hs p =>
      (queriesOf probes (active.getD (p + s.partOffset) 0)).foldl
        (fun hs j => hs.set j (hFold kNN (hs.getD j [])
          ((List.range' (newIdx sizes (p + s.partOffset))
            (newIdx sizes (p + s.partOffset + 1)
              - newIdx sizes (p + s.partOffset))).map (fun kk =>
            (L2 (q.getD j [])
              ((windowCols cfg db s.partLo s.partHi).getD
                (kk - s.colOffset) []),
             (windowIds cfg ids s.partLo s.partHi).getD
              (kk - s.colOffset) 0))))) hs) heaps).getD j [] = _
  exact outer_fold_getD kNN
    (fun p => queriesOf probes (active.getD (p + s.partOffset) 0))
    (fun p j => (List.range' (newIdx sizes (p + s.partOffset))
      (newIdx sizes (p + s.partOffset + 1)
        - newIdx sizes (p + s.partOffset))).map (fun kk =>
      (L2 (q.getD j [])
        ((windowCols cfg db s.partLo s.partHi).getD (kk - s.colOffset) []),
       (windowIds cfg ids s.partLo s.partHi).getD (kk - s.colOffset) 0)))
    (fun p => queriesOf_nodup probes _)
    (List.range s.numColParts) heaps j
    (fun p j' hj' =>
      lt_of_lt_of_le ((mem_queriesOf probes _ j').mp hj').1 hb)

theorem perm_flatMap_comp {α : Type} (f : ℕ → ℕ) (g : ℕ → List α)
    (l : List ℕ) (targets : List ℕ) (h : List.Perm (l.map f) targets) :
    List.Perm (l.flatMap (fun p => g (f p))) (targets.flatMap g) := by
  have h1 : l.flatMap (fun p => g (f p)) = (l.map f).flatMap g := by
    rw [List.flatMap_map]
  rw [h1]
  exact h.flatMap_right g

theorem infiniteQuery_eq (db : List Vec) (ids : List ℕ)
    (centroids : List Vec) (q : List Vec) (indices : List ℕ)
    (nprobe kNN : ℕ) (hlen : indices.length = centroids.length + 1) :
    infiniteQuery db ids centroids q indices nprobe kNN
      = (List.range q.length).map (fun j =>
          heapTopIds (hFold kNN []
            ((assignNearest centroids (q.getD j []) nprobe).flatMap
              (fun p =>
                (List.range' (indices.getD p 0)
                  (indices.getD (p + 1) 0 - indices.getD p 0)).map
                    (fun i => (L2 (q.getD j []) (db.getD i []),
                      ids.getD i 0)))))) := by
  rw [infiniteQuery]
  simp only [infFix_id db.length centroids.length indices hlen]

theorem finiteQuery_eq (db : List Vec) (ids : List ℕ)
    (centroids : List Vec) (q : List Vec) (indices : List ℕ)
    (nprobe kNN ub : ℕ)
    (hlen : indices.length = centroids.length + 1)
    (hlast : indices.getD centroids.length 0 = db.length)
    (hub : ub = 0 ∨ totalMaxCols indices
      (activeParts ((List.range q.length).map
        (fun j => assignNearest centroids (q.getD j []) nprobe))) ≤ ub)
    (hne : activeParts ((List.range q.length).map
        (fun j => assignNearest centroids (q.getD j []) nprobe)) = [] ∨
      totalMaxCols indices (activeParts ((List.range q.length).map
        (fun j => assignNearest centroids (q.getD j []) nprobe))) ≠ 0) :
    finiteQuery db ids centroids q indices nprobe kNN ub
      = .ok ((List.range q.length).map (fun j => heapTopIds
          ((processWindow
            ⟨db.length, indices,
             activeParts ((List.range q.length).map
               (fun j => assignNearest centroids (q.getD j []) nprobe)),
             totalMaxCols indices (activeParts ((List.range q.length).map
               (fun j => assignNearest centroids (q.getD j []) nprobe)))⟩
            db ids q
            (activeParts ((List.range q.length).map
              (fun j => assignNearest centroids (q.getD j []) nprobe)))
            ((List.range q.length).map
              (fun j => assignNearest centroids (q.getD j []) nprobe))
            ((activeParts ((List.range q.length).map
              (fun j => assignNearest centroids (q.getD j []) nprobe))).map
              (fun p => indices.getD (p + 1) 0 - indices.getD p 0))
            kNN
            ⟨0, totalMaxCols indices (activeParts
               ((List.range q.length).map (fun j =>
                 assignNearest centroids (q.getD j []) nprobe))),
             0,
             (activeParts ((List.range q.length).map (fun j =>
               assignNearest centroids (q.getD j []) nprobe))).length,
             0, 0,
             totalMaxCols indices (activeParts
               ((List.range q.length).map (fun j =>
                 assignNearest centroids (q.getD j []) nprobe))),
             (activeParts ((List.range q.length).map (fun j =>
               assignNearest centroids (q.getD j []) nprobe))).length⟩
            (List.replicate q.length [])).getD j []))) := by
  have hN0 : 0 < indices.length := by omega
  have hlast' : indices.getD (indices.length - 1) 0 = db.length := by
    rw [show indices.length - 1 = centroids.length from by omega]
    exact hlast
  rw [finiteQuery]
  simp only [qvFix_id centroids.length indices hlen]
  rw [mkStreamer_permissive db.length indices
    (activeParts ((List.range q.length).map
      (fun j => assignNearest centroids (q.getD j []) nprobe))) ub
    hN0 hlast' hub hne]
  show (match finiteLoop
      ⟨db.length, indices,
       activeParts ((List.range q.length).map
         (fun j => assignNearest centroids (q.getD j []) nprobe)),
       totalMaxCols indices (activeParts ((List.range q.length).map
         (fun j => assignNearest centroids (q.getD j []) nprobe)))⟩
      db ids q
      (activeParts ((List.range q.length).map
        (fun j => assignNearest centroids (q.getD j []) nprobe)))
      ((List.range q.length).map
        (fun j => assignNearest centroids (q.getD j []) nprobe))
      ((activeParts ((List.range q.length).map
        (fun j => assignNearest centroids (q.getD j []) nprobe))).map
        (fun p => indices.getD (p + 1) 0 - indices.getD p 0))
      kNN
      ((activeParts ((List.range q.length).map
        (fun j => assignNearest centroids (q.getD j []) nprobe))).length
        + 1)
      ⟨0, totalMaxCols indices (activeParts
         ((List.range q.length).map (fun j =>
           assignNearest centroids (q.getD j []) nprobe))),
       0,
       (activeParts ((List.range q.length).map (fun j =>
         assignNearest centroids (q.getD j []) nprobe))).length,
       0, 0,
       totalMaxCols indices (activeParts
         ((List.range q.length).map (fun j =>
           assignNearest centroids (q.getD j []) nprobe))),
       (activeParts ((List.range q.length).map (fun j =>
         assignNearest centroids (q.getD j []) nprobe))).length⟩
      (List.replicate q.length []) with
    | Except.error e => Except.error e
    | Except.ok heaps => Except.ok ((List.range q.length).map
        (fun j => heapTopIds (heaps.getD j [])))) = _
  rw [finiteLoop_one _ db ids q _ _ _ kNN _ _ _ _
    (advance_terminal _ _ rfl (fit_total db.length indices _))]

/-- C1 (amended): for common inputs with a well-formed indices vector
(length `nlist + 1`, final sentinel equal to the database's column count),
a fully permissive `upper_bound` (zero or at least the total active column
count), active partitions that are not all empty unless there are none,
and per-query candidate scores that are pairwise distinct,
`qv_query_heap_finite_ram` returns exactly the top-k ids matrix of
`qv_query_heap_infinite_ram`.  Without the distinct-scores proviso the two
modes can disagree on ties, because the finite path scans candidates in
ascending partition order while the infinite path scans them in probe rank
order (see the counterexample). -/
theorem tvs_C1 (db : List Vec) (ids : List ℕ) (centroids : List Vec)
    (q : List Vec) (indices : List ℕ) (nprobe kNN ub : ℕ)
    (hlen : indices.length = centroids.length + 1)
    (hlast : indices.getD centroids.length 0 = db.length)
    (hub : ub = 0 ∨ totalMaxCols indices
      (activeParts ((List.range q.length).map
        (fun j => assignNearest centroids (q.getD j []) nprobe))) ≤ ub)
    (hne : activeParts ((List.range q.length).map
        (fun j => assignNearest centroids (q.getD j []) nprobe)) = [] ∨
      totalMaxCols indices (activeParts ((List.range q.length).map
        (fun j => assignNearest centroids (q.getD j []) nprobe))) ≠ 0)
    (hdist : ∀ j, j < q.length →
      (((assignNearest centroids (q.getD j []) nprobe).flatMap (fun p =>
        (List.range' (indices.getD p 0)
          (indices.getD (p + 1) 0 - indices.getD p 0)).map
            (fun i => (L2 (q.getD j []) (db.getD i []),
              ids.getD i 0)))).map Prod.fst).Nodup) :
    finiteQuery db ids centroids q indices nprobe kNN ub
      = .ok (infiniteQuery db ids centroids q indices nprobe kNN) := by
  rw [finiteQuery_eq db ids centroids q indices nprobe kNN ub hlen hlast
    hub hne,
    infiniteQuery_eq db ids centroids q indices nprobe kNN hlen]
  congr 1
  apply List.map_congr_left
  intro j hjr
  have hj : j < q.length := List.mem_range.mp hjr
  have hPlen : ((List.range q.length).map
      (fun j => assignNearest centroids (q.getD j []) nprobe)).length
      = q.length := by
    rw [List.length_map, List.length_range]
  rw [processWindow_getD _ db ids q _ _ _ kNN _ _ j
    (by rw [hPlen, List.length_replicate])]
  rw [getD_replicate_self]
  simp only [Nat.add_zero, Nat.sub_zero]
  have hcong : ∀ p ∈ (List.range (activeParts ((List.range q.length).map
      (fun j => assignNearest centroids (q.getD j []) nprobe))).length).filter
      (fun p => decide (j ∈ queriesOf ((List.range q.length).map
        (fun j => assignNearest centroids (q.getD j []) nprobe))
        ((activeParts ((List.range q.length).map
          (fun j => assignNearest centroids (q.getD j []) nprobe))).getD
            p 0))),
      (List.range' (newIdx ((activeParts ((List.range q.length).map
          (fun j => assignNearest centroids (q.getD j []) nprobe))).map
          (fun p => indices.getD (p + 1) 0 - indices.getD p 0)) p)
        (newIdx ((activeParts ((List.range q.length).map
          (fun j => assignNearest centroids (q.getD j []) nprobe))).map
          (fun p => indices.getD (p + 1) 0 - indices.getD p 0)) (p + 1)
          - newIdx ((activeParts ((List.range q.length).map
            (fun j => assignNearest centroids (q.getD j []) nprobe))).map
            (fun p => indices.getD (p + 1) 0 - indices.getD p 0)) p)).map
        (fun kk =>
          (L2 (q.getD j [])
            ((windowCols ⟨db.length, indices,
              activeParts ((List.range q.length).map
                (fun j => assignNearest centroids (q.getD j []) nprobe)),
              totalMaxCols indices (activeParts ((List.range q.length).map
                (fun j => assignNearest centroids (q.getD j [])
                  nprobe)))⟩
              db 0 (activeParts ((List.range q.length).map
                (fun j => assignNearest centroids (q.getD j [])
                  nprobe))).length).getD kk []),
           (windowIds ⟨db.length, indices,
              activeParts ((List.range q.length).map
                (fun j => assignNearest centroids (q.getD j []) nprobe)),
              totalMaxCols indices (activeParts ((List.range q.length).map
                (fun j => assignNearest centroids (q.getD j [])
                  nprobe)))⟩
              ids 0 (activeParts ((List.range q.length).map
                (fun j => assignNearest centroids (q.getD j [])
                  nprobe))).length).getD kk 0))
      = (List.range' (indices.getD ((activeParts
            ((List.range q.length).map (fun j =>
              assignNearest centroids (q.getD j []) nprobe))).getD p 0) 0)
          (indices.getD ((activeParts ((List.range q.length).map
            (fun j => assignNearest centroids (q.getD j [])
              nprobe))).getD p 0 + 1) 0
            - indices.getD ((activeParts ((List.range q.length).map
              (fun j => assignNearest centroids (q.getD j [])
                nprobe))).getD p 0) 0)).map
          (fun i => (L2 (q.getD j []) (db.getD i []), ids.getD i 0)) := by
    intro p hp
    exact window_cand_eq db.length indices
      (activeParts ((List.range q.length).map
        (fun j => assignNearest centroids (q.getD j []) nprobe)))
      db ids (q.getD j []) p
      (List.mem_range.mp (List.mem_filter.mp hp).1)
  rw [List.flatMap_congr hcong]
  have hAnd : (activeParts ((List.range q.length).map
      (fun j => assignNearest centroids (q.getD j []) nprobe))).Nodup :=
    activeParts_nodup _
  have hpnd : (assignNearest centroids (q.getD j []) nprobe).Nodup :=
    assignNearest_nodup centroids (q.getD j []) nprobe
  have hPj : (((List.range q.length).map
      (fun j => assignNearest centroids (q.getD j []) nprobe))).getD j []
      = assignNearest centroids (q.getD j []) nprobe :=
    getD_range_map _ [] q.length j hj
  have hsub : ∀ x, x ∈ (((List.range q.length).map
      (fun j => assignNearest centroids (q.getD j []) nprobe))).getD j []
      → x ∈ activeParts ((List.range q.length).map
        (fun j => assignNearest centroids (q.getD j []) nprobe)) := by
    intro x hx
    rw [mem_activeParts]
    refine ⟨(((List.range q.length).map
      (fun j => assignNearest centroids (q.getD j []) nprobe))).getD j [],
      ?_, hx⟩
    rw [show (((List.range q.length).map
        (fun j => assignNearest centroids (q.getD j []) nprobe))).getD j []
        = (((List.range q.length).map
          (fun j => assignNearest centroids (q.getD j []) nprobe)))[j]
      from by
        rw [List.getD_eq_getElem?_getD,
          List.getElem?_eq_getElem (by rw [hPlen]; exact hj)]
        rfl]
    exact List.getElem_mem _
  have hlist := listA_perm
    (activeParts ((List.range q.length).map
      (fun j => assignNearest centroids (q.getD j []) nprobe)))
    ((List.range q.length).map
      (fun j => assignNearest centroids (q.getD j []) nprobe))
    j hAnd (by rw [hPj]; exact hpnd) hsub (by rw [hPlen]; exact hj)
  rw [hPj] at hlist
  have hperm : List.Perm
      (((List.range (activeParts ((List.range q.length).map
        (fun j => assignNearest centroids (q.getD j [])
          nprobe))).length).filter
        (fun p => decide (j ∈ queriesOf ((List.range q.length).map
          (fun j => assignNearest centroids (q.getD j []) nprobe))
          ((activeParts ((List.range q.length).map
            (fun j => assignNearest centroids (q.getD j [])
              nprobe))).getD p 0)))).flatMap
        (fun p => (List.range' (indices.getD ((activeParts
            ((List.range q.length).map (fun j =>
              assignNearest centroids (q.getD j []) nprobe))).getD p 0) 0)
          (indices.getD ((activeParts ((List.range q.length).map
            (fun j => assignNearest centroids (q.getD j [])
              nprobe))).getD p 0 + 1) 0
            - indices.getD ((activeParts ((List.range q.length).map
              (fun j => assignNearest centroids (q.getD j [])
                nprobe))).getD p 0) 0)).map
          (fun i => (L2 (q.getD j []) (db.getD i []), ids.getD i 0))))
      ((assignNearest centroids (q.getD j []) nprobe).flatMap
        (fun pp => (List.range' (indices.getD pp 0)
          (indices.getD (pp + 1) 0 - indices.getD pp 0)).map
          (fun i => (L2 (q.getD j []) (db.getD i []), ids.getD i 0)))) :=
    perm_flatMap_comp
      (fun p => (activeParts ((List.range q.length).map
        (fun j => assignNearest centroids (q.getD j []) nprobe))).getD p 0)
      (fun pp => (List.range' (indices.getD pp 0)
        (indices.getD (pp + 1) 0 - indices.getD pp 0)).map
        (fun i => (L2 (q.getD j []) (db.getD i []), ids.getD i 0)))
      _ _ hlist
  rw [heapTopIds_perm_eq kNN _ _ hperm (hdist j hj)]

theorem assignNearest_q6 :
    assignNearest [[(0 : ℚ)], [10]] [(6 : ℚ)] 2 = [1, 0] := by
  with_unfolding_all rfl

theorem activeParts_pair : activeParts [[1, 0]] = [0, 1] := by
  with_unfolding_all rfl

theorem probes_q6 : (List.range ([[(6 : ℚ)]] : List Vec).length).map
    (fun j => assignNearest [[(0 : ℚ)], [10]]
      (([[(6 : ℚ)]] : List Vec).getD j []) 2) = [[1, 0]] := by
  simp only [show ([[(6 : ℚ)]] : List Vec).length = 1 from rfl,
    show List.range 1 = [0] from rfl, List.map_cons, List.map_nil,
    show (([[(6 : ℚ)]] : List Vec).getD 0 []) = [(6 : ℚ)] from rfl,
    assignNearest_q6]

/-- C1 counterexample: two database columns scoring identically (distance 4
from the query to both column 0 and column 1), both partitions probed.  The
infinite-RAM path keeps id 200, the finite-RAM path keeps id 100: the
returned matrices differ entry for entry, refuting the unconditional
claim. -/
theorem tvs_C1_cex :
    infiniteQuery [[(4 : ℚ)], [8]] [100, 200] [[(0 : ℚ)], [10]]
        [[(6 : ℚ)]] [0, 1, 2] 2 1 = [[200]] ∧
    finiteQuery [[(4 : ℚ)], [8]] [100, 200] [[(0 : ℚ)], [10]]
        [[(6 : ℚ)]] [0, 1, 2] 2 1 0 = .ok [[100]] := by
  constructor
  · rw [infiniteQuery_eq _ _ _ _ _ _ _ (by decide)]
    simp only [show ([[(6 : ℚ)]] : List Vec).length = 1 from rfl,
      show List.range 1 = [0] from rfl, List.map_cons, List.map_nil,
      show (([[(6 : ℚ)]] : List Vec).getD 0 []) = [(6 : ℚ)] from rfl,
      assignNearest_q6]
    with_unfolding_all rfl
  · rw [finiteQuery_eq _ _ _ _ _ 2 1 0 (by decide) (by decide) (Or.inl rfl)
      (Or.inr (by simp only [probes_q6, activeParts_pair]; decide))]
    simp only [probes_q6, activeParts_pair]
    with_unfolding_all rfl

/-- C1 witness: same shape as the counterexample but with distinct
candidate scores (database columns [4] and [7], query [6]); the finite path
returns exactly the infinite path's answer. -/
theorem tvs_C1_witness :
    (([0, 1, 2] : List ℕ).length
      = ([[(0 : ℚ)], [10]] : List Vec).length + 1) ∧
    (([0, 1, 2] : List ℕ).getD ([[(0 : ℚ)], [10]] : List Vec).length 0
      = ([[(4 : ℚ)], [7]] : List Vec).length) ∧
    finiteQuery [[(4 : ℚ)], [7]] [100, 200] [[(0 : ℚ)], [10]] [[(6 : ℚ)]]
        [0, 1, 2] 2 2 0
      = .ok (infiniteQuery [[(4 : ℚ)], [7]] [100, 200] [[(0 : ℚ)], [10]]
          [[(6 : ℚ)]] [0, 1, 2] 2 2) :=
  ⟨by decide, by decide,
   tvs_C1 [[(4 : ℚ)], [7]] [100, 200] [[(0 : ℚ)], [10]] [[(6 : ℚ)]]
     [0, 1, 2] 2 2 0 (by decide) (by decide) (Or.inl rfl)
     (Or.inr (by simp only [probes_q6, activeParts_pair]; decide))
     (fun j hj => by
       have hj1 : j < 1 := by simpa using hj
       have hj0 : j = 0 := by omega
       subst hj0
       simp only [show (([[(6 : ℚ)]] : List Vec).getD 0 []) = [(6 : ℚ)]
         from rfl, assignNearest_q6]
       exact of_decide_eq_true (by with_unfolding_all rfl))⟩

end TDBVS
